import Mathlib

/-!
# CFGTrace: the control-flow graph construction core

A shallow embedding of the graph builder (`cfgtrace/control_flow_graph.cpp`), of
the basic-block node (`goliath/graph/node.cpp`, `goliath/graph/node.h`), of their
binary codec and of the Graphviz renderer, followed by the properties proved about
them. The merger, whose source is not part of the tree, is modelled from the
specification.

Conventions of the embedding.

* `size_t` values are natural numbers; the machine word is 64 bits wide, so
  `sizeof(size_t) = 8`, `sizeof(unsigned int) = 4` and `sizeof(bool) = 1`.
  Where the source performs arithmetic that can leave the range of its type
  (`occurrences++` on an `unsigned int`, loop counters declared with `0u`) the
  reduction modulo the width is written out.
* `std::map<size_t, std::unique_ptr<Node>>` is an association list ordered by key
  whose values are `Option Node`; `none` is a null (moved-from) `unique_ptr`.
* A member function that mutates `*this` takes the object and returns the new one.
* The builder functions take the iteration index as an argument and hand it to
  `Node::append_instruction(instruction, iteration)` and to the `Node(start_address,
  iteration)` constructor of `goliath/graph/node.h`.
* Memory is a function from byte addresses to byte values; a serialiser returns
  the list of `memcpy` calls it performs, in program order.
* `std::string` is `String`.
* A `float` or a `double` is the rational number it holds. A cast to `float` and an
  arithmetic operation on `double` give the exact result rounded to 24 and to 53
  significant bits, to nearest, ties to even (`round_to`), as IEEE 754 arithmetic
  does; this is the arithmetic of `pick_color`.
-/

namespace assembly

/-- Modelled from the spec: the branch kind of an instruction record (section 3,
`kind`), the header `assembly/instruction.h` not being part of the source tree.
`unrecognised` stands for every tag that is not one of the six named variants. -/
inductive Kind where
  | none
  | call
  | ret
  | conditional_jump
  | unconditional_jump
  | leave
  | unrecognised
  deriving DecidableEq

/-- Modelled from the spec: the instruction record of section 3 (`address`, `text`,
`kind`, `length`, `target`, optional `api_tag`); the class `assembly::instruction`
is declared in a header that is not part of the source tree. -/
structure instruction where
  address : Nat
  text : String
  kind : Kind
  length : Nat
  target : Nat
  api_tag : Option String := Option.none
  deriving DecidableEq

namespace instruction

/-- Modelled from the spec: `pointer_address()` is the runtime address (`eip`) of
the instruction, the `address` field of section 3. -/
def pointer_address (i : instruction) : Nat := i.address

/-- Modelled from the spec: `is_branch()`; "Branch" means any kind other than
`none` (section 3). -/
def is_branch (i : instruction) : Bool := i.kind != Kind.none

/-- Modelled from the spec: `is_ret()` holds exactly for `kind = return`. -/
def is_ret (i : instruction) : Bool := i.kind == Kind.ret

/-- Modelled from the spec: `true_successor = target` when the kind is `call`,
`conditional_jump` or `unconditional_jump`, else `0` (section 3). -/
def true_branch_address (i : instruction) : Nat :=
  match i.kind with
  | Kind.call => i.target
  | Kind.conditional_jump => i.target
  | Kind.unconditional_jump => i.target
  | _ => 0

/-- Modelled from the spec: `false_successor = address + length` when the kind is
`call` or `conditional_jump`, else `0` (section 3). -/
def false_branch_address (i : instruction) : Nat :=
  match i.kind with
  | Kind.call => i.address + i.length
  | Kind.conditional_jump => i.address + i.length
  | _ => 0

/-- Modelled from the spec: invariant I1, a record is valid iff `text` is non-empty,
`length > 0` and `kind` is a recognised variant. -/
def validate (i : instruction) : Bool :=
  i.text != "" && decide (0 < i.length) && i.kind != Kind.unrecognised

end instruction

end assembly

/-- The basic block of `goliath/graph/node.h`; the default values are the member
initialisers of the class, so `{}` is the default-constructed `Node()`. -/
structure Node where
  _start_address : Nat := 0
  _iteration : Nat := 0
  block : List assembly.instruction := []
  is_done : Bool := false
  max_occurrences : Nat := 1
  true_branch_address : Nat := 0
  false_branch_address : Nat := 0
  occurrences : Nat := 1
  deriving DecidableEq

namespace Node

/-- The constructor `Node(size_t start_address, size_t iteration)`. -/
def create (start_address iteration : Nat) : Node :=
  { _start_address := start_address, _iteration := iteration }

/-- `Node::mark_done`. -/
def mark_done (n : Node) : Node := { n with is_done := true }

/-- `Node::done`. -/
def done (n : Node) : Bool := n.is_done

/-- `Node::true_neighbour`. -/
def true_neighbour (n : Node) : Nat := n.true_branch_address

/-- `Node::false_neighbour`. -/
def false_neighbour (n : Node) : Nat := n.false_branch_address

/-- `Node::start_address`. -/
def start_address (n : Node) : Nat := n._start_address

/-- `Node::contains_address`: linear scan of the block. -/
def contains_address (n : Node) (eip : Nat) : Bool :=
  n.block.any (fun i => i.pointer_address == eip)

/-- `Node::already_visited`: `occurrences` is an `unsigned int`, so the increment
is taken modulo `2^32`. The function reads `block[0]`; it is only called when the
block contains `eip`, the empty case is kept as a no-op. -/
def already_visited (n : Node) (eip : Nat) : Node :=
  match n.block with
  | [] => n
  | i :: _ =>
    if i.pointer_address = eip then { n with occurrences := (n.occurrences + 1) % 2 ^ 32 }
    else n

/-- `Node::append_instruction(instruction, iteration)`. -/
def append_instruction (n : Node) (i : assembly.instruction) (iteration : Nat) : Node :=
  let eip := i.pointer_address
  if n.done && n.contains_address eip then
    if n._iteration = iteration then n.already_visited eip
    else n
  else { n with block := n.block ++ [i] }

/-- `Node::append_branch_instruction(instruction, iteration)`. -/
def append_branch_instruction (n : Node) (i : assembly.instruction) (iteration : Nat) : Node :=
  if n.done then n
  else
    let n1 := n.append_instruction i iteration
    let n2 :=
      if !i.is_ret then
        { n1 with true_branch_address := i.true_branch_address,
                  false_branch_address := i.false_branch_address }
      else n1
    n2.mark_done

end Node

/-- `std::map::find` on the association list: the value stored under `k`, if the
key is present. -/
def map_find {α : Type} : List (Nat × α) → Nat → Option α
  | [], _ => none
  | (k1, v) :: rest, k => if k1 = k then some v else map_find rest k

/-- `std::map::operator[]` followed by an assignment: insert-or-assign that keeps
the list ordered by key. -/
def map_assign {α : Type} : List (Nat × α) → Nat → α → List (Nat × α)
  | [], k, v => [(k, v)]
  | (k1, v1) :: rest, k, v =>
    if k < k1 then (k, v) :: (k1, v1) :: rest
    else if k = k1 then (k, v) :: rest
    else (k1, v1) :: map_assign rest k v

/-- How a builder call ends: normally, with the `invalid_argument` exception, or in
the dereference of a null `unique_ptr` (behaviour the source leaves undefined). -/
inductive outcome where
  | ok
  | invalid_argument
  | null_dereference
  deriving DecidableEq

/-- The state of `control_flow_graph`: the node map and the three address members
the source file reads and writes, `start_address_first_node` in `load_to_memory` and
`load_from_memory`, `current_node_start_addr` and `current_pointer` (the cursor) in
`set_and_get_current_address` and `unset_current_address`. -/
structure control_flow_graph where
  nodes : List (Nat × Option Node) := []
  start_address_first_node : Nat := 0
  current_node_start_addr : Nat := 0
  current_pointer : Nat := 0
  deriving DecidableEq

namespace control_flow_graph

/-- The freshly constructed, empty graph. -/
def empty : control_flow_graph := {}

/-- `control_flow_graph::node_exists`. -/
def node_exists (g : control_flow_graph) (address : Nat) : Bool :=
  (map_find g.nodes address).isSome

/-- `control_flow_graph::get_current_node`: an existing entry is moved out of the
map, which leaves a null pointer under its key; otherwise a new node is made. -/
def get_current_node (g : control_flow_graph) (start_address iteration : Nat) :
    Option Node × control_flow_graph :=
  match map_find g.nodes start_address with
  | some p => (p, { g with nodes := map_assign g.nodes start_address none })
  | none => (some (Node.create start_address iteration), g)

/-- `control_flow_graph::node_contains_address`: the scan returns at the first node
that contains the address; `none` when it reaches a null pointer, which the loop
dereferences. -/
def node_contains_address (g : control_flow_graph) (address : Nat) : Option Bool :=
  let rec scan : List (Nat × Option Node) → Option Bool
    | [] => some false
    | (_, none) :: _ => none
    | (_, some n) :: rest => if n.contains_address address then some true else scan rest
  scan g.nodes

/-- `control_flow_graph::set_and_get_current_address`. -/
def set_and_get_current_address (g : control_flow_graph) (eip : Nat) :
    Nat × control_flow_graph :=
  let g1 := if g.current_node_start_addr = 0 then { g with current_node_start_addr := eip } else g
  let g2 := if g1.current_pointer = 0 then { g1 with current_pointer := eip } else g1
  (g2.current_pointer, g2)

/-- `control_flow_graph::append_node_neighbors`. -/
def append_node_neighbors (g : control_flow_graph) (node : Node) (iteration : Nat) :
    control_flow_graph :=
  let true_address := node.true_neighbour
  let false_address := node.false_neighbour
  let g1 :=
    if true_address ≠ 0 then
      let r := g.get_current_node true_address iteration
      { r.2 with nodes := map_assign r.2.nodes true_address r.1 }
    else g
  if false_address ≠ 0 then
    let r := g1.get_current_node false_address iteration
    { r.2 with nodes := map_assign r.2.nodes false_address r.1 }
  else g1

/-- `control_flow_graph::unset_current_address`. -/
def unset_current_address (g : control_flow_graph) (node : Node) : control_flow_graph :=
  if node.done then { g with current_pointer := 0 } else g

/-- `control_flow_graph::append_instruction`. An exception is thrown before any
member is written, so the state returned with `invalid_argument` is the input. -/
def append_instruction (g : control_flow_graph) (i : assembly.instruction) (iteration : Nat) :
    outcome × control_flow_graph :=
  if !i.validate then (outcome.invalid_argument, g)
  else if i.is_branch then (outcome.invalid_argument, g)
  else
    let r := g.set_and_get_current_address i.pointer_address
    let current := r.1
    let q := r.2.get_current_node current iteration
    match q.1 with
    | none => (outcome.null_dereference, q.2)
    | some node =>
      let node1 := node.append_instruction i iteration
      (outcome.ok, { q.2 with nodes := map_assign q.2.nodes current (some node1) })

/-- `control_flow_graph::append_branch_instruction`. -/
def append_branch_instruction (g : control_flow_graph) (i : assembly.instruction)
    (iteration : Nat) : outcome × control_flow_graph :=
  if !i.validate then (outcome.invalid_argument, g)
  else if !i.is_branch then (outcome.invalid_argument, g)
  else
    let r := g.set_and_get_current_address i.pointer_address
    let current := r.1
    let q := r.2.get_current_node current iteration
    match q.1 with
    | none => (outcome.null_dereference, q.2)
    | some node =>
      let node1 := node.append_branch_instruction i iteration
      let g1 := q.2.append_node_neighbors node1 iteration
      let g2 := g1.unset_current_address node1
      (outcome.ok, { g2 with nodes := map_assign g2.nodes current (some node1) })

/-- Feeding one instruction through the builder: `append_branch_instruction` for a
branch, `append_instruction` otherwise. -/
def feed (g : control_flow_graph) (i : assembly.instruction) (iteration : Nat) :
    outcome × control_flow_graph :=
  if i.is_branch then g.append_branch_instruction i iteration
  else g.append_instruction i iteration

/-- Feeding a stream of instructions in order; the run stops at the first call
that does not end normally. -/
def feed_all (g : control_flow_graph) (iteration : Nat) :
    List assembly.instruction → outcome × control_flow_graph
  | [] => (outcome.ok, g)
  | i :: rest =>
    match g.feed i iteration with
    | (outcome.ok, g1) => feed_all g1 iteration rest
    | r => r

end control_flow_graph

/-- The graphs the builder can produce: the empty graph closed under the two
append operations, each call ending normally, at any iteration index. -/
inductive Reachable : control_flow_graph → Prop where
  | empty : Reachable control_flow_graph.empty
  | instruction (g g1 : control_flow_graph) (i : assembly.instruction) (iteration : Nat) :
      Reachable g → g.append_instruction i iteration = (outcome.ok, g1) → Reachable g1
  | branch (g g1 : control_flow_graph) (i : assembly.instruction) (iteration : Nat) :
      Reachable g → g.append_branch_instruction i iteration = (outcome.ok, g1) → Reachable g1

/-- What `get_current_node` followed by the assignment of its result leaves under
the key `a`: the entry that was there, or a new node. -/
def slot_after_ensure (old : Option (Option Node)) (a iteration : Nat) : Option Node :=
  match old with
  | some p => p
  | none => some (Node.create a iteration)

/-- The keys of the node map are strictly increasing, as in every `std::map`. -/
def keys_sorted {α : Type} (m : List (Nat × α)) : Prop :=
  List.Pairwise (fun a b => a < b) (m.map Prod.fst)

/-- The invariant of the builder, kept by every call that ends normally. -/
structure BuilderInv (g : control_flow_graph) : Prop where
  sorted : keys_sorted g.nodes
  no_null : ∀ k, map_find g.nodes k ≠ some none
  entry : ∀ k n, map_find g.nodes k = some (some n) → n._start_address = k
  head : ∀ k n x, map_find g.nodes k = some (some n) → n.block.head? = some x →
    x.pointer_address = k
  cursor : g.current_pointer ≠ 0 →
    ∃ n, map_find g.nodes g.current_pointer = some (some n) ∧ n.block ≠ []
  succ : ∀ k n, map_find g.nodes k = some (some n) →
    (n.true_branch_address ≠ 0 → (map_find g.nodes n.true_branch_address).isSome = true) ∧
    (n.false_branch_address ≠ 0 → (map_find g.nodes n.false_branch_address).isSome = true)
  ret : ∀ k n x, map_find g.nodes k = some (some n) → x ∈ n.block → x.is_ret = true →
    n.true_branch_address = 0 ∧ n.false_branch_address = 0
  opened : ∀ k n, map_find g.nodes k = some (some n) → n.is_done = false →
    n.true_branch_address = 0 ∧ n.false_branch_address = 0 ∧
      ∀ x ∈ n.block, x.is_branch = false
  valid : ∀ k n x, map_find g.nodes k = some (some n) → x ∈ n.block → x.validate = true
  first : g.current_node_start_addr = 0 →
    ∀ k n x, map_find g.nodes k = some (some n) → x ∈ n.block → x.pointer_address = 0
  zero : ∀ n x, map_find g.nodes 0 = some (some n) → x ∈ n.block → x.pointer_address = 0

/-! ## Memory and the binary codec -/

/-- Byte-addressed memory: the value stored at each address. -/
abbrev Memory := Nat → Nat

/-- One `memcpy` into the buffer: the destination address and the bytes copied. -/
structure Write where
  dst : Nat
  bytes : List Nat
  deriving DecidableEq

/-- The object representation of an unsigned integer that is `width` bytes wide
(little-endian, as on the x86 targets of the plugin). -/
def le_bytes : Nat → Nat → List Nat
  | 0, _ => []
  | width + 1, value => value % 256 :: le_bytes width (value / 256)

/-- The unsigned integer whose little-endian object representation is given. -/
def le_value : List Nat → Nat
  | [] => 0
  | b :: rest => b + 256 * le_value rest

namespace Memory

/-- The `count` bytes stored from address `src` on. -/
def read (m : Memory) (src count : Nat) : List Nat :=
  (List.range count).map (fun k => m (src + k))

/-- The memory after one `memcpy`. -/
def store (m : Memory) (w : Write) : Memory :=
  fun a => if w.dst ≤ a ∧ a < w.dst + w.bytes.length then w.bytes.getD (a - w.dst) 0 else m a

/-- The memory after a sequence of `memcpy` calls, first call first. -/
def store_all (m : Memory) (ws : List Write) : Memory :=
  ws.foldl store m

end Memory

/-- The number of bytes a sequence of `memcpy` calls copies. -/
def bytes_written : List Write → Nat
  | [] => 0
  | w :: rest => w.bytes.length + bytes_written rest

/-- Modelled from the spec: the byte-exact `serialize`/`deserialize` of the
instruction record (section 4.1), that is the members `mem_size`, `load_to_memory`
and `load_from_memory` of `assembly::instruction`, whose source is not part of the
tree. `load_to_memory` gives the bytes the call copies, from the destination pointer
on; `load_from_memory` reads the record that starts at a pointer. -/
structure instruction_codec where
  mem_size : assembly.instruction → Nat
  load_to_memory : assembly.instruction → List Nat
  load_from_memory : Memory → Nat → assembly.instruction

/-- The loop of `Node::mem_size`: for each item `sizeof(item_size)`, which is 8,
and then `item_size`. -/
def block_mem_size (codec : instruction_codec) : List assembly.instruction → Nat
  | [] => 0
  | item :: rest => 8 + codec.mem_size item + block_mem_size codec rest

/-- The loop of `Node::load_to_memory`: each item is written at the pointer, which
then advances by `item.mem_size()`. -/
def store_block (codec : instruction_codec) : List assembly.instruction → Nat → List Write
  | [], _ => []
  | item :: rest, mem =>
    { dst := mem, bytes := codec.load_to_memory item } ::
      store_block codec rest (mem + codec.mem_size item)

/-- The pointer after the loop of `Node::load_to_memory`. -/
def block_end (codec : instruction_codec) : List assembly.instruction → Nat → Nat
  | [], mem => mem
  | item :: rest, mem => block_end codec rest (mem + codec.mem_size item)

/-- The body of the loop of `Node::load_from_memory`, run `count` times from the
pointer `mem`: the instructions read and the pointer after the loop. -/
def load_block (codec : instruction_codec) (m : Memory) :
    Nat → Nat → List assembly.instruction × Nat
  | 0, mem => ([], mem)
  | count + 1, mem =>
    let instr := codec.load_from_memory m mem
    let r := load_block codec m count (mem + codec.mem_size instr)
    (instr :: r.1, r.2)

namespace Node

/-- `Node::mem_size`. The sum cannot leave the range of `size_t`: every term is
bounded by the storage the node itself occupies. -/
def mem_size (codec : instruction_codec) (n : Node) : Nat :=
  8 + 8 + 8 + block_mem_size codec n.block + 1 + 8 + 8 + 8 + 4

/-- `Node::load_to_memory`: the `memcpy` calls made when the node is written at the
pointer `mem`. -/
def load_to_memory (codec : instruction_codec) (n : Node) (mem : Nat) : List Write :=
  [{ dst := mem, bytes := le_bytes 8 n._start_address },
   { dst := mem + 8, bytes := le_bytes 8 n._iteration },
   { dst := mem + 16, bytes := le_bytes 8 n.block.length }] ++
  store_block codec n.block (mem + 24) ++
  [{ dst := block_end codec n.block (mem + 24), bytes := [if n.is_done then 1 else 0] },
   { dst := block_end codec n.block (mem + 24) + 1, bytes := le_bytes 8 n.max_occurrences },
   { dst := block_end codec n.block (mem + 24) + 9, bytes := le_bytes 8 n.true_branch_address },
   { dst := block_end codec n.block (mem + 24) + 17, bytes := le_bytes 8 n.false_branch_address },
   { dst := block_end codec n.block (mem + 24) + 25, bytes := le_bytes 4 n.occurrences }]

/-- `Node::load_from_memory`. The loop counter is declared `auto i = 0u`, a 32-bit
`unsigned int`, and is compared with the 64-bit count `n`: for `n >= 2^32` the test
`i < n` never fails and the loop does not end; `none` stands for that. -/
def load_from_memory (codec : instruction_codec) (self : Node) (m : Memory) (mem : Nat) :
    Option Node :=
  let n := le_value (m.read (mem + 16) 8)
  if n < 2 ^ 32 then
    let r := load_block codec m n (mem + 24)
    some
      { _start_address := le_value (m.read mem 8),
        _iteration := le_value (m.read (mem + 8) 8),
        block := self.block ++ r.1,
        is_done := m r.2 != 0,
        max_occurrences := le_value (m.read (r.2 + 1) 8),
        true_branch_address := le_value (m.read (r.2 + 9) 8),
        false_branch_address := le_value (m.read (r.2 + 17) 8),
        occurrences := le_value (m.read (r.2 + 25) 4) }
  else none

end Node

/-- The loop of `control_flow_graph::mem_size`; `none` when an item holds a null
pointer, which the loop dereferences. -/
def nodes_mem_size (codec : instruction_codec) : List (Nat × Option Node) → Option Nat
  | [] => some 0
  | (_, none) :: _ => none
  | (_, some node) :: rest =>
    match nodes_mem_size codec rest with
    | none => none
    | some size => some (8 + node.mem_size codec + size)

/-- The loop of `control_flow_graph::load_to_memory`: the key, then the node, the
pointer advancing by `sizeof(key)` and by `mem_size()` of the node; `none` when an
item holds a null pointer. -/
def store_nodes (codec : instruction_codec) : List (Nat × Option Node) → Nat → Option (List Write)
  | [], _ => some []
  | (_, none) :: _, _ => none
  | (key, some node) :: rest, mem =>
    match store_nodes codec rest (mem + 8 + node.mem_size codec) with
    | none => none
    | some ws =>
      some ({ dst := mem, bytes := le_bytes 8 key } :: node.load_to_memory codec (mem + 8) ++ ws)

/-- The body of the loop of `control_flow_graph::load_from_memory`, run `count` times
from the pointer `mem`. -/
def load_nodes (codec : instruction_codec) (m : Memory) :
    Nat → Nat → control_flow_graph → Option control_flow_graph
  | 0, _, g => some g
  | count + 1, mem, g =>
    let key := le_value (m.read mem 8)
    match Node.load_from_memory codec {} m (mem + 8) with
    | none => none
    | some node =>
      load_nodes codec m count (mem + 8 + node.mem_size codec)
        { g with nodes := map_assign g.nodes key (some node) }

namespace control_flow_graph

/-- `control_flow_graph::mem_size`. -/
def mem_size (codec : instruction_codec) (g : control_flow_graph) : Option Nat :=
  match nodes_mem_size codec g.nodes with
  | none => none
  | some size => some (8 + 8 + size)

/-- `control_flow_graph::load_to_memory`: the `memcpy` calls made when the graph is
written at the pointer `mem`. -/
def load_to_memory (codec : instruction_codec) (g : control_flow_graph) (mem : Nat) :
    Option (List Write) :=
  match store_nodes codec g.nodes (mem + 16) with
  | none => none
  | some ws =>
    some ({ dst := mem, bytes := le_bytes 8 g.start_address_first_node } ::
      { dst := mem + 8, bytes := le_bytes 8 g.nodes.length } :: ws)

/-- `control_flow_graph::load_from_memory`. As in `Node::load_from_memory` the loop
counter is a 32-bit `unsigned int` compared with a 64-bit count, and `none` stands
for a loop that does not end. -/
def load_from_memory (codec : instruction_codec) (g : control_flow_graph) (m : Memory)
    (mem : Nat) : Option control_flow_graph :=
  let n := le_value (m.read (mem + 8) 8)
  if n < 2 ^ 32 then
    load_nodes codec m n (mem + 16)
      { g with start_address_first_node := le_value (m.read mem 8) }
  else none

end control_flow_graph

/-- The memory `m` holds every write of the log: the bytes copied by each `memcpy`
are the bytes found at its destination. -/
def holds (m : Memory) (ws : List Write) : Prop :=
  ∀ w ∈ ws, m.read w.dst w.bytes.length = w.bytes

/-- The writes of the log lie between `lo` and `hi` and each starts where the one
before it has ended, or later. -/
def ordered_between : Nat → List Write → Nat → Prop
  | lo, [], hi => lo ≤ hi
  | lo, w :: rest, hi => lo ≤ w.dst ∧ ordered_between (w.dst + w.bytes.length) rest hi

/-- The members of the node fit their C++ types: `size_t` is 64 bits wide and
`occurrences` is an `unsigned int`. -/
def Node.representable (n : Node) : Prop :=
  n._start_address < 2 ^ 64 ∧ n._iteration < 2 ^ 64 ∧ n.block.length < 2 ^ 64 ∧
  n.max_occurrences < 2 ^ 64 ∧ n.true_branch_address < 2 ^ 64 ∧
  n.false_branch_address < 2 ^ 64 ∧ n.occurrences < 2 ^ 32

/-! ## Sample traces used to instantiate the theorems -/

/-- The `cmp` at `0x3000` of the loop scenario. -/
def loop_cmp : assembly.instruction :=
  { address := 0x3000, text := "cmp eax, ebx", kind := assembly.Kind.none, length := 4,
    target := 0 }

/-- The `jne 0x3000` at `0x3004` (two bytes long) of the loop scenario. -/
def loop_jne : assembly.instruction :=
  { address := 0x3004, text := "jne 0x3000", kind := assembly.Kind.conditional_jump,
    length := 2, target := 0x3000 }

/-- The five-byte `mov` found at `0x3000` once the code of the loop has been
rewritten in place. -/
def patched_mov : assembly.instruction :=
  { address := 0x3000, text := "mov eax, 1", kind := assembly.Kind.none, length := 5,
    target := 0 }

/-- The instruction that follows `patched_mov`, at `0x3005`. -/
def patched_add : assembly.instruction :=
  { address := 0x3005, text := "add eax, 2", kind := assembly.Kind.none, length := 3,
    target := 0 }

/-- The graph after `cmp`, `jne` have been fed once at iteration 1. -/
def loop_graph : control_flow_graph :=
  (control_flow_graph.empty.feed_all 1 [loop_cmp, loop_jne]).2

/-- The node the loop scenario leaves at `0x3000`, with the visit count as a
parameter. -/
def loop_node (visits : Nat) : Node :=
  { _start_address := 0x3000, _iteration := 1, block := [loop_cmp, loop_jne], is_done := true,
    true_branch_address := 0x3000, false_branch_address := 0x3006, occurrences := visits }

/-- The `call 0x2000` at `0x1000` (five bytes long) of the call-then-return scenario. -/
def scenario_call : assembly.instruction :=
  { address := 0x1000, text := "call 0x2000", kind := assembly.Kind.call, length := 5,
    target := 0x2000 }

/-- The `xor` at `0x2000` of the call-then-return scenario. -/
def scenario_xor : assembly.instruction :=
  { address := 0x2000, text := "xor eax, eax", kind := assembly.Kind.none, length := 2,
    target := 0 }

/-- The `ret` at `0x2002` of the call-then-return scenario. -/
def scenario_ret : assembly.instruction :=
  { address := 0x2002, text := "ret", kind := assembly.Kind.ret, length := 1, target := 0 }

/-- The graph after the call-then-return scenario at iteration 1. -/
def call_graph : control_flow_graph :=
  (control_flow_graph.empty.feed_all 1 [scenario_call, scenario_xor, scenario_ret]).2

/-- The node the call-then-return scenario leaves at `0x2000`. -/
def callee_node : Node :=
  { _start_address := 0x2000, _iteration := 1, block := [scenario_xor, scenario_ret],
    is_done := true }

/-- The visit count stored under `a` is larger by exactly one in `g1` than in `g`. -/
def visits_incremented (g g1 : control_flow_graph) (a : Nat) : Prop :=
  ∃ n n1, map_find g.nodes a = some (some n) ∧ map_find g1.nodes a = some (some n1) ∧
    n1.occurrences = n.occurrences + 1

/-- An unconditional jump at `0x5000` to itself: a block made of a single branch. -/
def self_jump : assembly.instruction :=
  { address := 0x5000, text := "jmp 0x5000", kind := assembly.Kind.unconditional_jump,
    length := 2, target := 0x5000 }

/-- The graph after `self_jump` has been fed once at iteration 1. -/
def jump_graph : control_flow_graph :=
  (control_flow_graph.empty.feed_all 1 [self_jump]).2

/-- The node `jump_graph` holds at `0x5000`. -/
def jump_node : Node :=
  { _start_address := 0x5000, _iteration := 1, block := [self_jump], is_done := true,
    true_branch_address := 0x5000 }

/-- The loop graph with the visit count of the block at `0x3000` as a parameter. -/
def loop_graph_visited (visits : Nat) : control_flow_graph :=
  { nodes := [(0x3000, some (loop_node visits)), (0x3006, some (Node.create 0x3006 1))],
    current_node_start_addr := 0x3000 }

/-- Modelled from the spec: the tag written for each kind. The spec fixes the width
of the tag (`u32`) but not its values; the variants are numbered in the order in
which section 3 lists them. -/
def kind_tag : assembly.Kind → Nat
  | assembly.Kind.none => 0
  | assembly.Kind.call => 1
  | assembly.Kind.ret => 2
  | assembly.Kind.conditional_jump => 3
  | assembly.Kind.unconditional_jump => 4
  | assembly.Kind.leave => 5
  | assembly.Kind.unrecognised => 6

/-- Modelled from the spec: the kind a tag stands for, every other tag being an
unrecognised kind. -/
def kind_of_tag : Nat → assembly.Kind
  | 0 => assembly.Kind.none
  | 1 => assembly.Kind.call
  | 2 => assembly.Kind.ret
  | 3 => assembly.Kind.conditional_jump
  | 4 => assembly.Kind.unconditional_jump
  | 5 => assembly.Kind.leave
  | _ => assembly.Kind.unrecognised

/-- Modelled from the spec: the instruction wire form of section 6.2,
`address:u64 kind:u32 length:u32 target:u64 text_len:u64 text:bytes[text_len]`, one
byte for each character of the text. -/
def wire_codec : instruction_codec :=
  { mem_size := fun i => 8 + 4 + 4 + 8 + 8 + i.text.length,
    load_to_memory := fun i =>
      le_bytes 8 i.address ++ le_bytes 4 (kind_tag i.kind) ++ le_bytes 4 i.length ++
        le_bytes 8 i.target ++ le_bytes 8 i.text.length ++ i.text.data.map Char.toNat,
    load_from_memory := fun m mem =>
      { address := le_value (m.read mem 8),
        kind := kind_of_tag (le_value (m.read (mem + 8) 4)),
        length := le_value (m.read (mem + 12) 4),
        target := le_value (m.read (mem + 16) 8),
        text := String.mk ((m.read (mem + 32) (le_value (m.read (mem + 24) 8))).map Char.ofNat) } }

/-- The number of instructions held by the nodes of a node map. -/
def instruction_count : List (Nat × Option Node) → Nat
  | [] => 0
  | (_, none) :: rest => instruction_count rest
  | (_, some node) :: rest => node.block.length + instruction_count rest

/-- The record fits the wire form of `wire_codec`: the address, the target and the
text length fit 64 bits, the length fits 32 bits, every character of the text is one
byte, and there is no `api_tag`, which the wire form does not carry. -/
def wire_representable (i : assembly.instruction) : Prop :=
  i.address < 2 ^ 64 ∧ i.length < 2 ^ 32 ∧ i.target < 2 ^ 64 ∧ i.text.length < 2 ^ 64 ∧
  (∀ c ∈ i.text.data, c.toNat < 256) ∧ i.api_tag = none

/-! ## The renderer -/

namespace format

/-- The conversion `%08X` of `snprintf`, as `string_format` of `src/format.h` and
`format::string` run it: the upper-case hexadecimal digits of the argument, padded
on the left with zeros to eight characters. `%X` converts an `unsigned int`, so of a
64-bit `size_t` argument the low 32 bits are printed. -/
def upper_hex (value : Nat) : String :=
  let digits := (Nat.toDigits 16 (value % 2 ^ 32)).map Char.toUpper
  String.mk (List.replicate (8 - digits.length) '0' ++ digits)

/-- The conversion `%s` of `snprintf` applied to `c_str()`: the characters before
the first NUL. -/
def c_str (s : String) : String :=
  String.mk (s.data.takeWhile (fun c => c != Char.ofNat 0))

end format

/-- Modelled from the spec: `assembly::instruction::str()`, the text of the
instruction that the label of a node lists (section 4.6). -/
def assembly.instruction.str (i : assembly.instruction) : String := i.text

/-- The array `pallet` of `node.cpp`: the indices of the `blues9` colour scheme. -/
def pallet : List Nat := [1, 2, 3, 4, 5, 6, 7, 8, 9]

/-- Rounding of a rational number to the nearest integer, a tie going to the even
one: the rounding of IEEE 754 arithmetic in its default mode. -/
def round_half_even (s : ℚ) : ℤ :=
  if s - ⌊s⌋ < 1 / 2 then ⌊s⌋
  else if 1 / 2 < s - ⌊s⌋ then ⌊s⌋ + 1
  else if ⌊s⌋ % 2 = 0 then ⌊s⌋ else ⌊s⌋ + 1

/-- The value that a binary floating-point format of `prec` significant bits holds
for the positive `x`: `x` is scaled by the power of two that brings it between
`2^(prec-1)` and `2^prec`, rounded to the nearest integer, ties to even, and scaled
back. The exponent is not bounded: `pick_color` takes two `unsigned int`, below
`2^32`, and no value it computes from them leaves the range of the normal numbers of
`float` or of `double`. Zero is zero; negative values do not occur. -/
def round_to (prec : Nat) (x : ℚ) : ℚ :=
  if x ≤ 0 then 0
  else
    let e : ℤ := Int.log 2 x - ((prec : ℤ) - 1)
    (round_half_even (x / 2 ^ e) : ℚ) * 2 ^ e

/-- A value as a `float`, 24 significant bits: the result of `static_cast<float>`.
A `float` is widened to `double` without change. -/
def to_float (x : ℚ) : ℚ := round_to 24 x

/-- A value as a `double`, 53 significant bits: an arithmetic operation on `double`
gives the exact result rounded. -/
def to_double (x : ℚ) : ℚ := round_to 53 x

/-- The function `precent` of `node.cpp`, `(is / of) * 100` on `double`: the
division is rounded, and so is the product by 100. -/
def precent (is_ of_ : ℚ) : ℚ := to_double (to_double (is_ / of_) * 100)

/-- The vector `interval` of `pick_color`, `n` being `ARRAY_SIZE(pallet) = 9`:
`split_in * (i + 1)` with `split_in = 100.0 / n`, both computed in `double`, less one
where that is `100.0`. -/
def interval (i : Nat) : ℚ :=
  let split_in : ℚ := to_double (100 / 9)
  let x : ℚ := to_double (split_in * ((i + 1 : Nat) : ℚ))
  if x = 100 then to_double (x - 1) else x

/-- The search loop of `pick_color`, run over the indices given. -/
def pick_color_loop (p : ℚ) : List Nat → Nat
  | [] => 1
  | i :: rest =>
    let low := interval i
    let high := interval (i + 1)
    if p ≥ low ∧ p ≤ high then
      let half := to_double (to_double (high + low) / 2)
      let pr := precent p half
      if pr > 50 then pallet.getD (i + 1) 0 else pallet.getD i 0
    else pick_color_loop p rest

/-- The function `pick_color` of `node.cpp`, in the arithmetic of the code: `value`
and `max` are cast to `float`, and every operation on `double` is rounded. The
division `fvalue / fmax` by zero is spelled out as IEEE 754 has it: `0/0` is a NaN,
which fails every comparison and so reaches the final `return 1`, and `value/0` for a
positive value is `+inf`, which passes `p >= interval[n - 1]`. -/
def pick_color (max value : Nat) : Nat :=
  if max = 1 ∧ value = 1 then 1
  else if max = 0 then (if value = 0 then 1 else 9)
  else
    let fvalue := to_float (value : ℚ)
    let fmax := to_float (max : ℚ)
    let p := precent fvalue fmax
    if p ≤ interval 0 then 1
    else if p ≥ interval 8 then 9
    else pick_color_loop p (List.range 8)

namespace Node

/-- `Node::no_branching`. -/
def no_branching (n : Node) : Bool :=
  n.true_branch_address == 0 && n.false_branch_address == 0 && n.block.length != 0

/-- `Node::graphviz_color`. The parameters of `pick_color` are `unsigned int`, so
the `size_t` member `max_occurrences` is reduced modulo `2^32` at the call. -/
def graphviz_color (n : Node) : String :=
  if n.no_branching then "color = \"plum1\""
  else
    let color := pick_color (n.max_occurrences % 2 ^ 32) n.occurrences
    let str := "colorscheme = blues9\n\t\tcolor = " ++ toString color
    let str1 := if color ≥ 7 then str ++ "\n\t\tfontcolor = white" else str
    str1 ++ "\n"

/-- `Node::name`. -/
def name (n : Node) : String :=
  let start := n.start_address
  if start ≠ 0 then "0x" ++ format.upper_hex start else ""

/-- `Node::graphviz_label`. -/
def graphviz_label (n : Node) : String :=
  let code_block := n.name ++ "\\l"
  let code_block1 := if n.block.length ≠ 0 then code_block ++ "\\l" else code_block
  let code_block2 :=
    n.block.foldl (fun acc instruction => acc ++ (instruction.str ++ "\\l")) code_block1
  "label = \"" ++ code_block2 ++ "\""

/-- `Node::graphviz_definition`: `graphviz_definition_template` filled with the
name, the label and the colour, each passed as `c_str()` to a `%s`. -/
def graphviz_definition (n : Node) : String :=
  "\n\t\"" ++ format.c_str n.name ++ "\" [\n\t\t" ++ format.c_str n.graphviz_label ++
    "\n\t\t" ++ format.c_str n.graphviz_color ++ "\n\t]\n"

/-- The static function `relation` of `node.cpp`. -/
def relation (start end_ : Nat) : String :=
  "\"0x" ++ format.upper_hex start ++ "\" -> \"0x" ++ format.upper_hex end_ ++ "\""

/-- `Node::graphviz_relation`. -/
def graphviz_relation (n : Node) : String :=
  let start := n.start_address
  let str := ""
  let str1 :=
    if n.true_branch_address ≠ 0 then
      str ++ relation start n.true_branch_address ++ " [color=green penwidth=2.0] \n"
    else str
  if n.false_branch_address ≠ 0 then
    str1 ++ relation start n.false_branch_address ++ " [color=red penwidth=2.0] \n"
  else str1

end Node

/-- The first loop of `control_flow_graph::set_nodes_max_occurrences`: the largest
`occurrences` met so far, the local `max` being an `unsigned int` as the member is;
`none` when an item holds a null pointer, which the loop dereferences. -/
def max_of_occurrences : List (Nat × Option Node) → Nat → Option Nat
  | [], max => some max
  | (_, none) :: _, _ => none
  | (_, some node) :: rest, max =>
    max_of_occurrences rest (if node.occurrences > max then node.occurrences else max)

/-- The second loop of `control_flow_graph::set_nodes_max_occurrences`. -/
def assign_max_occurrences : List (Nat × Option Node) → Nat → Option (List (Nat × Option Node))
  | [], _ => some []
  | (_, none) :: _, _ => none
  | (key, some node) :: rest, max =>
    match assign_max_occurrences rest max with
    | none => none
    | some nodes => some ((key, some { node with max_occurrences := max }) :: nodes)

/-- The loop of `control_flow_graph::graphviz` that appends the definition of each
node to the string built so far. -/
def append_definitions : String → List (Nat × Option Node) → Option String
  | acc, [] => some acc
  | _, (_, none) :: _ => none
  | acc, (_, some node) :: rest => append_definitions (acc ++ node.graphviz_definition) rest

/-- The loop of `control_flow_graph::graphviz` that appends the relations of each
node to the string built so far. -/
def append_relations : String → List (Nat × Option Node) → Option String
  | acc, [] => some acc
  | _, (_, none) :: _ => none
  | acc, (_, some node) :: rest => append_relations (acc ++ node.graphviz_relation) rest

/-- The constant `digraph_prefix` of `control_flow_graph.cpp`. -/
def digraph_prefix : String :=
  "\ndigraph control_flow_graph \x7b\n\tnode [\n\t\tshape = box \n\t\tcolor = black\n" ++
  "\t\tarrowhead = diamond\n\t\tstyle = filled\n\t\tfontname = \"Source Code Pro\"\n" ++
  "\t\tarrowtail = normal\n\t]\t\n"

namespace control_flow_graph

/-- `control_flow_graph::set_nodes_max_occurrences`. -/
def set_nodes_max_occurrences (g : control_flow_graph) : Option control_flow_graph :=
  match max_of_occurrences g.nodes 0 with
  | none => none
  | some max =>
    match assign_max_occurrences g.nodes max with
    | none => none
    | some nodes => some { g with nodes := nodes }

/-- `control_flow_graph::graphviz`: the document, and the graph as the call to
`set_nodes_max_occurrences` leaves it. -/
def graphviz (g : control_flow_graph) : Option (String × control_flow_graph) :=
  match g.set_nodes_max_occurrences with
  | none => none
  | some g1 =>
    match append_definitions "" g1.nodes with
    | none => none
    | some definitions =>
      match append_relations ( digraph_prefix ++ definitions) g1.nodes with
      | none => none
      | some digraph => some (digraph ++ "\n\x7d", g1)

end control_flow_graph

/-- The fields of a node that the document shows: the entry, the body, the closed
flag, the two successors and the visit count; `max_occurrences` and the iteration
may differ. -/
def same_rendered_fields (a b : Node) : Prop :=
  a._start_address = b._start_address ∧ a.block = b.block ∧ a.is_done = b.is_done ∧
  a.true_branch_address = b.true_branch_address ∧
  a.false_branch_address = b.false_branch_address ∧ a.occurrences = b.occurrences

/-- Two node maps have the same keys, in the same order, and hold under each key
nodes with the same rendered fields. -/
def same_rendered_nodes : List (Nat × Option Node) → List (Nat × Option Node) → Prop
  | [], [] => True
  | (k1, some a) :: rest1, (k2, some b) :: rest2 =>
    k1 = k2 ∧ same_rendered_fields a b ∧ same_rendered_nodes rest1 rest2
  | _, _ => False

/-- The largest visit count of a list of nodes, `0` for the empty list. -/
def max_visits : List (Nat × Option Node) → Nat
  | [] => 0
  | (_, none) :: rest => max_visits rest
  | (_, some node) :: rest => max node.occurrences (max_visits rest)

/-! ## The merger -/

/-- Modelled from the spec: the two conflicts the merger reports for a node
(section 7). -/
inductive merge_conflict where
  | inconsistent_block
  | inconsistent_edges
  deriving DecidableEq

namespace Node

/-- Modelled from the spec: the fusion of section 4.5 of `other` into `self`, two
observations of the same key. The visit counts are added; each successor is that of
`self` if non-zero, else that of `other`; the body of `self` is kept if non-empty,
else that of `other` is adopted; the closed flags are or-ed; the iteration is the
smaller of the two. -/
def fuse (self other : Node) : Node :=
  { self with
    occurrences := self.occurrences + other.occurrences,
    true_branch_address :=
      if self.true_branch_address ≠ 0 then self.true_branch_address
      else other.true_branch_address,
    false_branch_address :=
      if self.false_branch_address ≠ 0 then self.false_branch_address
      else other.false_branch_address,
    block := if self.block ≠ [] then self.block else other.block,
    is_done := self.is_done || other.is_done,
    _iteration := min self._iteration other._iteration }

/-- Modelled from the spec: the conflicts of section 4.5 between two observations of
the same key: two non-zero successors that differ, two non-empty bodies that differ
in the `(address, length, kind)` of an instruction. -/
def conflicts (self other : Node) : List merge_conflict :=
  (if (self.true_branch_address ≠ 0 ∧ other.true_branch_address ≠ 0 ∧
        self.true_branch_address ≠ other.true_branch_address) ∨
      (self.false_branch_address ≠ 0 ∧ other.false_branch_address ≠ 0 ∧
        self.false_branch_address ≠ other.false_branch_address)
    then [merge_conflict.inconsistent_edges] else []) ++
  (if self.block ≠ [] ∧ other.block ≠ [] ∧
      self.block.map (fun i => (i.address, i.length, i.kind)) ≠
        other.block.map (fun i => (i.address, i.length, i.kind))
    then [merge_conflict.inconsistent_block] else [])

end Node

/-- Modelled from the spec: one step of the merger of section 4.5, the node `other`
found under the key `k`: inserted unchanged when the key is new, fused into the node
already there otherwise. -/
def merge_node (nodes : List (Nat × Option Node)) (k : Nat) (other : Node) :
    List (Nat × Option Node) :=
  match map_find nodes k with
  | some (some self) => map_assign nodes k (some (self.fuse other))
  | _ => map_assign nodes k (some other)

/-- Modelled from the spec: the merger of section 4.5 run over the nodes of `other`,
in key order. -/
def merge_nodes (nodes : List (Nat × Option Node)) :
    List (Nat × Option Node) → List (Nat × Option Node)
  | [] => nodes
  | (_, none) :: rest => merge_nodes nodes rest
  | (k, some other) :: rest => merge_nodes (merge_node nodes k other) rest

namespace control_flow_graph

/-- Modelled from the spec: `merge` (section 4.5), which `DBTFinish` of
`src/dbt_trace.cpp` calls and whose source is not part of the tree. Every node of
`other` is merged into `self`, and `first_entry` is taken from `other` if that of
`self` is zero. -/
def merge (self other : control_flow_graph) : control_flow_graph :=
  { self with
    nodes := merge_nodes self.nodes other.nodes,
    start_address_first_node :=
      if self.start_address_first_node = 0 then other.start_address_first_node
      else self.start_address_first_node }

/-- Modelled from the spec: the conflicts the merger reports, each with the key of
the node it is about. -/
def merge_conflicts (self other : control_flow_graph) : List (Nat × merge_conflict) :=
  other.nodes.foldr (fun item acc =>
    match item.2, map_find self.nodes item.1 with
    | some o, some (some s) => (s.conflicts o).map (fun c => (item.1, c)) ++ acc
    | _, _ => acc) []

end control_flow_graph

/-! ## Further sample data -/

/-- The three non-branch instructions of the straight-line scenario, at `0x1000`,
`0x1002` and `0x1005`. -/
def straight_line : List assembly.instruction :=
  [{ address := 0x1000, text := "push ebp", kind := assembly.Kind.none, length := 2, target := 0 },
   { address := 0x1002, text := "mov ebp, esp", kind := assembly.Kind.none, length := 3,
     target := 0 },
   { address := 0x1005, text := "sub esp, 8", kind := assembly.Kind.none, length := 3,
     target := 0 }]

/-- The node the straight-line scenario leaves at `0x1000`. -/
def straight_node : Node :=
  { _start_address := 0x1000, _iteration := 1, block := straight_line }

/-- A node at `entry` seen `visits` times, with an empty body. -/
def visited_node (entry visits : Nat) : Node :=
  { _start_address := entry, _iteration := 2, occurrences := visits }

/-- The graph of the current iteration in the merge scenario. -/
def merge_self : control_flow_graph :=
  { nodes := [(0x4000, some (visited_node 0x4000 2)), (0x4100, some (visited_node 0x4100 1))] }

/-- The graph decoded from shared memory in the merge scenario. -/
def merge_other : control_flow_graph :=
  { nodes := [(0x4000, some { visited_node 0x4000 3 with _iteration := 1 })],
    start_address_first_node := 0x4000 }

/-- A 16-byte buffer that announces one node and ends there: `first_entry = 0x1234`,
`node_count = 1`, every byte after them being zero. -/
def truncated_buffer : Memory :=
  Memory.store_all (fun _ => 0)
    [{ dst := 0, bytes := le_bytes 8 0x1234 }, { dst := 8, bytes := le_bytes 8 1 }]

/-- What `Node::load_from_memory` makes of a run of zero bytes. -/
def zero_node : Node :=
  { _start_address := 0, _iteration := 0, block := [], is_done := false, max_occurrences := 0,
    true_branch_address := 0, false_branch_address := 0, occurrences := 0 }

/-- The nodes of a node map in the order of the map, which is that of the keys. -/
def nodes_in_order : List (Nat × Option Node) → List Node
  | [] => []
  | (_, none) :: rest => nodes_in_order rest
  | (_, some node) :: rest => node :: nodes_in_order rest

/-- The strings of a list one after the other. -/
def concat_strings : List String → String
  | [] => ""
  | s :: rest => s ++ concat_strings rest

/-- The number of bytes `Node::load_from_memory` consumes for the record that starts
at `mem`, which is `mem_size()` of the node it builds there: the fixed fields and the
instructions read. -/
def record_size (codec : instruction_codec) (m : Memory) (mem : Nat) : Nat :=
  8 + 8 + 8 +
    block_mem_size codec (load_block codec m (le_value (m.read (mem + 16) 8)) (mem + 24)).1 +
    1 + 8 + 8 + 8 + 4

/-- Every body count that `control_flow_graph::load_from_memory` meets when it reads
`count` nodes from the pointer `mem` on is below `2^32`. -/
def body_counts_fit (codec : instruction_codec) (m : Memory) : Nat → Nat → Bool
  | 0, _ => true
  | count + 1, mem =>
    decide (le_value (m.read (mem + 8 + 16) 8) < 2 ^ 32) &&
      body_counts_fit codec m count (mem + 8 + record_size codec m (mem + 8))

/-- The graph of the loop scenario with the first entry replaced by `0x1234` and the
node `zero_node` added under the key 0. -/
def loop_graph_overwritten : control_flow_graph :=
  { loop_graph with
    start_address_first_node := 0x1234,
    nodes := (0, some zero_node) :: loop_graph.nodes }

/-- The records `control_flow_graph::load_from_memory` reads when it is asked for
`count` nodes from the pointer `mem` on: the key, and the node that
`Node::load_from_memory` builds from the bytes after it. -/
def decoded_records (codec : instruction_codec) (m : Memory) :
    Nat → Nat → List (Nat × Option Node)
  | 0, _ => []
  | count + 1, mem =>
    (le_value (m.read mem 8), Node.load_from_memory codec {} m (mem + 8)) ::
      decoded_records codec m count (mem + 8 + record_size codec m (mem + 8))

/-- The node map after each record of the list has been assigned under its key, first
record first. -/
def store_records (nodes : List (Nat × Option Node)) (records : List (Nat × Option Node)) :
    List (Nat × Option Node) :=
  records.foldl (fun acc item => map_assign acc item.1 item.2) nodes

/-! ## Text search, hexadecimal digits, the diagram command and counted reachability -/

/-- The string `text` occurs in `s` as a run of consecutive characters. -/
def contains_text (s text : String) : Bool :=
  s.data.tails.any (fun t => text.data.isPrefixOf t)

/-- The upper-case hexadecimal digit that stands for a value below 16. -/
def hex_digit (d : Nat) : Char :=
  if d < 10 then Char.ofNat (48 + d) else Char.ofNat (55 + d)

/-- The spec's form of a name (section 4.6): the `width` hexadecimal digits of
`value`, most significant first, upper-case, padded with zeros on the left. -/
def hex_digits : Nat → Nat → List Char
  | 0, _ => []
  | width + 1, value => hex_digits width (value / 16) ++ [hex_digit (value % 16)]

/-- The line `graphviz_relation` writes for the true edge from `start` to `target`. -/
def green_line (start target : Nat) : String :=
  "\"0x" ++ String.mk (hex_digits 8 (start % 2 ^ 32)) ++ "\" -> \"0x" ++
    String.mk (hex_digits 8 (target % 2 ^ 32)) ++ "\" [color=green penwidth=2.0] \n"

/-- The line `graphviz_relation` writes for the false edge from `start` to `target`. -/
def red_line (start target : Nat) : String :=
  "\"0x" ++ String.mk (hex_digits 8 (start % 2 ^ 32)) ++ "\" -> \"0x" ++
    String.mk (hex_digits 8 (target % 2 ^ 32)) ++ "\" [color=red penwidth=2.0] \n"

namespace control_flow_graph

/-- `control_flow_graph::generate`. The content is written to the stream `out`,
followed by `endl`; the command `dot` is then run by `command::execute`, which is not
part of the source tree: the two strings it hands back, `process_stderr` and
`process_exit`, are parameters. The result is the stream and either the message of
the `runtime_error` that is thrown or a normal return. -/
def generate (content out process_stderr process_exit : String) :
    String × Except String Unit :=
  let out1 := out ++ content ++ "\n"
  let exception_message := ""
  let exception_message1 :=
    if process_stderr ≠ "" then exception_message ++ process_exit else exception_message
  let exception_message2 :=
    if process_exit ≠ "" then exception_message1 ++ (" " ++ process_exit)
    else exception_message1
  if exception_message2 ≠ "" then (out1, Except.error exception_message2)
  else (out1, Except.ok ())

end control_flow_graph

/-- The graphs the builder produces from the empty graph in exactly `n` calls that
end normally, at any iteration index. -/
inductive ReachableIn : Nat → control_flow_graph → Prop where
  | empty : ReachableIn 0 control_flow_graph.empty
  | instruction (n : Nat) (g g1 : control_flow_graph) (i : assembly.instruction)
      (iteration : Nat) :
      ReachableIn n g → g.append_instruction i iteration = (outcome.ok, g1) →
      ReachableIn (n + 1) g1
  | branch (n : Nat) (g g1 : control_flow_graph) (i : assembly.instruction) (iteration : Nat) :
      ReachableIn n g → g.append_branch_instruction i iteration = (outcome.ok, g1) →
      ReachableIn (n + 1) g1

/-- A node whose entry is the address 0, with a jump back to its own block. -/
def zero_entry_node : Node :=
  { _start_address := 0, _iteration := 1,
    block := [{ address := 0, text := "jmp 0x10", kind := assembly.Kind.unconditional_jump,
                length := 2, target := 0x10 }],
    is_done := true, true_branch_address := 0x10 }

/-! ## The cursor rule of the specification, and more sample data -/

/-- The cursor rule in the words of the specification (section 4.3), on the pair
`first_entry`, `open_entry` and the address `a` of the arriving instruction: if
`open_entry = 0` and `first_entry = 0` both are set to `a`; else if `open_entry = 0`,
`open_entry` is set to `a`; the effective entry `E` is the resulting `open_entry`.
The result is the new `first_entry`, the new `open_entry` and `E`. -/
def spec_cursor_rule (first_entry open_entry a : Nat) : Nat × Nat × Nat :=
  if open_entry = 0 ∧ first_entry = 0 then (a, a, a)
  else if open_entry = 0 then (first_entry, a, a)
  else (first_entry, open_entry, open_entry)

/-- Another branch at `0x5000`, a conditional jump to `0x5000`, found there once the
code of `self_jump` has been rewritten in place. -/
def other_jump : assembly.instruction :=
  { address := 0x5000, text := "jne 0x5000", kind := assembly.Kind.conditional_jump,
    length := 2, target := 0x5000 }

/-- A graph that holds a closed block under the key 0 and a placeholder under the key
`0x10`. -/
def zero_entry_graph : control_flow_graph :=
  { nodes := [(0, some zero_entry_node), (0x10, some (Node.create 0x10 1))] }

/-- The graph `zero_entry_graph` once `truncated_buffer` has been read into it. -/
def zero_entry_graph_loaded : control_flow_graph :=
  { nodes := [(0, some zero_node), (0x10, some (Node.create 0x10 1))],
    start_address_first_node := 0x1234 }

/-! ## The node map and the builder -/

open assembly control_flow_graph
open assembly control_flow_graph

theorem map_find_assign {α : Type} (m : List (Nat × α)) (k : Nat) (v : α) (j : Nat) :
    map_find (map_assign m k v) j = if k = j then some v else map_find m j := by
  induction m with
  | nil => simp [map_assign, map_find]
  | cons hd tl ih =>
    obtain ⟨k1, v1⟩ := hd
    simp only [map_assign]
    by_cases h1 : k < k1
    · simp [h1, map_find]
    · by_cases h2 : k = k1
      · subst h2
        by_cases h3 : k = j <;> simp [map_find, h3]
      · simp only [h1, h2, if_false, map_find, ih]
        by_cases h3 : k1 = j
        · subst h3
          simp [h2]
        · simp [h3]

theorem get_current_node_fst (g : control_flow_graph) (a it : Nat) :
    (g.get_current_node a it).1 = slot_after_ensure (map_find g.nodes a) a it := by
  unfold get_current_node slot_after_ensure
  cases map_find g.nodes a <;> rfl

theorem get_current_node_find (g : control_flow_graph) (a it j : Nat) :
    map_find (g.get_current_node a it).2.nodes j =
      if a = j ∧ (map_find g.nodes a).isSome then some none else map_find g.nodes j := by
  unfold get_current_node
  cases h : map_find g.nodes a with
  | none => simp
  | some p => simp [map_find_assign]

theorem get_current_node_fields (g : control_flow_graph) (a it : Nat) :
    (g.get_current_node a it).2.current_pointer = g.current_pointer ∧
    (g.get_current_node a it).2.current_node_start_addr = g.current_node_start_addr ∧
    (g.get_current_node a it).2.start_address_first_node = g.start_address_first_node := by
  unfold get_current_node
  cases map_find g.nodes a <;> simp

theorem mem_keys_map_assign {α : Type} (m : List (Nat × α)) (k : Nat) (v : α) (x : Nat)
    (h : x ∈ (map_assign m k v).map Prod.fst) : x = k ∨ x ∈ m.map Prod.fst := by
  induction m with
  | nil =>
    simp [map_assign] at h
    exact Or.inl h
  | cons hd tl ih =>
    obtain ⟨k1, v1⟩ := hd
    simp only [map_assign] at h
    by_cases h1 : k < k1
    · simp only [h1, if_true, List.map_cons, List.mem_cons] at h
      rcases h with h | h | h
      · exact Or.inl h
      · exact Or.inr (by simp [h])
      · exact Or.inr (by simp only [List.map_cons, List.mem_cons]; exact Or.inr h)
    · by_cases h2 : k = k1
      · subst h2
        simp only [lt_irrefl, if_false, if_true, List.map_cons, List.mem_cons] at h
        rcases h with h | h
        · exact Or.inl h
        · exact Or.inr (by simp only [List.map_cons, List.mem_cons]; exact Or.inr h)
      · simp only [h1, h2, if_false, List.map_cons, List.mem_cons] at h
        rcases h with h | h
        · exact Or.inr (by simp [h])
        · rcases ih h with h | h
          · exact Or.inl h
          · exact Or.inr (by simp only [List.map_cons, List.mem_cons]; exact Or.inr h)

theorem map_assign_sorted {α : Type} (m : List (Nat × α)) (k : Nat) (v : α)
    (h : keys_sorted m) : keys_sorted (map_assign m k v) := by
  unfold keys_sorted at *
  induction m with
  | nil => simp [map_assign]
  | cons hd tl ih =>
    obtain ⟨k1, v1⟩ := hd
    simp only [List.map_cons, List.pairwise_cons] at h
    obtain ⟨hlt, htl⟩ := h
    simp only [map_assign]
    by_cases h1 : k < k1
    · simp only [h1, if_true, List.map_cons, List.pairwise_cons, List.mem_cons]
      refine ⟨?_, hlt, htl⟩
      intro x hx
      rcases hx with hx | hx
      · rw [hx]; exact h1
      · exact lt_trans h1 (hlt x hx)
    · by_cases h2 : k = k1
      · subst h2
        simp only [lt_irrefl, if_false, if_true, List.map_cons, List.pairwise_cons]
        exact ⟨hlt, htl⟩
      · simp only [h1, h2, if_false, List.map_cons, List.pairwise_cons]
        refine ⟨?_, ih htl⟩
        intro x hx
        rcases mem_keys_map_assign tl k v x hx with hx | hx
        · rw [hx]; omega
        · exact hlt x hx

theorem map_find_none_of_lt {α : Type} (m : List (Nat × α)) (j : Nat)
    (h : ∀ x ∈ m.map Prod.fst, j < x) : map_find m j = none := by
  induction m with
  | nil => rfl
  | cons hd tl ih =>
    obtain ⟨k1, v1⟩ := hd
    simp only [List.map_cons, List.mem_cons, forall_eq_or_imp] at h
    simp only [map_find]
    rw [if_neg (by omega)]
    exact ih h.2

theorem map_ext {α : Type} (m1 m2 : List (Nat × α)) (h1 : keys_sorted m1) (h2 : keys_sorted m2)
    (h : ∀ j, map_find m1 j = map_find m2 j) : m1 = m2 := by
  unfold keys_sorted at *
  induction m1 generalizing m2 with
  | nil =>
    cases m2 with
    | nil => rfl
    | cons hd tl =>
      have := h hd.1
      simp [map_find] at this
  | cons hd tl ih =>
    obtain ⟨k1, v1⟩ := hd
    cases m2 with
    | nil =>
      have := h k1
      simp [map_find] at this
    | cons hd2 tl2 =>
      obtain ⟨k2, v2⟩ := hd2
      simp only [List.map_cons, List.pairwise_cons] at h1 h2
      have hk : k1 = k2 := by
        rcases Nat.lt_trichotomy k1 k2 with hlt | heq | hgt
        · have e := h k1
          simp only [map_find, if_true] at e
          rw [if_neg (by omega), map_find_none_of_lt tl2 k1
            (fun x hx => lt_trans hlt (h2.1 x hx))] at e
          simp at e
        · exact heq
        · have e := h k2
          simp only [map_find, if_true] at e
          rw [if_neg (by omega), map_find_none_of_lt tl k2
            (fun x hx => lt_trans hgt (h1.1 x hx))] at e
          simp at e
      subst hk
      have hv : v1 = v2 := by
        have e := h k1
        simpa [map_find] using e
      subst hv
      have htl : tl = tl2 := by
        apply ih tl2 h1.2 h2.2
        intro j
        by_cases hj : k1 = j
        · subst hj
          rw [map_find_none_of_lt tl k1 h1.1, map_find_none_of_lt tl2 k1 h2.1]
        · have e := h j
          simpa [map_find, hj] using e
      rw [htl]

theorem ensure_find (g : control_flow_graph) (a it j : Nat) :
    map_find (map_assign (g.get_current_node a it).2.nodes a (g.get_current_node a it).1) j =
      if a = j then some (slot_after_ensure (map_find g.nodes a) a it)
      else map_find g.nodes j := by
  rw [map_find_assign, get_current_node_fst, get_current_node_find]
  by_cases h : a = j <;> simp [h]

theorem append_node_neighbors_find (g : control_flow_graph) (node : Node) (it j : Nat) :
    map_find (g.append_node_neighbors node it).nodes j =
      if (node.false_branch_address ≠ 0 ∧ node.false_branch_address = j) ∨
          (node.true_branch_address ≠ 0 ∧ node.true_branch_address = j)
      then some (slot_after_ensure (map_find g.nodes j) j it)
      else map_find g.nodes j := by
  unfold append_node_neighbors Node.true_neighbour Node.false_neighbour
  by_cases ht : node.true_branch_address = 0 <;> by_cases hf : node.false_branch_address = 0
  · simp [ht, hf]
  · simp only [ht, hf, ne_eq, not_true_eq_false, not_false_eq_true, if_true, if_false,
      ensure_find, true_and, false_and, or_false]
    by_cases h : node.false_branch_address = j
    · subst h; simp
    · simp [h]
  · simp only [ht, hf, ne_eq, not_true_eq_false, not_false_eq_true, if_true, if_false,
      ensure_find, true_and, false_and, false_or]
    by_cases h : node.true_branch_address = j
    · subst h; simp
    · simp [h]
  · simp only [ht, hf, ne_eq, not_false_eq_true, if_true, ensure_find, true_and]
    by_cases h : node.false_branch_address = j
    · subst h
      by_cases h2 : node.true_branch_address = node.false_branch_address
      · simp [h2, slot_after_ensure]
      · simp [h2]
    · by_cases h2 : node.true_branch_address = j
      · subst h2; simp [h]
      · simp [h, h2]

theorem append_node_neighbors_fields (g : control_flow_graph) (node : Node) (it : Nat) :
    (g.append_node_neighbors node it).current_pointer = g.current_pointer ∧
    (g.append_node_neighbors node it).current_node_start_addr = g.current_node_start_addr ∧
    (g.append_node_neighbors node it).start_address_first_node = g.start_address_first_node := by
  unfold append_node_neighbors
  by_cases ht : node.true_neighbour = 0 <;> by_cases hf : node.false_neighbour = 0 <;>
    simp [ht, hf, get_current_node_fields]

theorem Node.append_branch_instruction_done (n : Node) (i : instruction) (it : Nat) :
    (n.append_branch_instruction i it).is_done = true := by
  unfold Node.append_branch_instruction
  by_cases h : n.done = true
  · rw [if_pos h]; exact h
  · rw [if_neg h]; rfl

theorem set_and_get_current_address_spec (g : control_flow_graph) (eip : Nat) :
    (g.set_and_get_current_address eip).1 = (if g.current_pointer = 0 then eip else g.current_pointer) ∧
    (g.set_and_get_current_address eip).2.current_pointer =
      (if g.current_pointer = 0 then eip else g.current_pointer) ∧
    (g.set_and_get_current_address eip).2.current_node_start_addr =
      (if g.current_node_start_addr = 0 then eip else g.current_node_start_addr) ∧
    (g.set_and_get_current_address eip).2.start_address_first_node = g.start_address_first_node ∧
    (g.set_and_get_current_address eip).2.nodes = g.nodes := by
  unfold set_and_get_current_address
  by_cases h1 : g.current_node_start_addr = 0 <;> by_cases h2 : g.current_pointer = 0 <;>
    simp [h1, h2]

theorem append_instruction_ok {g g1 : control_flow_graph} {i : instruction} {it : Nat}
    (h : g.append_instruction i it = (outcome.ok, g1)) :
    i.validate = true ∧ i.is_branch = false ∧
    ∃ node, slot_after_ensure (map_find g.nodes (g.set_and_get_current_address i.pointer_address).1)
        (g.set_and_get_current_address i.pointer_address).1 it = some node ∧
      (∀ j, map_find g1.nodes j =
        if (g.set_and_get_current_address i.pointer_address).1 = j
        then some (some (node.append_instruction i it)) else map_find g.nodes j) ∧
      g1.current_pointer = (g.set_and_get_current_address i.pointer_address).1 ∧
      g1.current_node_start_addr =
        (if g.current_node_start_addr = 0 then i.pointer_address else g.current_node_start_addr) ∧
      g1.start_address_first_node = g.start_address_first_node := by
  unfold append_instruction at h
  by_cases hv : i.validate = true
  swap
  · simp [hv] at h
  by_cases hb : i.is_branch = true
  · simp [hv, hb] at h
  simp only [hv, hb, Bool.not_true, Bool.false_eq_true, if_false] at h
  obtain ⟨s1, s2, s3, s4, s5⟩ := set_and_get_current_address_spec g i.pointer_address
  generalize hr : g.set_and_get_current_address i.pointer_address = r at *
  obtain ⟨f1, f2, f3⟩ := get_current_node_fields r.2 r.1 it
  have hfst := get_current_node_fst r.2 r.1 it
  have hfind := get_current_node_find r.2 r.1 it
  generalize hq : r.2.get_current_node r.1 it = q at *
  cases hq1 : q.1 with
  | none => simp [hq1] at h
  | some node =>
    simp only [hq1, Prod.mk.injEq, true_and] at h
    subst h
    refine ⟨hv, by simpa using hb, node, ?_, ?_, ?_, ?_, ?_⟩
    · rw [← s5, ← hfst, hq1]
    · intro j
      simp only [map_find_assign, hfind, s5]
      by_cases hj : r.1 = j <;> simp [hj]
    · simp [f1, s2, s1]
    · simp [f2, s3]
    · simp [f3, s4]

theorem get_current_node_sorted (g : control_flow_graph) (a it : Nat)
    (hs : keys_sorted g.nodes) : keys_sorted (g.get_current_node a it).2.nodes := by
  unfold get_current_node
  cases map_find g.nodes a with
  | none => exact hs
  | some p => exact map_assign_sorted _ _ _ hs

theorem append_node_neighbors_sorted (g : control_flow_graph) (node : Node) (it : Nat)
    (hs : keys_sorted g.nodes) : keys_sorted (g.append_node_neighbors node it).nodes := by
  unfold append_node_neighbors
  have h1 : keys_sorted (if node.true_neighbour ≠ 0 then
      { (g.get_current_node node.true_neighbour it).2 with
        nodes := map_assign (g.get_current_node node.true_neighbour it).2.nodes
          node.true_neighbour (g.get_current_node node.true_neighbour it).1 }
      else g).nodes := by
    split
    · exact map_assign_sorted _ _ _ (get_current_node_sorted _ _ _ hs)
    · exact hs
  simp only
  split
  · exact map_assign_sorted _ _ _ (get_current_node_sorted _ _ _ h1)
  · exact h1

theorem append_instruction_sorted (g : control_flow_graph) (i : instruction) (it : Nat)
    (hs : keys_sorted g.nodes) : keys_sorted (g.append_instruction i it).2.nodes := by
  unfold append_instruction
  have hr : keys_sorted (g.set_and_get_current_address i.pointer_address).2.nodes := by
    rw [(set_and_get_current_address_spec g i.pointer_address).2.2.2.2]
    exact hs
  split
  · exact hs
  · split
    · exact hs
    · simp only
      split
      · exact get_current_node_sorted _ _ _ hr
      · exact map_assign_sorted _ _ _ (get_current_node_sorted _ _ _ hr)

theorem unset_current_address_nodes (g : control_flow_graph) (node : Node) :
    (g.unset_current_address node).nodes = g.nodes := by
  unfold unset_current_address
  split <;> rfl

theorem append_branch_instruction_sorted (g : control_flow_graph) (i : instruction) (it : Nat)
    (hs : keys_sorted g.nodes) : keys_sorted (g.append_branch_instruction i it).2.nodes := by
  unfold append_branch_instruction
  have hr : keys_sorted (g.set_and_get_current_address i.pointer_address).2.nodes := by
    rw [(set_and_get_current_address_spec g i.pointer_address).2.2.2.2]
    exact hs
  split
  · exact hs
  · split
    · exact hs
    · simp only
      split
      · exact get_current_node_sorted _ _ _ hr
      · apply map_assign_sorted
        rw [unset_current_address_nodes]
        exact append_node_neighbors_sorted _ _ _ (get_current_node_sorted _ _ _ hr)

theorem append_branch_instruction_ok {g g1 : control_flow_graph} {i : instruction} {it : Nat}
    (h : g.append_branch_instruction i it = (outcome.ok, g1)) :
    i.validate = true ∧ i.is_branch = true ∧
    ∃ node, slot_after_ensure (map_find g.nodes (g.set_and_get_current_address i.pointer_address).1)
        (g.set_and_get_current_address i.pointer_address).1 it = some node ∧
      (∀ j, map_find g1.nodes j =
        if (g.set_and_get_current_address i.pointer_address).1 = j
        then some (some (node.append_branch_instruction i it))
        else if ((node.append_branch_instruction i it).false_branch_address ≠ 0 ∧
                  (node.append_branch_instruction i it).false_branch_address = j) ∨
                ((node.append_branch_instruction i it).true_branch_address ≠ 0 ∧
                  (node.append_branch_instruction i it).true_branch_address = j)
        then some (slot_after_ensure (map_find g.nodes j) j it)
        else map_find g.nodes j) ∧
      g1.current_pointer = 0 ∧
      g1.current_node_start_addr =
        (if g.current_node_start_addr = 0 then i.pointer_address else g.current_node_start_addr) ∧
      g1.start_address_first_node = g.start_address_first_node := by
  unfold append_branch_instruction at h
  by_cases hv : i.validate = true
  swap
  · simp [hv] at h
  by_cases hb : i.is_branch = true
  swap
  · simp [hv, hb] at h
  simp only [hv, hb, Bool.not_true, Bool.false_eq_true, if_false] at h
  obtain ⟨s1, s2, s3, s4, s5⟩ := set_and_get_current_address_spec g i.pointer_address
  generalize hr : g.set_and_get_current_address i.pointer_address = r at *
  obtain ⟨f1, f2, f3⟩ := get_current_node_fields r.2 r.1 it
  have hfst := get_current_node_fst r.2 r.1 it
  have hfind := get_current_node_find r.2 r.1 it
  generalize hq : r.2.get_current_node r.1 it = q at *
  cases hq1 : q.1 with
  | none => simp [hq1] at h
  | some node =>
    simp only [hq1, Prod.mk.injEq, true_and] at h
    subst h
    obtain ⟨n1, n2, n3⟩ := append_node_neighbors_fields q.2 (node.append_branch_instruction i it) it
    have hdone := Node.append_branch_instruction_done node i it
    refine ⟨hv, hb, node, ?_, ?_, ?_, ?_, ?_⟩
    · rw [← s5, ← hfst, hq1]
    · intro j
      simp only [map_find_assign, unset_current_address, Node.done, hdone, if_true,
        append_node_neighbors_find, hfind, s5]
      by_cases hj : r.1 = j
      · simp [hj]
      · simp only [hj, if_false, false_and]
    · simp [unset_current_address, Node.done, hdone]
    · simp [unset_current_address, Node.done, hdone, n2, f2, s3]
    · simp [unset_current_address, Node.done, hdone, n3, f3, s4]

namespace Node

theorem already_visited_frame (n : Node) (eip : Nat) :
    (n.already_visited eip).block = n.block ∧
    (n.already_visited eip)._start_address = n._start_address ∧
    (n.already_visited eip)._iteration = n._iteration ∧
    (n.already_visited eip).is_done = n.is_done ∧
    (n.already_visited eip).max_occurrences = n.max_occurrences ∧
    (n.already_visited eip).true_branch_address = n.true_branch_address ∧
    (n.already_visited eip).false_branch_address = n.false_branch_address := by
  unfold already_visited
  split
  · simp
  · split <;> simp

theorem append_instruction_block (n : Node) (i : instruction) (it : Nat) :
    (n.append_instruction i it).block =
      if n.is_done = true ∧ n.contains_address i.pointer_address = true then n.block
      else n.block ++ [i] := by
  unfold append_instruction done
  by_cases h : n.is_done = true ∧ n.contains_address i.pointer_address = true
  · obtain ⟨h1, h2⟩ := h
    simp only [h1, h2, Bool.and_self, if_true, and_self]
    split
    · exact (already_visited_frame n _).1
    · rfl
  · have : (n.is_done && n.contains_address i.pointer_address) = false := by
      simpa using h
    simp [this, h]

theorem append_instruction_frame (n : Node) (i : instruction) (it : Nat) :
    (n.append_instruction i it)._start_address = n._start_address ∧
    (n.append_instruction i it)._iteration = n._iteration ∧
    (n.append_instruction i it).is_done = n.is_done ∧
    (n.append_instruction i it).max_occurrences = n.max_occurrences ∧
    (n.append_instruction i it).true_branch_address = n.true_branch_address ∧
    (n.append_instruction i it).false_branch_address = n.false_branch_address := by
  unfold append_instruction
  by_cases h : (n.done && n.contains_address i.pointer_address) = true
  · by_cases h3 : n._iteration = it
    · simp only [h, if_true, if_pos h3]
      exact (already_visited_frame n _).2
    · simp [h, h3]
  · simp [h]

theorem contains_address_ne_nil (n : Node) (eip : Nat) (h : n.contains_address eip = true) :
    n.block ≠ [] := by
  intro hb
  simp [contains_address, hb] at h

theorem append_instruction_block_ne_nil (n : Node) (i : instruction) (it : Nat) :
    (n.append_instruction i it).block ≠ [] := by
  rw [append_instruction_block]
  by_cases h : n.is_done = true ∧ n.contains_address i.pointer_address = true
  · simp only [h, and_self, if_true]
    exact contains_address_ne_nil n _ h.2
  · simp [h]

theorem append_branch_instruction_block (n : Node) (i : instruction) (it : Nat) :
    (n.append_branch_instruction i it).block =
      if n.is_done = true then n.block else n.block ++ [i] := by
  unfold append_branch_instruction done
  by_cases h : n.is_done = true
  · simp [h]
  · simp only [h, if_false]
    have hb := append_instruction_block n i it
    simp only [h, false_and, if_false] at hb
    by_cases hr : i.is_ret = true <;> simp [hr, mark_done, hb]

theorem append_branch_instruction_frame (n : Node) (i : instruction) (it : Nat) :
    (n.append_branch_instruction i it)._start_address = n._start_address ∧
    (n.append_branch_instruction i it)._iteration = n._iteration ∧
    (n.append_branch_instruction i it).max_occurrences = n.max_occurrences := by
  unfold append_branch_instruction done
  obtain ⟨f1, f2, f3, f4, f5, f6⟩ := append_instruction_frame n i it
  by_cases h : n.is_done = true
  · simp [h]
  · by_cases hr : i.is_ret = true <;> simp [h, hr, mark_done, f1, f2, f4]

theorem append_branch_instruction_succ (n : Node) (i : instruction) (it : Nat) :
    (n.append_branch_instruction i it).true_branch_address =
      (if n.is_done = true ∨ i.is_ret = true then n.true_branch_address
        else i.true_branch_address) ∧
    (n.append_branch_instruction i it).false_branch_address =
      (if n.is_done = true ∨ i.is_ret = true then n.false_branch_address
        else i.false_branch_address) := by
  unfold append_branch_instruction done
  obtain ⟨f1, f2, f3, f4, f5, f6⟩ := append_instruction_frame n i it
  by_cases h : n.is_done = true
  · simp [h]
  · by_cases hr : i.is_ret = true <;> simp [h, hr, mark_done, f5, f6]

end Node

theorem instruction_is_ret_is_branch (i : instruction) (h : i.is_ret = true) :
    i.is_branch = true := by
  unfold instruction.is_ret at h
  unfold instruction.is_branch
  cases hk : i.kind <;> simp_all

theorem slot_after_ensure_cases {g : control_flow_graph} {c it : Nat} {node : Node}
    (h : slot_after_ensure (map_find g.nodes c) c it = some node) :
    map_find g.nodes c = some (some node) ∨
      (map_find g.nodes c = none ∧ node = Node.create c it) := by
  unfold slot_after_ensure at h
  cases hf : map_find g.nodes c with
  | none =>
    rw [hf] at h
    simp only [Option.some.injEq] at h
    exact Or.inr ⟨rfl, h.symm⟩
  | some p =>
    rw [hf] at h
    simp only at h
    subst h
    exact Or.inl rfl

theorem BuilderInv_empty : BuilderInv control_flow_graph.empty := by
  constructor <;> simp [control_flow_graph.empty, map_find, keys_sorted]

theorem create_fields (a it : Nat) :
    (Node.create a it)._start_address = a ∧ (Node.create a it).block = [] ∧
    (Node.create a it).is_done = false ∧ (Node.create a it).true_branch_address = 0 ∧
    (Node.create a it).false_branch_address = 0 ∧ (Node.create a it).occurrences = 1 ∧
    (Node.create a it)._iteration = it := by
  simp [Node.create]

theorem BuilderInv_append_instruction {g g1 : control_flow_graph} {i : instruction} {it : Nat}
    (hg : BuilderInv g) (h : g.append_instruction i it = (outcome.ok, g1)) : BuilderInv g1 := by
  obtain ⟨hv, hb, node, hnode, hfind, hcp, hcn, _⟩ := append_instruction_ok h
  obtain ⟨s1, -⟩ := set_and_get_current_address_spec g i.pointer_address
  generalize hc : (g.set_and_get_current_address i.pointer_address).1 = c at *
  obtain ⟨f1, f2, f3, f4, f5, f6⟩ := Node.append_instruction_frame node i it
  have hblock := Node.append_instruction_block node i it
  have hmono : ∀ j, (map_find g.nodes j).isSome = true → (map_find g1.nodes j).isSome = true := by
    intro j hj
    rw [hfind]
    by_cases hcj : c = j <;> simp [hcj, hj]
  -- what the node taken at the cursor satisfies
  have hnode_inv : node._start_address = c ∧
      (∀ x, node.block.head? = some x → x.pointer_address = c) ∧
      (node.true_branch_address ≠ 0 → (map_find g.nodes node.true_branch_address).isSome = true) ∧
      (node.false_branch_address ≠ 0 → (map_find g.nodes node.false_branch_address).isSome = true) ∧
      (∀ x ∈ node.block, x.is_ret = true →
        node.true_branch_address = 0 ∧ node.false_branch_address = 0) ∧
      (node.is_done = false → node.true_branch_address = 0 ∧ node.false_branch_address = 0 ∧
        ∀ x ∈ node.block, x.is_branch = false) ∧
      (∀ x ∈ node.block, x.validate = true) ∧
      (g.current_node_start_addr = 0 → ∀ x ∈ node.block, x.pointer_address = 0) ∧
      (c = 0 → ∀ x ∈ node.block, x.pointer_address = 0) ∧
      (node.block = [] → g.current_pointer = 0) := by
    rcases slot_after_ensure_cases hnode with hex | ⟨hnone, hnew⟩
    · refine ⟨hg.entry c node hex, fun x hx => hg.head c node x hex hx, (hg.succ c node hex).1,
        (hg.succ c node hex).2, fun x hx hr => hg.ret c node x hex hx hr, hg.opened c node hex,
        fun x hx => hg.valid c node x hex hx, fun h0 x hx => hg.first h0 c node x hex hx,
        ?_, ?_⟩
      · intro h0 x hx
        subst h0
        exact hg.zero node x hex hx
      · intro hnil
        by_contra hcp0
        obtain ⟨n', hn', hne⟩ := hg.cursor hcp0
        rw [if_neg hcp0] at s1
        rw [← s1, hex] at hn'
        simp only [Option.some.injEq] at hn'
        subst hn'
        exact hne hnil
    · subst hnew
      refine ⟨rfl, ?_, ?_, ?_, ?_, ?_, ?_, ?_, ?_, ?_⟩ <;> simp [Node.create]
      by_contra hcp0
      obtain ⟨n', hn', hne⟩ := hg.cursor hcp0
      rw [if_neg hcp0] at s1
      rw [← s1, hnone] at hn'
      simp at hn'
  obtain ⟨e1, e2, e3, e4, e5, e6, e7, e8, e9, e10⟩ := hnode_inv
  have hmem : ∀ x ∈ (node.append_instruction i it).block, x ∈ node.block ∨ x = i := by
    intro x hx
    rw [hblock] at hx
    split at hx
    · exact Or.inl hx
    · simpa using hx
  have hnotret : i.is_ret = false := by
    by_contra hr
    have := instruction_is_ret_is_branch i (by simpa using hr)
    rw [hb] at this
    simp at this
  have hcases : ∀ k n, map_find g1.nodes k = some (some n) →
      (k = c ∧ n = node.append_instruction i it) ∨ (k ≠ c ∧ map_find g.nodes k = some (some n)) := by
    intro k n hk
    rw [hfind] at hk
    by_cases hck : c = k
    · simp only [hck, if_true, Option.some.injEq] at hk
      exact Or.inl ⟨hck.symm, hk.symm⟩
    · simp only [hck, if_false] at hk
      exact Or.inr ⟨fun e => hck e.symm, hk⟩
  constructor
  · have hs := append_instruction_sorted g i it hg.sorted
    rw [h] at hs
    exact hs
  · intro k hk
    rw [hfind] at hk
    by_cases hck : c = k
    · simp [hck] at hk
    · simp only [hck, if_false] at hk
      exact hg.no_null k hk
  · intro k n hk
    rcases hcases k n hk with ⟨rfl, rfl⟩ | ⟨_, hk'⟩
    · rw [f1, e1]
    · exact hg.entry k n hk'
  · intro k n x hk hx
    rcases hcases k n hk with ⟨rfl, rfl⟩ | ⟨_, hk'⟩
    · rw [hblock] at hx
      split at hx
      · exact e2 x hx
      · cases hbl : node.block with
        | nil =>
          rw [hbl] at hx
          simp only [List.nil_append, List.head?_cons, Option.some.injEq] at hx
          subst hx
          rw [if_pos (e10 hbl)] at s1
          exact s1.symm
        | cons y ys =>
          rw [hbl] at hx
          simp only [List.cons_append, List.head?_cons, Option.some.injEq] at hx
          subst hx
          exact e2 y (by simp [hbl])
    · exact hg.head k n x hk' hx
  · intro _
    refine ⟨node.append_instruction i it, ?_, Node.append_instruction_block_ne_nil node i it⟩
    rw [hcp, hfind]
    simp
  · intro k n hk
    rcases hcases k n hk with ⟨rfl, rfl⟩ | ⟨_, hk'⟩
    · rw [f5, f6]
      exact ⟨fun h0 => hmono _ (e3 h0), fun h0 => hmono _ (e4 h0)⟩
    · exact ⟨fun h0 => hmono _ ((hg.succ k n hk').1 h0), fun h0 => hmono _ ((hg.succ k n hk').2 h0)⟩
  · intro k n x hk hx hr
    rcases hcases k n hk with ⟨rfl, rfl⟩ | ⟨_, hk'⟩
    · rw [f5, f6]
      rcases hmem x hx with hx' | rfl
      · exact e5 x hx' hr
      · rw [hnotret] at hr
        simp at hr
    · exact hg.ret k n x hk' hx hr
  · intro k n hk hd
    rcases hcases k n hk with ⟨rfl, rfl⟩ | ⟨_, hk'⟩
    · rw [f3] at hd
      rw [f5, f6]
      obtain ⟨o1, o2, o3⟩ := e6 hd
      refine ⟨o1, o2, ?_⟩
      intro x hx
      rcases hmem x hx with hx' | rfl
      · exact o3 x hx'
      · simpa using hb
    · exact hg.opened k n hk' hd
  · intro k n x hk hx
    rcases hcases k n hk with ⟨rfl, rfl⟩ | ⟨_, hk'⟩
    · rcases hmem x hx with hx' | rfl
      · exact e7 x hx'
      · exact hv
    · exact hg.valid k n x hk' hx
  · intro h0 k n x hk hx
    rw [hcn] at h0
    have hg0 : g.current_node_start_addr = 0 := by
      by_contra hne
      rw [if_neg hne] at h0
      exact hne h0
    rw [if_pos hg0] at h0
    rcases hcases k n hk with ⟨rfl, rfl⟩ | ⟨_, hk'⟩
    · rcases hmem x hx with hx' | rfl
      · exact e8 hg0 x hx'
      · exact h0
    · exact hg.first hg0 k n x hk' hx
  · intro n x hk hx
    rcases hcases 0 n hk with ⟨h0, rfl⟩ | ⟨_, hk'⟩
    · rcases hmem x hx with hx' | rfl
      · exact e9 h0.symm x hx'
      · by_cases hcp0 : g.current_pointer = 0
        · rw [if_pos hcp0] at s1
          rw [← s1, ← h0]
        · exfalso
          rw [if_neg hcp0] at s1
          exact hcp0 (by rw [← s1, ← h0])
    · exact hg.zero n x hk' hx

theorem BuilderInv_append_branch_instruction {g g1 : control_flow_graph} {i : instruction}
    {it : Nat} (hg : BuilderInv g) (h : g.append_branch_instruction i it = (outcome.ok, g1)) :
    BuilderInv g1 := by
  obtain ⟨hv, hb, node, hnode, hfind, hcp, hcn, _⟩ := append_branch_instruction_ok h
  obtain ⟨s1, -⟩ := set_and_get_current_address_spec g i.pointer_address
  generalize (g.set_and_get_current_address i.pointer_address).1 = c at *
  obtain ⟨f1, f2, f4⟩ := Node.append_branch_instruction_frame node i it
  obtain ⟨f5, f6⟩ := Node.append_branch_instruction_succ node i it
  have f3 := Node.append_branch_instruction_done node i it
  have hblock := Node.append_branch_instruction_block node i it
  generalize node.append_branch_instruction i it = node1 at *
  have hmono : ∀ j, (map_find g.nodes j).isSome = true → (map_find g1.nodes j).isSome = true := by
    intro j hj
    rw [hfind]
    by_cases hcj : c = j
    · simp [hcj]
    · simp only [hcj, if_false]
      split
      · simp
      · exact hj
  have hnode_inv : node._start_address = c ∧
      (∀ x, node.block.head? = some x → x.pointer_address = c) ∧
      (node.true_branch_address ≠ 0 → (map_find g.nodes node.true_branch_address).isSome = true) ∧
      (node.false_branch_address ≠ 0 → (map_find g.nodes node.false_branch_address).isSome = true) ∧
      (∀ x ∈ node.block, x.is_ret = true →
        node.true_branch_address = 0 ∧ node.false_branch_address = 0) ∧
      (node.is_done = false → node.true_branch_address = 0 ∧ node.false_branch_address = 0 ∧
        ∀ x ∈ node.block, x.is_branch = false) ∧
      (∀ x ∈ node.block, x.validate = true) ∧
      (g.current_node_start_addr = 0 → ∀ x ∈ node.block, x.pointer_address = 0) ∧
      (c = 0 → ∀ x ∈ node.block, x.pointer_address = 0) ∧
      (node.block = [] → g.current_pointer = 0) := by
    rcases slot_after_ensure_cases hnode with hex | ⟨hnone, hnew⟩
    · refine ⟨hg.entry c node hex, fun x hx => hg.head c node x hex hx, (hg.succ c node hex).1,
        (hg.succ c node hex).2, fun x hx hr => hg.ret c node x hex hx hr, hg.opened c node hex,
        fun x hx => hg.valid c node x hex hx, fun h0 x hx => hg.first h0 c node x hex hx,
        ?_, ?_⟩
      · intro h0 x hx
        subst h0
        exact hg.zero node x hex hx
      · intro hnil
        by_contra hcp0
        obtain ⟨n', hn', hne⟩ := hg.cursor hcp0
        rw [if_neg hcp0] at s1
        rw [← s1, hex] at hn'
        simp only [Option.some.injEq] at hn'
        subst hn'
        exact hne hnil
    · subst hnew
      refine ⟨rfl, ?_, ?_, ?_, ?_, ?_, ?_, ?_, ?_, ?_⟩ <;> simp [Node.create]
      by_contra hcp0
      obtain ⟨n', hn', hne⟩ := hg.cursor hcp0
      rw [if_neg hcp0] at s1
      rw [← s1, hnone] at hn'
      simp at hn'
  obtain ⟨e1, e2, e3, e4, e5, e6, e7, e8, e9, e10⟩ := hnode_inv
  have hmem : ∀ x ∈ node1.block, x ∈ node.block ∨ (x = i ∧ node.is_done = false) := by
    intro x hx
    rw [hblock] at hx
    split at hx
    · exact Or.inl hx
    · rename_i hd
      simp only [List.mem_append, List.mem_singleton] at hx
      rcases hx with hx | hx
      · exact Or.inl hx
      · exact Or.inr ⟨hx, by simpa using hd⟩
  have hcases : ∀ k n, map_find g1.nodes k = some (some n) →
      (k = c ∧ n = node1) ∨ (k ≠ c ∧ map_find g.nodes k = some (some n)) ∨
      (k ≠ c ∧ k ≠ 0 ∧ map_find g.nodes k = none ∧ n = Node.create k it) := by
    intro k n hk
    rw [hfind] at hk
    by_cases hck : c = k
    · simp only [hck, if_true, Option.some.injEq] at hk
      exact Or.inl ⟨hck.symm, hk.symm⟩
    · have hkc : k ≠ c := fun e => hck e.symm
      simp only [hck, if_false] at hk
      split at hk
      · rename_i hP
        have hk0 : k ≠ 0 := by
          rcases hP with ⟨a, b⟩ | ⟨a, b⟩
          · rw [← b]; exact a
          · rw [← b]; exact a
        simp only [Option.some.injEq] at hk
        cases hfk : map_find g.nodes k with
        | none =>
          rw [hfk] at hk
          simp only [slot_after_ensure, Option.some.injEq] at hk
          exact Or.inr (Or.inr ⟨hkc, hk0, rfl, hk.symm⟩)
        | some p =>
          rw [hfk] at hk
          simp only [slot_after_ensure] at hk
          subst hk
          exact Or.inr (Or.inl ⟨hkc, rfl⟩)
      · exact Or.inr (Or.inl ⟨hkc, hk⟩)
  have hsucc1 : (node1.true_branch_address ≠ 0 →
        (map_find g1.nodes node1.true_branch_address).isSome = true) ∧
      (node1.false_branch_address ≠ 0 →
        (map_find g1.nodes node1.false_branch_address).isSome = true) := by
    constructor
    · intro h0
      rw [hfind]
      by_cases hcj : c = node1.true_branch_address
      · simp [hcj]
      · simp [hcj, h0]
    · intro h0
      rw [hfind]
      by_cases hcj : c = node1.false_branch_address
      · simp [hcj]
      · simp [hcj, h0]
  constructor
  · have hs := append_branch_instruction_sorted g i it hg.sorted
    rw [h] at hs
    exact hs
  · intro k hk
    rw [hfind] at hk
    by_cases hck : c = k
    · simp [hck] at hk
    · simp only [hck, if_false] at hk
      split at hk
      · simp only [Option.some.injEq] at hk
        cases hfk : map_find g.nodes k with
        | none =>
          rw [hfk] at hk
          simp [slot_after_ensure] at hk
        | some p =>
          rw [hfk] at hk
          simp only [slot_after_ensure] at hk
          subst hk
          exact hg.no_null k hfk
      · exact hg.no_null k hk
  · intro k n hk
    rcases hcases k n hk with ⟨rfl, rfl⟩ | ⟨_, hk'⟩ | ⟨_, _, _, rfl⟩
    · rw [f1, e1]
    · exact hg.entry k n hk'
    · rfl
  · intro k n x hk hx
    rcases hcases k n hk with ⟨rfl, rfl⟩ | ⟨_, hk'⟩ | ⟨_, _, _, rfl⟩
    · rw [hblock] at hx
      split at hx
      · exact e2 x hx
      · cases hbl : node.block with
        | nil =>
          rw [hbl] at hx
          simp only [List.nil_append, List.head?_cons, Option.some.injEq] at hx
          subst hx
          rw [if_pos (e10 hbl)] at s1
          exact s1.symm
        | cons y ys =>
          rw [hbl] at hx
          simp only [List.cons_append, List.head?_cons, Option.some.injEq] at hx
          subst hx
          exact e2 y (by simp [hbl])
    · exact hg.head k n x hk' hx
    · simp [Node.create] at hx
  · intro h0
    exact absurd hcp h0
  · intro k n hk
    rcases hcases k n hk with ⟨rfl, rfl⟩ | ⟨_, hk'⟩ | ⟨_, _, _, rfl⟩
    · exact hsucc1
    · exact ⟨fun h0 => hmono _ ((hg.succ k n hk').1 h0), fun h0 => hmono _ ((hg.succ k n hk').2 h0)⟩
    · simp [Node.create]
  · intro k n x hk hx hr
    rcases hcases k n hk with ⟨rfl, rfl⟩ | ⟨_, hk'⟩ | ⟨_, _, _, rfl⟩
    · rcases hmem x hx with hx' | ⟨rfl, hd⟩
      · by_cases hd : node.is_done = true
        · rw [f5, f6]
          simp only [hd, true_or, if_true]
          exact e5 x hx' hr
        · have hd' : node.is_done = false := by simpa using hd
          have := (e6 hd').2.2 x hx'
          have hbr := instruction_is_ret_is_branch x hr
          rw [this] at hbr
          simp at hbr
      · rw [f5, f6]
        simp only [hr, or_true, if_true]
        exact ⟨(e6 hd).1, (e6 hd).2.1⟩
    · exact hg.ret k n x hk' hx hr
    · simp [Node.create] at hx
  · intro k n hk hd
    rcases hcases k n hk with ⟨rfl, rfl⟩ | ⟨_, hk'⟩ | ⟨_, _, _, rfl⟩
    · rw [f3] at hd
      simp at hd
    · exact hg.opened k n hk' hd
    · simp [Node.create]
  · intro k n x hk hx
    rcases hcases k n hk with ⟨rfl, rfl⟩ | ⟨_, hk'⟩ | ⟨_, _, _, rfl⟩
    · rcases hmem x hx with hx' | ⟨rfl, _⟩
      · exact e7 x hx'
      · exact hv
    · exact hg.valid k n x hk' hx
    · simp [Node.create] at hx
  · intro h0 k n x hk hx
    rw [hcn] at h0
    have hg0 : g.current_node_start_addr = 0 := by
      by_contra hne
      rw [if_neg hne] at h0
      exact hne h0
    rw [if_pos hg0] at h0
    rcases hcases k n hk with ⟨rfl, rfl⟩ | ⟨_, hk'⟩ | ⟨_, _, _, rfl⟩
    · rcases hmem x hx with hx' | ⟨rfl, _⟩
      · exact e8 hg0 x hx'
      · exact h0
    · exact hg.first hg0 k n x hk' hx
    · simp [Node.create] at hx
  · intro n x hk hx
    rcases hcases 0 n hk with ⟨h0, rfl⟩ | ⟨_, hk'⟩ | ⟨_, hk0, _, _⟩
    · rcases hmem x hx with hx' | ⟨rfl, _⟩
      · exact e9 h0.symm x hx'
      · by_cases hcp0 : g.current_pointer = 0
        · rw [if_pos hcp0] at s1
          rw [← s1, ← h0]
        · exfalso
          rw [if_neg hcp0] at s1
          exact hcp0 (by rw [← s1, ← h0])
    · exact hg.zero n x hk' hx
    · exact absurd rfl hk0

theorem Reachable_inv {g : control_flow_graph} (h : Reachable g) : BuilderInv g := by
  induction h with
  | empty => exact BuilderInv_empty
  | instruction g g1 i it _ hstep ih => exact BuilderInv_append_instruction ih hstep
  | branch g g1 i it _ hstep ih => exact BuilderInv_append_branch_instruction ih hstep

theorem append_instruction_progress (g : control_flow_graph) (i : instruction) (it : Nat)
    (hv : i.validate = true) (hb : i.is_branch = false)
    (hnn : map_find g.nodes (g.set_and_get_current_address i.pointer_address).1 ≠ some none) :
    (g.append_instruction i it).1 = outcome.ok := by
  unfold append_instruction
  simp only [hv, hb, Bool.not_true, Bool.false_eq_true, if_false]
  have hfst := get_current_node_fst (g.set_and_get_current_address i.pointer_address).2
    (g.set_and_get_current_address i.pointer_address).1 it
  rw [(set_and_get_current_address_spec g i.pointer_address).2.2.2.2] at hfst
  cases hq : ((g.set_and_get_current_address i.pointer_address).2.get_current_node
      (g.set_and_get_current_address i.pointer_address).1 it).1 with
  | some node => rfl
  | none =>
    exfalso
    rw [hq] at hfst
    unfold slot_after_ensure at hfst
    cases hf : map_find g.nodes (g.set_and_get_current_address i.pointer_address).1 with
    | none => rw [hf] at hfst; simp at hfst
    | some p =>
      rw [hf] at hfst
      simp only at hfst
      rw [← hfst] at hf
      exact hnn hf

theorem append_branch_instruction_progress (g : control_flow_graph) (i : instruction) (it : Nat)
    (hv : i.validate = true) (hb : i.is_branch = true)
    (hnn : map_find g.nodes (g.set_and_get_current_address i.pointer_address).1 ≠ some none) :
    (g.append_branch_instruction i it).1 = outcome.ok := by
  unfold append_branch_instruction
  simp only [hv, hb, Bool.not_true, Bool.false_eq_true, if_false]
  have hfst := get_current_node_fst (g.set_and_get_current_address i.pointer_address).2
    (g.set_and_get_current_address i.pointer_address).1 it
  rw [(set_and_get_current_address_spec g i.pointer_address).2.2.2.2] at hfst
  cases hq : ((g.set_and_get_current_address i.pointer_address).2.get_current_node
      (g.set_and_get_current_address i.pointer_address).1 it).1 with
  | some node => rfl
  | none =>
    exfalso
    rw [hq] at hfst
    unfold slot_after_ensure at hfst
    cases hf : map_find g.nodes (g.set_and_get_current_address i.pointer_address).1 with
    | none => rw [hf] at hfst; simp at hfst
    | some p =>
      rw [hf] at hfst
      simp only at hfst
      rw [← hfst] at hf
      exact hnn hf

theorem Node.append_instruction_reentry (n : Node) (i first : instruction) (it : Nat)
    (hdone : n.is_done = true) (hit : n._iteration = it) (hhead : n.block.head? = some first)
    (hfirst : first.pointer_address = i.pointer_address) :
    n.append_instruction i it = { n with occurrences := (n.occurrences + 1) % 2 ^ 32 } := by
  cases hbl : n.block with
  | nil => rw [hbl] at hhead; simp at hhead
  | cons x xs =>
    rw [hbl] at hhead
    simp only [List.head?_cons, Option.some.injEq] at hhead
    subst hhead
    have hc : n.contains_address i.pointer_address = true := by
      simp [Node.contains_address, hbl, hfirst]
    unfold Node.append_instruction Node.already_visited
    simp only [Node.done, hdone, hc, Bool.and_self, if_true, hit, hbl, hfirst]

theorem map_assign_same {α : Type} (m : List (Nat × α)) (k : Nat) (v : α)
    (hs : keys_sorted m) (h : map_find m k = some v) : map_assign m k v = m := by
  apply map_ext _ _ (map_assign_sorted m k v hs) hs
  intro j
  rw [map_find_assign]
  by_cases hj : k = j
  · subst hj
    simp [h]
  · simp [hj]

theorem map_assign_assign {α : Type} (m : List (Nat × α)) (k : Nat) (v w : α)
    (hs : keys_sorted m) : map_assign (map_assign m k v) k w = map_assign m k w := by
  apply map_ext _ _ (map_assign_sorted _ k w (map_assign_sorted m k v hs))
    (map_assign_sorted m k w hs)
  intro j
  simp only [map_find_assign]
  by_cases hj : k = j <;> simp [hj]

theorem control_flow_graph_ext (g1 g2 : control_flow_graph) (h1 : g1.nodes = g2.nodes)
    (h2 : g1.start_address_first_node = g2.start_address_first_node)
    (h3 : g1.current_node_start_addr = g2.current_node_start_addr)
    (h4 : g1.current_pointer = g2.current_pointer) : g1 = g2 := by
  cases g1
  cases g2
  simp only at h1 h2 h3 h4
  subst h1 h2 h3 h4
  rfl

theorem append_instruction_at (g : control_flow_graph) (i : instruction) (it c : Nat) (n : Node)
    (hv : i.validate = true) (hb : i.is_branch = false) (hs : keys_sorted g.nodes)
    (hc : (g.set_and_get_current_address i.pointer_address).1 = c)
    (hn : map_find g.nodes c = some (some n)) :
    g.append_instruction i it =
      (outcome.ok, { g with
        nodes := map_assign g.nodes c (some (n.append_instruction i it)),
        current_pointer := c,
        current_node_start_addr :=
          if g.current_node_start_addr = 0 then i.pointer_address
          else g.current_node_start_addr }) := by
  have hok : (g.append_instruction i it).1 = outcome.ok :=
    append_instruction_progress g i it hv hb (by rw [hc, hn]; simp)
  have heq : g.append_instruction i it = (outcome.ok, (g.append_instruction i it).2) := by
    rw [← hok]
  obtain ⟨_, _, node, hnode, hfind, hcp, hcn, hsa⟩ := append_instruction_ok heq
  rw [hc] at hnode hfind hcp
  rw [hn] at hnode
  simp only [slot_after_ensure, Option.some.injEq] at hnode
  subst hnode
  rw [heq]
  congr 1
  apply control_flow_graph_ext
  · apply map_ext _ _ (append_instruction_sorted g i it hs) (map_assign_sorted _ _ _ hs)
    intro j
    rw [hfind j, map_find_assign]
  · exact hsa
  · exact hcn
  · exact hcp

theorem Node.append_branch_instruction_closed (n : Node) (i : instruction) (it : Nat)
    (hdone : n.is_done = true) : n.append_branch_instruction i it = n := by
  unfold Node.append_branch_instruction Node.done
  rw [if_pos hdone]

theorem append_branch_instruction_at_closed (g : control_flow_graph) (i : instruction)
    (it c : Nat) (n : Node) (hv : i.validate = true) (hb : i.is_branch = true)
    (hs : keys_sorted g.nodes)
    (hc : (g.set_and_get_current_address i.pointer_address).1 = c)
    (hn : map_find g.nodes c = some (some n)) (hdone : n.is_done = true)
    (ht : n.true_branch_address ≠ 0 → (map_find g.nodes n.true_branch_address).isSome = true)
    (hf : n.false_branch_address ≠ 0 → (map_find g.nodes n.false_branch_address).isSome = true) :
    g.append_branch_instruction i it =
      (outcome.ok, { g with
        nodes := map_assign g.nodes c (some n),
        current_pointer := 0,
        current_node_start_addr :=
          if g.current_node_start_addr = 0 then i.pointer_address
          else g.current_node_start_addr }) := by
  have hok : (g.append_branch_instruction i it).1 = outcome.ok :=
    append_branch_instruction_progress g i it hv hb (by rw [hc, hn]; simp)
  have heq : g.append_branch_instruction i it =
      (outcome.ok, (g.append_branch_instruction i it).2) := by
    rw [← hok]
  obtain ⟨_, _, node, hnode, hfind, hcp, hcn, hsa⟩ := append_branch_instruction_ok heq
  rw [hc] at hnode hfind
  rw [hn] at hnode
  simp only [slot_after_ensure, Option.some.injEq] at hnode
  subst hnode
  rw [Node.append_branch_instruction_closed n i it hdone] at hfind
  rw [heq]
  congr 1
  apply control_flow_graph_ext
  · apply map_ext _ _ (append_branch_instruction_sorted g i it hs) (map_assign_sorted _ _ _ hs)
    intro j
    rw [hfind j, map_find_assign]
    by_cases hcj : c = j
    · simp [hcj]
    · simp only [hcj, if_false]
      split
      · rename_i hP
        have hsome : (map_find g.nodes j).isSome = true := by
          rcases hP with ⟨a, b⟩ | ⟨a, b⟩
          · rw [← b]; exact hf a
          · rw [← b]; exact ht a
        cases hfj : map_find g.nodes j with
        | none => rw [hfj] at hsome; simp at hsome
        | some p => rfl
      · rfl
  · exact hsa
  · exact hcn
  · exact hcp

theorem feed_all_append (g : control_flow_graph) (it : Nat) (l1 l2 : List instruction)
    (g1 : control_flow_graph) (h : g.feed_all it l1 = (outcome.ok, g1)) :
    g.feed_all it (l1 ++ l2) = g1.feed_all it l2 := by
  induction l1 generalizing g with
  | nil =>
    simp only [feed_all, Prod.mk.injEq, true_and] at h
    subst h
    rfl
  | cons i rest ih =>
    simp only [List.cons_append, feed_all] at h ⊢
    cases hf : g.feed i it with
    | mk o g2 =>
      rw [hf] at h
      cases o with
      | ok => exact ih g2 h
      | invalid_argument => simp at h
      | null_dereference => simp at h

theorem Node.append_instruction_inside (n : Node) (i first : instruction) (it : Nat)
    (hdone : n.is_done = true) (hhead : n.block.head? = some first)
    (hmem : n.contains_address i.pointer_address = true)
    (hne : first.pointer_address ≠ i.pointer_address) :
    n.append_instruction i it = n := by
  cases hbl : n.block with
  | nil => rw [hbl] at hhead; simp at hhead
  | cons x xs =>
    rw [hbl] at hhead
    simp only [List.head?_cons, Option.some.injEq] at hhead
    subst hhead
    unfold Node.append_instruction Node.already_visited
    simp only [Node.done, hdone, hmem, Bool.and_self, if_true, hbl, hne, if_false]
    split <;> rfl

theorem refeed_closed_block (g : control_flow_graph) (e it : Nat) (n : Node) (i1 : instruction)
    (mid : List instruction) (b : instruction) (hs : keys_sorted g.nodes)
    (hidle : g.current_pointer = 0) (hcn : g.current_node_start_addr ≠ 0) (he : e ≠ 0)
    (hn : map_find g.nodes e = some (some n)) (hdone : n.is_done = true)
    (hiter : n._iteration = it) (hbody : n.block = i1 :: (mid ++ [b]))
    (hdistinct : (n.block.map instruction.pointer_address).Nodup)
    (hi1 : i1.pointer_address = e) (hi1b : i1.is_branch = false)
    (hmid : ∀ x ∈ mid, x.is_branch = false) (hb : b.is_branch = true)
    (hvalid : ∀ x ∈ n.block, x.validate = true)
    (ht : n.true_branch_address ≠ 0 → (map_find g.nodes n.true_branch_address).isSome = true)
    (hf : n.false_branch_address ≠ 0 → (map_find g.nodes n.false_branch_address).isSome = true) :
    g.feed_all it n.block =
      (outcome.ok,
        { g with
          nodes := map_assign g.nodes e
            (some { n with occurrences := (n.occurrences + 1) % 2 ^ 32 }) }) := by
  have hhead : n.block.head? = some i1 := by rw [hbody]; rfl
  have hre := Node.append_instruction_reentry n i1 i1 it hdone hiter hhead rfl
  generalize hN1 : ({ n with occurrences := (n.occurrences + 1) % 2 ^ 32 } : Node) = n1 at *
  have hd1 : n1.is_done = true := by rw [← hN1]; exact hdone
  have hb1 : n1.block = n.block := by rw [← hN1]
  have ht1 : n1.true_branch_address = n.true_branch_address := by rw [← hN1]
  have hf1 : n1.false_branch_address = n.false_branch_address := by rw [← hN1]
  have hhead1 : n1.block.head? = some i1 := by rw [hb1]; exact hhead
  clear hN1
  -- the state while the cursor is inside the block
  have hG1s : keys_sorted (map_assign g.nodes e (some n1)) := map_assign_sorted _ _ _ hs
  have hG1n : map_find (map_assign g.nodes e (some n1)) e = some (some n1) := by
    rw [map_find_assign, if_pos rfl]
  have h1 : g.feed i1 it = (outcome.ok, { g with
      nodes := map_assign g.nodes e (some n1), current_pointer := e }) := by
    have hfeed : g.feed i1 it = g.append_instruction i1 it := by
      unfold feed; simp [hi1b]
    have hc : (g.set_and_get_current_address i1.pointer_address).1 = e := by
      rw [(set_and_get_current_address_spec g i1.pointer_address).1, if_pos hidle, hi1]
    rw [hfeed, append_instruction_at g i1 it e n (hvalid i1 (by rw [hbody]; simp)) hi1b hs hc hn,
      hre, if_neg hcn]
  have h2 : ∀ x ∈ mid, ({ g with
      nodes := map_assign g.nodes e (some n1),
      current_pointer := e } : control_flow_graph).feed x it = (outcome.ok, { g with
      nodes := map_assign g.nodes e (some n1), current_pointer := e }) := by
    intro x hx
    have hxb := hmid x hx
    have hxblock : x ∈ n.block := by rw [hbody]; simp [hx]
    have hne : i1.pointer_address ≠ x.pointer_address := by
      rw [hbody] at hdistinct
      simp only [List.map_cons, List.nodup_cons, List.mem_map, not_exists, not_and] at hdistinct
      intro heq
      exact hdistinct.1 x (by simp [hx]) heq.symm
    have hcont : n1.contains_address x.pointer_address = true := by
      simp only [Node.contains_address, List.any_eq_true, beq_iff_eq, hb1]
      exact ⟨x, hxblock, rfl⟩
    rw [show ∀ G : control_flow_graph, G.feed x it = G.append_instruction x it from
      fun G => by unfold feed; simp [hxb]]
    rw [append_instruction_at _ x it e n1 (hvalid x hxblock) hxb hG1s
      (by rw [(set_and_get_current_address_spec _ x.pointer_address).1]; exact if_neg he) hG1n,
      Node.append_instruction_inside n1 x i1 it hd1 hhead1 hcont hne]
    congr 1
    apply control_flow_graph_ext
    · exact map_assign_same _ _ _ hG1s hG1n
    · rfl
    · exact if_neg hcn
    · rfl
  have h3 : ∀ l : List instruction, (∀ x ∈ l, x ∈ mid) → ({ g with
      nodes := map_assign g.nodes e (some n1),
      current_pointer := e } : control_flow_graph).feed_all it l = (outcome.ok, { g with
      nodes := map_assign g.nodes e (some n1), current_pointer := e }) := by
    intro l
    induction l with
    | nil => intro _; rfl
    | cons x rest ih =>
      intro hl
      simp only [feed_all]
      rw [h2 x (hl x (by simp))]
      exact ih (fun y hy => hl y (by simp [hy]))
  have h4 : ({ g with
      nodes := map_assign g.nodes e (some n1),
      current_pointer := e } : control_flow_graph).feed b it = (outcome.ok, { g with
      nodes := map_assign g.nodes e (some n1) }) := by
    rw [show ∀ G : control_flow_graph, G.feed b it = G.append_branch_instruction b it from
      fun G => by unfold feed; simp [hb]]
    have hmono : ∀ j, (map_find g.nodes j).isSome = true →
        (map_find (map_assign g.nodes e (some n1)) j).isSome = true := by
      intro j hj
      rw [map_find_assign]
      by_cases hej : e = j <;> simp [hej, hj]
    rw [append_branch_instruction_at_closed _ b it e n1
      (hvalid b (by rw [hbody]; simp)) hb hG1s
      (by rw [(set_and_get_current_address_spec _ b.pointer_address).1]; exact if_neg he) hG1n
      hd1 (fun h0 => by rw [ht1] at h0 ⊢; exact hmono _ (ht h0))
      (fun h0 => by rw [hf1] at h0 ⊢; exact hmono _ (hf h0))]
    congr 1
    apply control_flow_graph_ext
    · exact map_assign_same _ _ _ hG1s hG1n
    · rfl
    · exact if_neg hcn
    · exact hidle.symm
  rw [hbody]
  simp only [feed_all]
  rw [h1]
  simp only
  rw [feed_all_append _ it mid [b] _ (h3 mid (fun x hx => hx))]
  simp only [feed_all]
  rw [h4]

theorem Reachable_feed {g g1 : control_flow_graph} {i : instruction} {it : Nat}
    (hr : Reachable g) (h : g.feed i it = (outcome.ok, g1)) : Reachable g1 := by
  unfold feed at h
  split at h
  · exact Reachable.branch g g1 i it hr h
  · exact Reachable.instruction g g1 i it hr h

theorem Reachable_feed_all (it : Nat) (l : List instruction) {g g1 : control_flow_graph}
    (hr : Reachable g) (h : g.feed_all it l = (outcome.ok, g1)) : Reachable g1 := by
  induction l generalizing g with
  | nil =>
    simp only [feed_all, Prod.mk.injEq, true_and] at h
    rw [← h]
    exact hr
  | cons i rest ih =>
    simp only [feed_all] at h
    cases hf : g.feed i it with
    | mk o g2 =>
      rw [hf] at h
      cases o with
      | ok => exact ih (Reachable_feed hr hf) h
      | invalid_argument => simp at h
      | null_dereference => simp at h

theorem Reachable_loop_graph : Reachable loop_graph :=
  Reachable_feed_all 1 [loop_cmp, loop_jne] Reachable.empty (by decide)

theorem Reachable_call_graph : Reachable call_graph :=
  Reachable_feed_all 1 [scenario_call, scenario_xor, scenario_ret]
    Reachable.empty (by decide)

theorem feed_head_reentry (g : control_flow_graph) (a it : Nat) (n : Node)
    (first i : instruction) (hidle : g.current_pointer = 0)
    (hn : map_find g.nodes a = some (some n)) (hdone : n.done = true)
    (hiter : n._iteration = it) (hhead : n.block.head? = some first)
    (hfirst : first.pointer_address = a) (hi : i.pointer_address = a)
    (hv : i.validate = true) (hb : i.is_branch = false) :
    (g.feed i it).1 = outcome.ok ∧
    map_find (g.feed i it).2.nodes a =
      some (some { n with occurrences := (n.occurrences + 1) % 2 ^ 32 }) := by
  have hc : (g.set_and_get_current_address i.pointer_address).1 = a := by
    rw [(set_and_get_current_address_spec g i.pointer_address).1, if_pos hidle, hi]
  have hfeed : g.feed i it = g.append_instruction i it := by
    unfold feed
    simp [hb]
  have hok : (g.append_instruction i it).1 = outcome.ok :=
    append_instruction_progress g i it hv hb (by rw [hc, hn]; simp)
  have heq : g.append_instruction i it = (outcome.ok, (g.append_instruction i it).2) := by
    rw [← hok]
  obtain ⟨_, _, node, hnode, hfind, _⟩ := append_instruction_ok heq
  rw [hc] at hnode hfind
  rw [hn] at hnode
  simp only [slot_after_ensure, Option.some.injEq] at hnode
  subst hnode
  rw [hfeed]
  refine ⟨hok, ?_⟩
  rw [hfind a, if_pos rfl,
    Node.append_instruction_reentry n i first it hdone hiter hhead (by rw [hfirst, hi])]

theorem feed_branch_reentry (g : control_flow_graph) (a it : Nat) (n : Node) (i : instruction)
    (hidle : g.current_pointer = 0) (hn : map_find g.nodes a = some (some n))
    (hdone : n.done = true) (hi : i.pointer_address = a) (hv : i.validate = true)
    (hb : i.is_branch = true) :
    (g.feed i it).1 = outcome.ok ∧ map_find (g.feed i it).2.nodes a = some (some n) := by
  have hc : (g.set_and_get_current_address i.pointer_address).1 = a := by
    rw [(set_and_get_current_address_spec g i.pointer_address).1, if_pos hidle, hi]
  have hfeed : g.feed i it = g.append_branch_instruction i it := by
    unfold feed
    simp [hb]
  have hok : (g.append_branch_instruction i it).1 = outcome.ok :=
    append_branch_instruction_progress g i it hv hb (by rw [hc, hn]; simp)
  have heq : g.append_branch_instruction i it =
      (outcome.ok, (g.append_branch_instruction i it).2) := by
    rw [← hok]
  obtain ⟨_, _, node, hnode, hfind, _⟩ := append_branch_instruction_ok heq
  rw [hc] at hnode hfind
  rw [hn] at hnode
  simp only [slot_after_ensure, Option.some.injEq] at hnode
  subst hnode
  rw [hfeed]
  refine ⟨hok, ?_⟩
  rw [hfind a, if_pos rfl, Node.append_branch_instruction_closed n i it hdone]

theorem Reachable_append_instruction_ok (g : control_flow_graph) (hr : Reachable g)
    (i : instruction) (it : Nat) (hv : i.validate = true) (hb : i.is_branch = false) :
    (g.append_instruction i it).1 = outcome.ok :=
  append_instruction_progress g i it hv hb ((Reachable_inv hr).no_null _)

theorem Reachable_append_branch_instruction_ok (g : control_flow_graph) (hr : Reachable g)
    (i : instruction) (it : Nat) (hv : i.validate = true) (hb : i.is_branch = true) :
    (g.append_branch_instruction i it).1 = outcome.ok :=
  append_branch_instruction_progress g i it hv hb ((Reachable_inv hr).no_null _)

theorem refeed_reachable (g : control_flow_graph) (hr : Reachable g) (e it : Nat) (n : Node)
    (i1 : instruction) (mid : List instruction) (b : instruction)
    (hidle : g.current_pointer = 0) (hn : map_find g.nodes e = some (some n))
    (hdone : n.done = true) (hiter : n._iteration = it)
    (hbody : n.block = i1 :: (mid ++ [b]))
    (hdistinct : (n.block.map instruction.pointer_address).Nodup)
    (hi1 : i1.pointer_address = e) (hi1b : i1.is_branch = false)
    (hmid : ∀ x ∈ mid, x.is_branch = false) (hb : b.is_branch = true) :
    g.feed_all it n.block =
      (outcome.ok,
        { g with
          nodes := map_assign g.nodes e
            (some { n with occurrences := (n.occurrences + 1) % 2 ^ 32 }) }) := by
  have hinv := Reachable_inv hr
  have hne : i1.pointer_address ≠ b.pointer_address := by
    have hd := hdistinct
    rw [hbody] at hd
    simp only [List.map_cons, List.nodup_cons, List.mem_map, not_exists, not_and] at hd
    intro heq
    exact hd.1 b (by simp) heq.symm
  have hi1mem : i1 ∈ n.block := by rw [hbody]; simp
  have hbmem : b ∈ n.block := by rw [hbody]; simp
  have hcn : g.current_node_start_addr ≠ 0 := by
    intro h0
    exact hne (by rw [hinv.first h0 e n i1 hn hi1mem, hinv.first h0 e n b hn hbmem])
  have he : e ≠ 0 := by
    intro h0
    subst h0
    exact hne (by rw [hinv.zero n i1 hn hi1mem, hinv.zero n b hn hbmem])
  exact refeed_closed_block g e it n i1 mid b hinv.sorted hidle hcn he hn hdone hiter hbody
    hdistinct hi1 hi1b hmid hb (fun x hx => hinv.valid e n x hn hx) (hinv.succ e n hn).1
    (hinv.succ e n hn).2

theorem Reachable_loop_graph_step (v : Nat) (hr : Reachable (loop_graph_visited v)) :
    Reachable (loop_graph_visited ((v + 1) % 2 ^ 32)) := by
  have h := refeed_reachable (loop_graph_visited v) hr 0x3000 1 (loop_node v) loop_cmp []
    loop_jne rfl (by simp [loop_graph_visited, map_find]) rfl rfl rfl
    (by simp [loop_node, loop_cmp, loop_jne, instruction.pointer_address]) rfl rfl
    (by simp) rfl
  have hr2 := Reachable_feed_all 1 (loop_node v).block hr h
  have he : ({ loop_graph_visited v with
      nodes := map_assign (loop_graph_visited v).nodes 0x3000
        (some { loop_node v with occurrences := ((loop_node v).occurrences + 1) % 2 ^ 32 }) } :
      control_flow_graph) = loop_graph_visited ((v + 1) % 2 ^ 32) := by
    simp [loop_graph_visited, map_assign, loop_node]
  rw [he] at hr2
  exact hr2

theorem Reachable_loop_graph_visited (k : Nat) (hk : k + 1 < 2 ^ 32) :
    Reachable (loop_graph_visited (k + 1)) := by
  induction k with
  | zero =>
    have he : loop_graph_visited (0 + 1) = loop_graph := by decide
    rw [he]
    exact Reachable_loop_graph
  | succ k ih =>
    have h := Reachable_loop_graph_step (k + 1) (ih (by omega))
    rw [Nat.mod_eq_of_lt hk] at h
    exact h

/-! ## The binary codec -/

theorem le_bytes_length (width value : Nat) : (le_bytes width value).length = width := by
  induction width generalizing value with
  | zero => rfl
  | succ w ih => simp [le_bytes, ih]

theorem bytes_written_append (a b : List Write) :
    bytes_written (a ++ b) = bytes_written a + bytes_written b := by
  induction a with
  | nil => simp [bytes_written]
  | cons w rest ih => simp [bytes_written, ih, Nat.add_assoc]

theorem store_block_bytes_written (codec : instruction_codec)
    (hsize : ∀ i, (codec.load_to_memory i).length = codec.mem_size i)
    (l : List instruction) (mem : Nat) :
    bytes_written (store_block codec l mem) + 8 * l.length = block_mem_size codec l := by
  induction l generalizing mem with
  | nil => rfl
  | cons item rest ih =>
    simp only [store_block, bytes_written, block_mem_size, List.length_cons, hsize]
    have := ih (mem + codec.mem_size item)
    omega

theorem Node.load_to_memory_bytes_written (codec : instruction_codec)
    (hsize : ∀ i, (codec.load_to_memory i).length = codec.mem_size i) (n : Node) (mem : Nat) :
    bytes_written (n.load_to_memory codec mem) + 8 * n.block.length = n.mem_size codec := by
  unfold Node.load_to_memory Node.mem_size
  rw [bytes_written_append, bytes_written_append]
  simp only [bytes_written, le_bytes_length, List.length_singleton]
  have := store_block_bytes_written codec hsize n.block (mem + 24)
  omega

theorem store_nodes_bytes_written (codec : instruction_codec)
    (hsize : ∀ i, (codec.load_to_memory i).length = codec.mem_size i)
    (l : List (Nat × Option Node)) (hnn : ∀ p ∈ l, p.2 ≠ none) (mem : Nat) :
    ∃ ws size, store_nodes codec l mem = some ws ∧ nodes_mem_size codec l = some size ∧
      bytes_written ws + 8 * instruction_count l = size := by
  induction l generalizing mem with
  | nil => exact ⟨[], 0, rfl, rfl, rfl⟩
  | cons hd rest ih =>
    obtain ⟨key, slot⟩ := hd
    cases slot with
    | none => exact absurd rfl (hnn (key, none) (by simp))
    | some node =>
      obtain ⟨ws, size, h1, h2, h3⟩ :=
        ih (fun p hp => hnn p (by simp [hp])) (mem + 8 + node.mem_size codec)
      refine ⟨{ dst := mem, bytes := le_bytes 8 key } :: node.load_to_memory codec (mem + 8) ++ ws,
        8 + node.mem_size codec + size, by simp only [store_nodes, h1],
        by simp only [nodes_mem_size, h2], ?_⟩
      rw [bytes_written_append, bytes_written]
      simp only [le_bytes_length, instruction_count]
      have := Node.load_to_memory_bytes_written codec hsize node (mem + 8)
      omega

theorem wire_codec_size (i : instruction) :
    (wire_codec.load_to_memory i).length = wire_codec.mem_size i := by
  show (le_bytes 8 i.address ++ le_bytes 4 (kind_tag i.kind) ++ le_bytes 4 i.length ++
      le_bytes 8 i.target ++ le_bytes 8 i.text.length ++ i.text.data.map Char.toNat).length =
    8 + 4 + 4 + 8 + 8 + i.text.data.length
  simp only [List.length_append, le_bytes_length, List.length_map]

theorem le_value_le_bytes (width value : Nat) (h : value < 256 ^ width) :
    le_value (le_bytes width value) = value := by
  induction width generalizing value with
  | zero =>
    simp only [pow_zero, Nat.lt_one_iff] at h
    simp [le_bytes, le_value, h]
  | succ w ih =>
    simp only [le_bytes, le_value]
    have hdiv : value / 256 < 256 ^ w := by
      rw [Nat.div_lt_iff_lt_mul (by norm_num)]
      calc value < 256 ^ (w + 1) := h
        _ = 256 ^ w * 256 := by ring
    rw [ih _ hdiv]
    omega

namespace Memory

theorem store_untouched (m : Memory) (w : Write) (a : Nat)
    (h : a < w.dst ∨ w.dst + w.bytes.length ≤ a) : store m w a = m a := by
  unfold store
  rw [if_neg]
  omega

theorem store_all_untouched (m : Memory) (ws : List Write) (a : Nat)
    (h : ∀ w ∈ ws, a < w.dst ∨ w.dst + w.bytes.length ≤ a) : store_all m ws a = m a := by
  induction ws generalizing m with
  | nil => rfl
  | cons w rest ih =>
    simp only [store_all, List.foldl_cons]
    have := ih (store m w) (fun w' hw' => h w' (by simp [hw']))
    simp only [store_all] at this
    rw [this, store_untouched m w a (h w (by simp))]

theorem read_congr (m1 m2 : Memory) (src count : Nat)
    (h : ∀ a, src ≤ a → a < src + count → m1 a = m2 a) : read m1 src count = read m2 src count := by
  unfold read
  apply List.map_congr_left
  intro k hk
  simp only [List.mem_range] at hk
  exact h (src + k) (by omega) (by omega)

theorem read_length (m : Memory) (src count : Nat) : (read m src count).length = count := by
  simp [read]

theorem read_store (m : Memory) (w : Write) : read (store m w) w.dst w.bytes.length = w.bytes := by
  apply List.ext_getElem
  · simp [read]
  · intro k h1 h2
    simp only [read, List.getElem_map, List.getElem_range, store]
    rw [if_pos (by omega)]
    simp [List.getD_eq_getElem?_getD, h2]

end Memory

theorem ordered_between_lower {lo hi : Nat} {ws : List Write} (h : ordered_between lo ws hi) :
    lo ≤ hi ∧ ∀ w ∈ ws, lo ≤ w.dst ∧ w.dst + w.bytes.length ≤ hi := by
  induction ws generalizing lo with
  | nil => exact ⟨h, by simp⟩
  | cons w rest ih =>
    obtain ⟨h1, h2⟩ := h
    obtain ⟨i1, i2⟩ := ih h2
    refine ⟨by omega, ?_⟩
    intro w' hw'
    simp only [List.mem_cons] at hw'
    rcases hw' with rfl | hw'
    · exact ⟨h1, by omega⟩
    · have := i2 w' hw'
      omega

theorem ordered_between_mono {lo hi lo2 hi2 : Nat} {ws : List Write}
    (h : ordered_between lo ws hi) (h1 : lo2 ≤ lo) (h2 : hi ≤ hi2) :
    ordered_between lo2 ws hi2 := by
  induction ws generalizing lo lo2 with
  | nil => simp only [ordered_between] at h ⊢; omega
  | cons w rest ih =>
    obtain ⟨a, b⟩ := h
    exact ⟨by omega, ih b (le_refl _)⟩

theorem ordered_between_append (mid : Nat) {lo hi : Nat} {a b : List Write}
    (ha : ordered_between lo a mid) (hb : ordered_between mid b hi) :
    ordered_between lo (a ++ b) hi := by
  induction a generalizing lo with
  | nil =>
    simp only [ordered_between] at ha
    exact ordered_between_mono hb ha (le_refl _)
  | cons w rest ih =>
    obtain ⟨h1, h2⟩ := ha
    exact ⟨h1, ih h2⟩

theorem holds_store_all {lo hi : Nat} (m : Memory) (ws : List Write)
    (h : ordered_between lo ws hi) : holds (m.store_all ws) ws := by
  induction ws generalizing m lo with
  | nil => intro w hw; simp at hw
  | cons w rest ih =>
    obtain ⟨h1, h2⟩ := h
    intro w' hw'
    simp only [List.mem_cons] at hw'
    simp only [Memory.store_all, List.foldl_cons]
    rcases hw' with rfl | hw'
    · have hcongr : Memory.read (List.foldl Memory.store (m.store w') rest) w'.dst
          w'.bytes.length = Memory.read (m.store w') w'.dst w'.bytes.length := by
        apply Memory.read_congr
        intro a ha1 ha2
        apply Memory.store_all_untouched
        intro w2 hw2
        have := (ordered_between_lower h2).2 w2 hw2
        omega
      rw [hcongr, Memory.read_store]
    · exact ih (m.store w) h2 w' hw'

theorem store_block_ordered (codec : instruction_codec) (l : List instruction) (mem : Nat)
    (hlen : ∀ i ∈ l, (codec.load_to_memory i).length ≤ codec.mem_size i) :
    ordered_between mem (store_block codec l mem) (block_end codec l mem) := by
  induction l generalizing mem with
  | nil => exact le_refl _
  | cons item rest ih =>
    refine ⟨le_refl _, ?_⟩
    have h1 := ih (mem + codec.mem_size item) (fun i hi => hlen i (by simp [hi]))
    have h2 := hlen item (by simp)
    exact ordered_between_mono h1 (by simp only; omega) (le_refl _)

theorem block_end_le (codec : instruction_codec) (l : List instruction) (mem : Nat) :
    block_end codec l mem + 8 * l.length = mem + block_mem_size codec l := by
  induction l generalizing mem with
  | nil => rfl
  | cons item rest ih =>
    simp only [block_end, block_mem_size, List.length_cons]
    have := ih (mem + codec.mem_size item)
    omega

theorem Node.load_to_memory_ordered (codec : instruction_codec) (n : Node) (mem : Nat)
    (hlen : ∀ i ∈ n.block, (codec.load_to_memory i).length ≤ codec.mem_size i) :
    ordered_between mem (n.load_to_memory codec mem) (mem + n.mem_size codec) := by
  unfold Node.load_to_memory
  have hb := store_block_ordered codec n.block (mem + 24) hlen
  have he := block_end_le codec n.block (mem + 24)
  apply ordered_between_append (block_end codec n.block (mem + 24))
  · apply ordered_between_append (mem + 24) _ hb
    simp only [ordered_between, le_bytes_length]
    omega
  · simp only [ordered_between, le_bytes_length, List.length_singleton, Node.mem_size]
    omega

theorem store_nodes_ordered (codec : instruction_codec) (l : List (Nat × Option Node))
    (mem : Nat) (ws : List Write) (size : Nat)
    (hlen : ∀ p ∈ l, ∀ n, p.2 = some n →
      ∀ i ∈ n.block, (codec.load_to_memory i).length ≤ codec.mem_size i)
    (hws : store_nodes codec l mem = some ws) (hsize : nodes_mem_size codec l = some size) :
    ordered_between mem ws (mem + size) := by
  induction l generalizing mem ws size with
  | nil =>
    simp only [store_nodes, Option.some.injEq] at hws
    subst hws
    simp [ordered_between]
  | cons hd rest ih =>
    obtain ⟨key, slot⟩ := hd
    cases slot with
    | none => simp [store_nodes] at hws
    | some node =>
      simp only [store_nodes] at hws
      simp only [nodes_mem_size] at hsize
      cases h1 : store_nodes codec rest (mem + 8 + node.mem_size codec) with
      | none => simp [h1] at hws
      | some ws1 =>
        cases h2 : nodes_mem_size codec rest with
        | none => simp [h2] at hsize
        | some size1 =>
          simp only [h1, Option.some.injEq] at hws
          simp only [h2, Option.some.injEq] at hsize
          subst hws hsize
          have hrest := ih (mem + 8 + node.mem_size codec) ws1 size1
            (fun p hp => hlen p (by simp [hp])) h1 h2
          have hnode := Node.load_to_memory_ordered codec node (mem + 8)
            (hlen (key, some node) (by simp) node rfl)
          refine ⟨le_refl _, ?_⟩
          simp only [le_bytes_length]
          apply ordered_between_append (mem + 8 + node.mem_size codec) hnode
          exact ordered_between_mono hrest (le_refl _) (by omega)

theorem graph_load_to_memory_ordered (codec : instruction_codec) (g : control_flow_graph) (mem : Nat)
    (ws : List Write)
    (hlen : ∀ p ∈ g.nodes, ∀ n, p.2 = some n →
      ∀ i ∈ n.block, (codec.load_to_memory i).length ≤ codec.mem_size i)
    (hws : g.load_to_memory codec mem = some ws) :
    ∃ hi, ordered_between mem ws hi := by
  unfold control_flow_graph.load_to_memory at hws
  cases h1 : store_nodes codec g.nodes (mem + 16) with
  | none => simp [h1] at hws
  | some ws1 =>
    simp only [h1, Option.some.injEq] at hws
    subst hws
    have hsz : ∃ size, nodes_mem_size codec g.nodes = some size := by
      clear hlen
      generalize g.nodes = l at h1
      generalize mem + 16 = q at h1
      induction l generalizing q ws1 with
      | nil => exact ⟨0, rfl⟩
      | cons hd rest ih =>
        obtain ⟨key, slot⟩ := hd
        cases slot with
        | none => simp [store_nodes] at h1
        | some node =>
          simp only [store_nodes] at h1
          cases h2 : store_nodes codec rest (q + 8 + node.mem_size codec) with
          | none => simp [h2] at h1
          | some ws2 =>
            obtain ⟨size, hs⟩ := ih ws2 _ h2
            exact ⟨8 + node.mem_size codec + size, by simp only [nodes_mem_size, hs]⟩
    obtain ⟨size, hsize⟩ := hsz
    have := store_nodes_ordered codec g.nodes (mem + 16) ws1 size hlen h1 hsize
    refine ⟨mem + 16 + size, le_refl _, ?_, ?_⟩
    · simp only [le_bytes_length]
      omega
    · simp only [le_bytes_length]
      exact ordered_between_mono this (by omega) (le_refl _)

theorem holds_read_value {m : Memory} {ws : List Write} (h : holds m ws) (dst width value : Nat)
    (hw : { dst := dst, bytes := le_bytes width value } ∈ ws) (hv : value < 256 ^ width) :
    le_value (m.read dst width) = value := by
  have := h _ hw
  simp only [le_bytes_length] at this
  rw [this, le_value_le_bytes width value hv]

theorem holds_cons {m : Memory} {w : Write} {ws : List Write} (h : holds m (w :: ws)) :
    m.read w.dst w.bytes.length = w.bytes ∧ holds m ws :=
  ⟨h w (by simp), fun w' hw' => h w' (by simp [hw'])⟩

theorem holds_append {m : Memory} {a b : List Write} (h : holds m (a ++ b)) :
    holds m a ∧ holds m b :=
  ⟨fun w hw => h w (by simp [hw]), fun w hw => h w (by simp [hw])⟩

theorem load_block_holds (codec : instruction_codec) (m : Memory) (l : List instruction)
    (mem : Nat) (h : holds m (store_block codec l mem))
    (hrt : ∀ i ∈ l, ∀ (M : Memory) (q : Nat),
      M.read q (codec.load_to_memory i).length = codec.load_to_memory i →
        codec.load_from_memory M q = i) :
    load_block codec m l.length mem = (l, block_end codec l mem) := by
  induction l generalizing mem with
  | nil => rfl
  | cons item rest ih =>
    simp only [store_block] at h
    obtain ⟨h1, h2⟩ := holds_cons h
    have hitem : codec.load_from_memory m mem = item := hrt item (by simp) m mem h1
    simp only [List.length_cons, load_block, hitem, block_end]
    rw [ih (mem + codec.mem_size item) h2 (fun i hi => hrt i (by simp [hi]))]

theorem Node.load_from_memory_holds (codec : instruction_codec) (m : Memory) (n : Node)
    (mem : Nat) (h : holds m (n.load_to_memory codec mem)) (hrep : n.representable)
    (hshort : n.block.length < 2 ^ 32)
    (hrt : ∀ i ∈ n.block, ∀ (M : Memory) (q : Nat),
      M.read q (codec.load_to_memory i).length = codec.load_to_memory i →
        codec.load_from_memory M q = i) :
    Node.load_from_memory codec {} m mem = some n := by
  obtain ⟨r1, r2, r3, r4, r5, r6, r7⟩ := hrep
  have hmem : ∀ w, w ∈ n.load_to_memory codec mem ↔
      (w = { dst := mem, bytes := le_bytes 8 n._start_address } ∨
       w = { dst := mem + 8, bytes := le_bytes 8 n._iteration } ∨
       w = { dst := mem + 16, bytes := le_bytes 8 n.block.length }) ∨
      w ∈ store_block codec n.block (mem + 24) ∨
      (w = { dst := block_end codec n.block (mem + 24),
             bytes := [if n.is_done then 1 else 0] } ∨
       w = { dst := block_end codec n.block (mem + 24) + 1,
             bytes := le_bytes 8 n.max_occurrences } ∨
       w = { dst := block_end codec n.block (mem + 24) + 9,
             bytes := le_bytes 8 n.true_branch_address } ∨
       w = { dst := block_end codec n.block (mem + 24) + 17,
             bytes := le_bytes 8 n.false_branch_address } ∨
       w = { dst := block_end codec n.block (mem + 24) + 25,
             bytes := le_bytes 4 n.occurrences }) := by
    intro w
    simp only [Node.load_to_memory, List.mem_append, List.mem_cons, List.mem_singleton,
      List.not_mem_nil, or_false, or_assoc]
  have hblock : load_block codec m n.block.length (mem + 24) =
      (n.block, block_end codec n.block (mem + 24)) :=
    load_block_holds codec m n.block (mem + 24)
      (fun w hw => h w ((hmem w).2 (Or.inr (Or.inl hw)))) hrt
  have e1 := holds_read_value h mem 8 n._start_address ((hmem _).2 (by simp)) (by norm_num; exact r1)
  have e2 := holds_read_value h (mem + 8) 8 n._iteration ((hmem _).2 (by simp))
    (by norm_num; exact r2)
  have e3 := holds_read_value h (mem + 16) 8 n.block.length ((hmem _).2 (by simp))
    (by norm_num; exact r3)
  have e4 := holds_read_value h (block_end codec n.block (mem + 24) + 1) 8 n.max_occurrences
    ((hmem _).2 (by simp)) (by norm_num; exact r4)
  have e5 := holds_read_value h (block_end codec n.block (mem + 24) + 9) 8 n.true_branch_address
    ((hmem _).2 (by simp)) (by norm_num; exact r5)
  have e6 := holds_read_value h (block_end codec n.block (mem + 24) + 17) 8
    n.false_branch_address ((hmem _).2 (by simp)) (by norm_num; exact r6)
  have e7 := holds_read_value h (block_end codec n.block (mem + 24) + 25) 4 n.occurrences
    ((hmem _).2 (by simp)) (by norm_num; exact r7)
  have e8 : (m (block_end codec n.block (mem + 24)) != 0) = n.is_done := by
    have := h { dst := block_end codec n.block (mem + 24),
                bytes := [if n.is_done then 1 else 0] } ((hmem _).2 (by simp))
    have hr : List.range 1 = [0] := rfl
    simp only [Memory.read, List.length_singleton, hr, List.map_cons, List.map_nil,
      Nat.add_zero, List.cons.injEq, and_true] at this
    rw [this]
    cases n.is_done <;> simp
  unfold Node.load_from_memory
  simp only [e3, if_pos hshort, hblock, e1, e2, e4, e5, e6, e7, e8, List.nil_append]

theorem map_assign_last {α : Type} (m : List (Nat × α)) (k : Nat) (v : α)
    (h : ∀ a ∈ m.map Prod.fst, a < k) : map_assign m k v = m ++ [(k, v)] := by
  induction m with
  | nil => rfl
  | cons hd tl ih =>
    obtain ⟨k1, v1⟩ := hd
    simp only [List.map_cons, List.mem_cons, forall_eq_or_imp] at h
    simp only [map_assign, List.cons_append]
    rw [if_neg (by omega), if_neg (by omega), ih h.2]

theorem foldl_map_assign_sorted {α : Type} (l acc : List (Nat × α)) (hl : keys_sorted l)
    (h : ∀ a ∈ acc.map Prod.fst, ∀ b ∈ l.map Prod.fst, a < b) :
    l.foldl (fun m p => map_assign m p.1 p.2) acc = acc ++ l := by
  unfold keys_sorted at hl
  induction l generalizing acc with
  | nil => simp
  | cons hd tl ih =>
    simp only [List.map_cons, List.pairwise_cons] at hl
    simp only [List.foldl_cons]
    rw [map_assign_last acc hd.1 hd.2 (fun a ha => h a ha hd.1 (by simp))]
    rw [ih (acc ++ [(hd.1, hd.2)]) hl.2]
    · simp
    · intro a ha b hb
      simp only [List.map_append, List.map_cons, List.map_nil, List.mem_append,
        List.mem_singleton] at ha
      rcases ha with ha | ha
      · exact h a ha b (by simp [hb])
      · rw [ha]
        exact hl.1 b hb

theorem load_nodes_holds (codec : instruction_codec) (m : Memory)
    (l : List (Nat × Option Node)) (mem : Nat) (ws : List Write)
    (hws : store_nodes codec l mem = some ws) (h : holds m ws)
    (hwf : ∀ p ∈ l, p.1 < 2 ^ 64 ∧ ∀ n, p.2 = some n → n.representable ∧ n.block.length < 2 ^ 32 ∧
      ∀ i ∈ n.block, ∀ (M : Memory) (q : Nat),
        M.read q (codec.load_to_memory i).length = codec.load_to_memory i →
          codec.load_from_memory M q = i)
    (g0 : control_flow_graph) :
    load_nodes codec m l.length mem g0 =
      some { g0 with nodes := l.foldl (fun acc p => map_assign acc p.1 p.2) g0.nodes } := by
  induction l generalizing mem ws g0 with
  | nil => rfl
  | cons hd rest ih =>
    obtain ⟨key, slot⟩ := hd
    cases slot with
    | none => simp [store_nodes] at hws
    | some node =>
      simp only [store_nodes] at hws
      cases h1 : store_nodes codec rest (mem + 8 + node.mem_size codec) with
      | none => simp [h1] at hws
      | some ws1 =>
        simp only [h1, Option.some.injEq] at hws
        subst hws
        obtain ⟨hkey, hrest⟩ := holds_cons h
        obtain ⟨hnode, hws1⟩ := holds_append hrest
        obtain ⟨k1, k2⟩ := hwf (key, some node) (by simp)
        obtain ⟨n1, n2, n3⟩ := k2 node rfl
        have ekey : le_value (m.read mem 8) = key := by
          simp only [le_bytes_length] at hkey
          rw [hkey, le_value_le_bytes 8 key (by norm_num; exact k1)]
        have enode := Node.load_from_memory_holds codec m node (mem + 8) hnode n1 n2 n3
        simp only [List.length_cons, load_nodes, ekey, enode, List.foldl_cons]
        exact ih (mem + 8 + node.mem_size codec) ws1 h1 hws1
          (fun p hp => hwf p (by simp [hp])) _

/-- The round trip of the codec for graphs whose counts fit the 32-bit loop counters
of the decoders: a graph with ordered keys and no null entry, whose members fit their
C++ types, with fewer than `2^32` nodes and fewer than `2^32` instructions in each
node, is written by `load_to_memory` and read back by `load_from_memory` on a fresh
graph with the same `start_address_first_node` and the same node map, provided every
instruction writes no more than its `mem_size()` bytes and is read back from them. -/
theorem load_from_memory_load_to_memory (codec : instruction_codec) (g : control_flow_graph)
    (m0 : Memory) (mem : Nat) (hsorted : keys_sorted g.nodes)
    (hfirst : g.start_address_first_node < 2 ^ 64) (hcount : g.nodes.length < 2 ^ 32)
    (hwf : ∀ p ∈ g.nodes, p.1 < 2 ^ 64 ∧ ∃ n, p.2 = some n ∧ n.representable ∧
      n.block.length < 2 ^ 32 ∧
      ∀ i ∈ n.block, (codec.load_to_memory i).length ≤ codec.mem_size i ∧
        ∀ (M : Memory) (q : Nat),
          M.read q (codec.load_to_memory i).length = codec.load_to_memory i →
            codec.load_from_memory M q = i) :
    ∃ ws, g.load_to_memory codec mem = some ws ∧
      control_flow_graph.load_from_memory codec control_flow_graph.empty (m0.store_all ws) mem =
        some { nodes := g.nodes, start_address_first_node := g.start_address_first_node } := by
  have hstore : ∃ ws1, store_nodes codec g.nodes (mem + 16) = some ws1 := by
    have hnn : ∀ p ∈ g.nodes, p.2 ≠ none := by
      intro p hp
      obtain ⟨_, n, hn, _⟩ := hwf p hp
      rw [hn]
      simp
    generalize g.nodes = l at hnn
    generalize mem + 16 = q
    induction l generalizing q with
    | nil => exact ⟨[], rfl⟩
    | cons hd rest ih =>
      obtain ⟨key, slot⟩ := hd
      cases slot with
      | none => exact absurd rfl (hnn (key, none) (by simp))
      | some node =>
        obtain ⟨ws2, h2⟩ := ih (fun p hp => hnn p (by simp [hp])) (q + 8 + node.mem_size codec)
        exact ⟨{ dst := q, bytes := le_bytes 8 key } :: node.load_to_memory codec (q + 8) ++ ws2,
          by simp only [store_nodes, h2]⟩
  obtain ⟨ws1, hws1⟩ := hstore
  have hex : g.load_to_memory codec mem = some
      ({ dst := mem, bytes := le_bytes 8 g.start_address_first_node } ::
        { dst := mem + 8, bytes := le_bytes 8 g.nodes.length } :: ws1) := by
    simp only [control_flow_graph.load_to_memory, hws1]
  refine ⟨_, hex, ?_⟩
  obtain ⟨hi, hord⟩ := graph_load_to_memory_ordered codec g mem _
    (by
      intro p hp n hn i hi
      obtain ⟨_, n', hn', _, _, hall⟩ := hwf p hp
      rw [hn] at hn'
      simp only [Option.some.injEq] at hn'
      subst hn'
      exact (hall i hi).1) hex
  have hholds := holds_store_all m0 _ hord
  generalize m0.store_all _ = M at hholds
  obtain ⟨hw1, hrest⟩ := holds_cons hholds
  obtain ⟨hw2, hnodes⟩ := holds_cons hrest
  have efirst : le_value (M.read mem 8) = g.start_address_first_node := by
    simp only [le_bytes_length] at hw1
    rw [hw1, le_value_le_bytes 8 _ (by norm_num; exact hfirst)]
  have ecount : le_value (M.read (mem + 8) 8) = g.nodes.length := by
    simp only [le_bytes_length] at hw2
    rw [hw2, le_value_le_bytes 8 _ (by norm_num; omega)]
  unfold control_flow_graph.load_from_memory
  simp only [ecount, if_pos hcount, efirst]
  rw [load_nodes_holds codec M g.nodes (mem + 16) ws1 hws1 hnodes]
  · simp only [control_flow_graph.empty]
    rw [foldl_map_assign_sorted g.nodes [] hsorted (by simp)]
    simp
  · intro p hp
    obtain ⟨hk, n, hn, hr, hs, hall⟩ := hwf p hp
    refine ⟨hk, ?_⟩
    intro n' hn'
    rw [hn] at hn'
    simp only [Option.some.injEq] at hn'
    subst hn'
    exact ⟨hr, hs, fun i hi => (hall i hi).2⟩

theorem Memory.read_add (m : Memory) (src a b : Nat) :
    m.read src (a + b) = m.read src a ++ m.read (src + a) b := by
  unfold Memory.read
  rw [List.range_add, List.map_append, List.map_map]
  congr 1
  apply List.map_congr_left
  intro k _
  simp [Nat.add_assoc]

theorem read_split {m : Memory} {src : Nat} {a b : List Nat}
    (h : m.read src (a.length + b.length) = a ++ b) :
    m.read src a.length = a ∧ m.read (src + a.length) b.length = b := by
  rw [Memory.read_add] at h
  exact List.append_inj h (by simp [Memory.read])

theorem kind_of_tag_kind_tag (k : Kind) : kind_of_tag (kind_tag k) = k := by
  cases k <;> rfl

theorem kind_tag_lt (k : Kind) : kind_tag k < 256 ^ 4 := by
  cases k <;> simp [kind_tag]

theorem wire_codec_round_trip (i : instruction) (hi : wire_representable i) (M : Memory)
    (q : Nat) (h : M.read q (wire_codec.load_to_memory i).length = wire_codec.load_to_memory i) :
    wire_codec.load_from_memory M q = i := by
  obtain ⟨r1, r2, r3, r4, _, r6⟩ := hi
  have hshape : wire_codec.load_to_memory i =
      le_bytes 8 i.address ++ (le_bytes 4 (kind_tag i.kind) ++ (le_bytes 4 i.length ++
        (le_bytes 8 i.target ++ (le_bytes 8 i.text.length ++ i.text.data.map Char.toNat)))) := by
    simp [wire_codec]
  rw [hshape] at h
  rw [List.length_append] at h
  obtain ⟨h1, h⟩ := read_split h
  rw [List.length_append] at h
  obtain ⟨h2, h⟩ := read_split h
  rw [List.length_append] at h
  obtain ⟨h3, h⟩ := read_split h
  rw [List.length_append] at h
  obtain ⟨h4, h⟩ := read_split h
  rw [List.length_append] at h
  obtain ⟨h5, h6⟩ := read_split h
  simp only [le_bytes_length, List.length_map] at h1 h2 h3 h4 h5 h6
  have e1 : le_value (M.read q 8) = i.address := by
    rw [h1, le_value_le_bytes 8 _ (by norm_num; exact r1)]
  have e2 : le_value (M.read (q + 8) 4) = kind_tag i.kind := by
    rw [h2, le_value_le_bytes 4 _ (kind_tag_lt i.kind)]
  have e3 : le_value (M.read (q + 12) 4) = i.length := by
    have : q + 8 + 4 = q + 12 := by omega
    rw [← this, h3, le_value_le_bytes 4 _ (by norm_num; exact r2)]
  have e4 : le_value (M.read (q + 16) 8) = i.target := by
    have : q + 8 + 4 + 4 = q + 16 := by omega
    rw [← this, h4, le_value_le_bytes 8 _ (by norm_num; exact r3)]
  have e5 : le_value (M.read (q + 24) 8) = i.text.length := by
    have : q + 8 + 4 + 4 + 8 = q + 24 := by omega
    rw [← this, h5, le_value_le_bytes 8 _ (by norm_num; exact r4)]
  have e6 : M.read (q + 32) i.text.length = i.text.data.map Char.toNat := by
    have : q + 8 + 4 + 4 + 8 + 8 = q + 32 := by omega
    rw [← this]
    exact h6
  have e7 : String.mk ((i.text.data.map Char.toNat).map Char.ofNat) = i.text := by
    rw [List.map_map]
    have : (Char.ofNat ∘ Char.toNat) = id := by
      funext c
      simp
    rw [this, List.map_id]
  show ({ address := le_value (M.read q 8),
          kind := kind_of_tag (le_value (M.read (q + 8) 4)),
          length := le_value (M.read (q + 12) 4),
          target := le_value (M.read (q + 16) 8),
          text := String.mk ((M.read (q + 32) (le_value (M.read (q + 24) 8))).map Char.ofNat) } :
        instruction) = i
  rw [e1, e2, e3, e4, e5, e6, e7, kind_of_tag_kind_tag]
  cases i
  simp only at r6
  subst r6
  rfl

/-- The round trip for the wire form of section 6.2: every graph with ordered keys
whose members fit their types and the wire form, with fewer than `2^32` nodes and
fewer than `2^32` instructions in each node, is read back as it was written. -/
theorem wire_codec_graph_round_trip (g : control_flow_graph) (m0 : Memory) (mem : Nat)
    (hsorted : keys_sorted g.nodes) (hfirst : g.start_address_first_node < 2 ^ 64)
    (hcount : g.nodes.length < 2 ^ 32)
    (hwf : ∀ p ∈ g.nodes, p.1 < 2 ^ 64 ∧ ∃ n, p.2 = some n ∧ n.representable ∧
      n.block.length < 2 ^ 32 ∧ ∀ i ∈ n.block, wire_representable i) :
    ∃ ws, g.load_to_memory wire_codec mem = some ws ∧
      control_flow_graph.load_from_memory wire_codec control_flow_graph.empty
        (m0.store_all ws) mem =
        some { nodes := g.nodes, start_address_first_node := g.start_address_first_node } := by
  apply load_from_memory_load_to_memory wire_codec g m0 mem hsorted hfirst hcount
  intro p hp
  obtain ⟨hk, n, hn, hr, hs, hall⟩ := hwf p hp
  exact ⟨hk, n, hn, hr, hs, fun i hi =>
    ⟨le_of_eq (wire_codec_size i), wire_codec_round_trip i (hall i hi)⟩⟩

/-- The graph of the loop scenario is read back as it was written. -/
theorem loop_graph_round_trip :
    ∃ ws, loop_graph.load_to_memory wire_codec 0 = some ws ∧
      control_flow_graph.load_from_memory wire_codec control_flow_graph.empty
        (Memory.store_all (fun _ => 0) ws) 0 =
        some { nodes := loop_graph.nodes,
               start_address_first_node := loop_graph.start_address_first_node } := by
  apply wire_codec_graph_round_trip loop_graph (fun _ => 0) 0
    (Reachable_inv Reachable_loop_graph).sorted (by decide) (by decide)
  intro p hp
  have hnodes : loop_graph.nodes =
      [(0x3000, some (loop_node 1)), (0x3006, some (Node.create 0x3006 1))] := by decide
  rw [hnodes] at hp
  simp only [List.mem_cons, List.mem_singleton, List.not_mem_nil, or_false] at hp
  rcases hp with rfl | rfl
  · refine ⟨by norm_num, loop_node 1, rfl, by unfold Node.representable; decide, by decide, ?_⟩
    intro i hi
    have hb : (loop_node 1).block = [loop_cmp, loop_jne] := rfl
    rw [hb] at hi
    simp only [List.mem_cons, List.mem_singleton, List.not_mem_nil, or_false] at hi
    rcases hi with rfl | rfl <;> (unfold wire_representable; decide)
  · refine ⟨by norm_num, Node.create 0x3006 1, rfl, by unfold Node.representable; decide,
      by decide, ?_⟩
    intro i hi
    simp [Node.create] at hi

/-! ## The claims -/

/-- C1: in every graph built from the empty graph by accepted builder calls, each
non-zero successor address of each node is a key of the node map. -/
theorem C1_successors_are_keys (g : control_flow_graph) (hr : Reachable g) (k : Nat) (n : Node)
    (hn : map_find g.nodes k = some (some n)) :
    (n.true_branch_address ≠ 0 → g.node_exists n.true_branch_address = true) ∧
    (n.false_branch_address ≠ 0 → g.node_exists n.false_branch_address = true) :=
  (Reachable_inv hr).succ k n hn

/-- C1, instantiated on the loop scenario: both successors of the node at `0x3000`
are keys. -/
theorem C1_successors_are_keys_witness :
    Reachable loop_graph ∧ map_find loop_graph.nodes 0x3000 = some (some (loop_node 1)) ∧
    loop_graph.node_exists (loop_node 1).true_branch_address = true ∧
    loop_graph.node_exists (loop_node 1).false_branch_address = true :=
  ⟨Reachable_loop_graph, by decide,
    (C1_successors_are_keys loop_graph Reachable_loop_graph 0x3000 (loop_node 1)
      (by decide)).1 (by decide),
    (C1_successors_are_keys loop_graph Reachable_loop_graph 0x3000 (loop_node 1)
      (by decide)).2 (by decide)⟩

/-- C2 (the code departs from the claim): the accepted stream `cmp@0x3000`,
`jne@0x3004`, and then, the code having been rewritten in place, `mov@0x3000`,
`add@0x3005`, leaves at `0x3000` a closed node whose last instruction is the
non-branch `add`: `Node::append_instruction` pushes onto a closed node whenever the
address is not yet in the block. -/
theorem C2_closed_node_accepts_append :
    Reachable (empty.feed_all 1 [loop_cmp, loop_jne, patched_mov, patched_add]).2 ∧
    (∀ x ∈ [loop_cmp, loop_jne, patched_mov, patched_add], x.validate = true) ∧
    (empty.feed_all 1 [loop_cmp, loop_jne, patched_mov, patched_add]).1 = outcome.ok ∧
    map_find (empty.feed_all 1 [loop_cmp, loop_jne, patched_mov, patched_add]).2.nodes 0x3000 =
      some (some { loop_node 2 with block := [loop_cmp, loop_jne, patched_add] }) ∧
    ({ loop_node 2 with block := [loop_cmp, loop_jne, patched_add] } : Node).done = true ∧
    ({ loop_node 2 with block := [loop_cmp, loop_jne, patched_add] } : Node).block.getLast? =
      some patched_add ∧
    patched_add.is_branch = false :=
  ⟨Reachable_feed_all 1 [loop_cmp, loop_jne, patched_mov, patched_add] Reachable.empty
      (by decide),
    by decide, by decide, by decide, by decide, by decide, by decide⟩

/-- C3: in every graph built from the empty graph by accepted builder calls, a node
with a non-empty body has as entry the address of the first instruction of the body. -/
theorem C3_entry_is_first_address (g : control_flow_graph) (hr : Reachable g) (k : Nat)
    (n : Node) (x : instruction) (hn : map_find g.nodes k = some (some n))
    (hx : n.block.head? = some x) : n.start_address = x.pointer_address := by
  have hinv := Reachable_inv hr
  rw [Node.start_address, hinv.entry k n hn, hinv.head k n x hn hx]

/-- C3, instantiated on the callee block of the call-then-return scenario. -/
theorem C3_entry_is_first_address_witness :
    Reachable call_graph ∧ map_find call_graph.nodes 0x2000 = some (some callee_node) ∧
    callee_node.block.head? = some scenario_xor ∧
    callee_node.start_address = scenario_xor.pointer_address :=
  ⟨Reachable_call_graph, by decide, by decide,
    C3_entry_is_first_address call_graph Reachable_call_graph 0x2000 callee_node scenario_xor
      (by decide) (by decide)⟩

/-- C4: in every graph built from the empty graph by accepted builder calls, every
key of the node map holds a node, and the entry of that node is the key; this covers
the nodes opened by the cursor and the successor placeholders alike. -/
theorem C4_entry_is_key (g : control_flow_graph) (hr : Reachable g) (k : Nat)
    (hk : g.node_exists k = true) :
    ∃ n, map_find g.nodes k = some (some n) ∧ n.start_address = k := by
  have hinv := Reachable_inv hr
  unfold node_exists at hk
  cases hf : map_find g.nodes k with
  | none => simp [hf] at hk
  | some p =>
    cases p with
    | none => exact absurd hf (hinv.no_null k)
    | some n => exact ⟨n, rfl, hinv.entry k n hf⟩

/-- C4, instantiated on the placeholder `0x3006` of the loop scenario. -/
theorem C4_entry_is_key_witness :
    Reachable loop_graph ∧ loop_graph.node_exists 0x3006 = true ∧
    ∃ n, map_find loop_graph.nodes 0x3006 = some (some n) ∧ n.start_address = 0x3006 :=
  ⟨Reachable_loop_graph, by decide,
    C4_entry_is_key loop_graph Reachable_loop_graph 0x3006 (by decide)⟩

/-- C5: in every graph built from the empty graph by accepted builder calls, a closed
node whose last body instruction is a return has both successors equal to zero. -/
theorem C5_return_has_no_successors (g : control_flow_graph) (hr : Reachable g) (k : Nat)
    (n : Node) (x : instruction) (hn : map_find g.nodes k = some (some n))
    (hdone : n.done = true) (hlast : n.block.getLast? = some x) (hret : x.is_ret = true) :
    n.true_neighbour = 0 ∧ n.false_neighbour = 0 :=
  (Reachable_inv hr).ret k n x hn (List.mem_of_getLast?_eq_some hlast) hret

/-- C5, instantiated on the callee block of the call-then-return scenario. -/
theorem C5_return_has_no_successors_witness :
    Reachable call_graph ∧ map_find call_graph.nodes 0x2000 = some (some callee_node) ∧
    callee_node.done = true ∧ callee_node.block.getLast? = some scenario_ret ∧
    scenario_ret.is_ret = true ∧
    callee_node.true_neighbour = 0 ∧ callee_node.false_neighbour = 0 :=
  ⟨Reachable_call_graph, by decide, by decide, by decide, by decide,
    C5_return_has_no_successors call_graph Reachable_call_graph 0x2000 callee_node scenario_ret
      (by decide) (by decide) (by decide) (by decide)⟩

/-- C6 (the code departs from the claim): what the serialiser writes against what
`mem_size` reports, an instruction being counted with its own `mem_size()` bytes.
`Node::load_to_memory` copies `N.mem_size()` bytes less 8 for each instruction of the
body, and `control_flow_graph::load_to_memory` copies `G.mem_size()` bytes less 8 for
each instruction of the graph: `Node::mem_size` adds `sizeof(item_size)` for every
item, which no function writes. -/
theorem C6_mem_size_exceeds_bytes_written (codec : instruction_codec)
    (hsize : ∀ i, (codec.load_to_memory i).length = codec.mem_size i) :
    (∀ (n : Node) (mem : Nat),
      bytes_written (n.load_to_memory codec mem) + 8 * n.block.length = n.mem_size codec) ∧
    (∀ (g : control_flow_graph) (mem : Nat), (∀ p ∈ g.nodes, p.2 ≠ none) →
      ∃ ws size, g.load_to_memory codec mem = some ws ∧ g.mem_size codec = some size ∧
        bytes_written ws + 8 * instruction_count g.nodes = size) := by
  refine ⟨Node.load_to_memory_bytes_written codec hsize, ?_⟩
  intro g mem hnn
  obtain ⟨ws, size, h1, h2, h3⟩ := store_nodes_bytes_written codec hsize g.nodes hnn (mem + 16)
  refine ⟨{ dst := mem, bytes := le_bytes 8 g.start_address_first_node } ::
      { dst := mem + 8, bytes := le_bytes 8 g.nodes.length } :: ws, 8 + 8 + size,
    by simp only [control_flow_graph.load_to_memory, h1],
    by simp only [control_flow_graph.mem_size, h2], ?_⟩
  simp only [bytes_written, le_bytes_length]
  omega

/-- C6 at the failing input: the closed node of the loop scenario has two
instructions; 139 bytes are written for it where `mem_size` reports 155, and 224
bytes are written for the whole graph where `mem_size` reports 240. -/
theorem C6_mem_size_exceeds_bytes_written_witness :
    bytes_written ((loop_node 1).load_to_memory wire_codec 0) = 139 ∧
    (loop_node 1).mem_size wire_codec = 155 ∧
    bytes_written ((loop_node 1).load_to_memory wire_codec 0) + 8 * (loop_node 1).block.length =
      (loop_node 1).mem_size wire_codec ∧
    (loop_graph.load_to_memory wire_codec 0).map bytes_written = some 224 ∧
    loop_graph.mem_size wire_codec = some 240 :=
  ⟨by decide, by decide,
    (C6_mem_size_exceeds_bytes_written wire_codec wire_codec_size).1 (loop_node 1) 0,
    by decide, by decide⟩

/-- C8: `append_instruction` ends with `invalid_argument` exactly when the instruction
fails `validate()` or is a branch, `append_branch_instruction` exactly when it fails
`validate()` or is not a branch, and a call that ends so leaves the whole graph state
as it was. -/
theorem C8_invalid_argument (g : control_flow_graph) (i : instruction) (it : Nat) :
    ((g.append_instruction i it).1 = outcome.invalid_argument ↔
      (i.validate = false ∨ i.is_branch = true)) ∧
    ((g.append_branch_instruction i it).1 = outcome.invalid_argument ↔
      (i.validate = false ∨ i.is_branch = false)) ∧
    ((g.append_instruction i it).1 = outcome.invalid_argument →
      (g.append_instruction i it).2 = g) ∧
    ((g.append_branch_instruction i it).1 = outcome.invalid_argument →
      (g.append_branch_instruction i it).2 = g) := by
  unfold append_instruction append_branch_instruction
  cases hv : i.validate <;> cases hb : i.is_branch <;> simp <;> split <;> simp

/-- C8, instantiated: an instruction with an empty text is refused by both calls on
the loop graph, which stays as it was. -/
theorem C8_invalid_argument_witness :
    (loop_graph.append_instruction { loop_cmp with text := "" } 1).1 = outcome.invalid_argument ∧
    (loop_graph.append_instruction { loop_cmp with text := "" } 1).2 = loop_graph ∧
    (loop_graph.append_branch_instruction loop_cmp 1).1 = outcome.invalid_argument ∧
    (loop_graph.append_branch_instruction loop_cmp 1).2 = loop_graph :=
  ⟨(C8_invalid_argument loop_graph { loop_cmp with text := "" } 1).1.2 (Or.inl (by decide)),
    (C8_invalid_argument loop_graph { loop_cmp with text := "" } 1).2.2.1
      ((C8_invalid_argument loop_graph { loop_cmp with text := "" } 1).1.2 (Or.inl (by decide))),
    (C8_invalid_argument loop_graph loop_cmp 1).2.1.2 (Or.inr (by decide)),
    (C8_invalid_argument loop_graph loop_cmp 1).2.2.2
      ((C8_invalid_argument loop_graph loop_cmp 1).2.1.2 (Or.inr (by decide)))⟩

/-- C9 (as amended): from an idle cursor, when the node stored at `a` is closed, was
opened at the current iteration and has a body that starts at address `a`, feeding a
valid instruction located at `a` ends normally. If the instruction is not a branch the
visit count of that node becomes `(visits + 1) mod 2^32`, all other fields of the node
unchanged, which is an increase by exactly one whenever `visits + 1` still fits the
32-bit counter. If the instruction is a branch the node, visit count included, is left
as it was. -/
theorem C9_reentry_counts_once (g : control_flow_graph) (a it : Nat) (n : Node)
    (first i : instruction) (hidle : g.current_pointer = 0)
    (hn : map_find g.nodes a = some (some n)) (hdone : n.done = true)
    (hiter : n._iteration = it) (hhead : n.block.head? = some first)
    (hfirst : first.pointer_address = a) (hi : i.pointer_address = a)
    (hv : i.validate = true) :
    (g.feed i it).1 = outcome.ok ∧
    (i.is_branch = false →
      map_find (g.feed i it).2.nodes a =
        some (some { n with occurrences := (n.occurrences + 1) % 2 ^ 32 }) ∧
      (n.occurrences + 1 < 2 ^ 32 → visits_incremented g (g.feed i it).2 a)) ∧
    (i.is_branch = true → map_find (g.feed i it).2.nodes a = some (some n)) := by
  cases hb : i.is_branch with
  | false =>
    obtain ⟨h1, h2⟩ :=
      feed_head_reentry g a it n first i hidle hn hdone hiter hhead hfirst hi hv hb
    refine ⟨h1, fun _ => ⟨h2, fun hlt => ⟨n, _, hn, h2, Nat.mod_eq_of_lt hlt⟩⟩, ?_⟩
    intro hc
    simp at hc
  | true =>
    obtain ⟨h1, h2⟩ := feed_branch_reentry g a it n i hidle hn hdone hi hv hb
    refine ⟨h1, ?_, fun _ => h2⟩
    intro hc
    simp at hc

/-- C9 (as amended), instantiated on the loop scenario: feeding `cmp` again raises the
visit count of the block at `0x3000` from 1 to 2. -/
theorem C9_reentry_counts_once_witness :
    loop_graph.current_pointer = 0 ∧
    map_find loop_graph.nodes 0x3000 = some (some (loop_node 1)) ∧
    (loop_graph.feed loop_cmp 1).1 = outcome.ok ∧
    map_find (loop_graph.feed loop_cmp 1).2.nodes 0x3000 =
      some (some { loop_node 1 with occurrences := ((loop_node 1).occurrences + 1) % 2 ^ 32 }) ∧
    visits_incremented loop_graph (loop_graph.feed loop_cmp 1).2 0x3000 :=
  ⟨by decide, by decide,
    (C9_reentry_counts_once loop_graph 0x3000 1 (loop_node 1) loop_cmp loop_cmp (by decide)
      (by decide) (by decide) (by decide) (by decide) (by decide) (by decide) (by decide)).1,
    ((C9_reentry_counts_once loop_graph 0x3000 1 (loop_node 1) loop_cmp loop_cmp (by decide)
      (by decide) (by decide) (by decide) (by decide) (by decide) (by decide)
      (by decide)).2.1 (by decide)).1,
    ((C9_reentry_counts_once loop_graph 0x3000 1 (loop_node 1) loop_cmp loop_cmp (by decide)
      (by decide) (by decide) (by decide) (by decide) (by decide) (by decide)
      (by decide)).2.1 (by decide)).2 (by decide)⟩

/-- C9 as stated fails twice. A closed block that consists of a single branch
(`jmp 0x5000` at `0x5000`) is re-entered through `append_branch_instruction`, which
returns at once on a closed node: the visit count stays 1. And on the loop block with
a visit count of `2^32 - 1` the re-entry wraps the 32-bit counter to 0. Both graphs
are built by the builder. -/
theorem C9_counterexample :
    (Reachable jump_graph ∧ jump_graph.current_pointer = 0 ∧
      map_find jump_graph.nodes 0x5000 = some (some jump_node) ∧
      jump_node.done = true ∧ jump_node.start_address = 0x5000 ∧ jump_node._iteration = 1 ∧
      jump_node.block.head? = some self_jump ∧ self_jump.pointer_address = 0x5000 ∧
      self_jump.is_branch = true ∧ (jump_graph.feed self_jump 1).1 = outcome.ok ∧
      ¬ visits_incremented jump_graph (jump_graph.feed self_jump 1).2 0x5000) ∧
    (Reachable (loop_graph_visited 4294967295) ∧
      (loop_graph_visited 4294967295).current_pointer = 0 ∧
      map_find (loop_graph_visited 4294967295).nodes 0x3000 =
        some (some (loop_node 4294967295)) ∧
      (loop_node 4294967295).done = true ∧ (loop_node 4294967295).start_address = 0x3000 ∧
      (loop_node 4294967295)._iteration = 1 ∧
      (loop_node 4294967295).block.head? = some loop_cmp ∧
      loop_cmp.pointer_address = 0x3000 ∧ loop_cmp.is_branch = false ∧
      ((loop_graph_visited 4294967295).feed loop_cmp 1).1 = outcome.ok ∧
      ¬ visits_incremented (loop_graph_visited 4294967295)
        ((loop_graph_visited 4294967295).feed loop_cmp 1).2 0x3000) := by
  refine ⟨⟨Reachable_feed_all 1 [self_jump] Reachable.empty (by decide), by decide, by decide,
    by decide, by decide, by decide, by decide, by decide, by decide, by decide, ?_⟩,
    ⟨Reachable_loop_graph_visited 4294967294 (by decide), by decide, by decide, by decide,
    by decide, by decide, by decide, by decide, by decide, by decide, ?_⟩⟩
  · rintro ⟨n, n1, h1, h2, h3⟩
    have e1 : map_find jump_graph.nodes 0x5000 = some (some jump_node) := by decide
    have e2 : map_find (jump_graph.feed self_jump 1).2.nodes 0x5000 = some (some jump_node) := by
      decide
    rw [e1] at h1
    rw [e2] at h2
    simp only [Option.some.injEq] at h1 h2
    subst h1
    subst h2
    omega
  · rintro ⟨n, n1, h1, h2, h3⟩
    have e1 : map_find (loop_graph_visited 4294967295).nodes 0x3000 =
        some (some (loop_node 4294967295)) := by decide
    have e2 : map_find ((loop_graph_visited 4294967295).feed loop_cmp 1).2.nodes 0x3000 =
        some (some (loop_node 0)) := by decide
    rw [e1] at h1
    rw [e2] at h2
    simp only [Option.some.injEq] at h1 h2
    subst h1
    subst h2
    simp [loop_node] at h3

/-- C10 (as amended): in a graph built by the builder with an idle cursor, let the
node at key `e` be closed, opened at the current iteration, with body `i_1 .. i_n`
(`n >= 2`) of pairwise distinct addresses, `i_1` a non-branch at address `e` and `i_n`
the only branch. Feeding `i_1 .. i_n` again ends normally and yields the same graph,
cursor idle, except that the visit count of the node at `e` is `(visits + 1) mod 2^32`;
this is an increase by exactly one whenever `visits + 1` still fits the 32-bit
counter. -/
theorem C10_refeed_closed_block (g : control_flow_graph) (hr : Reachable g) (e it : Nat)
    (n : Node) (i1 : instruction) (mid : List instruction) (b : instruction)
    (hidle : g.current_pointer = 0) (hn : map_find g.nodes e = some (some n))
    (hdone : n.done = true) (hiter : n._iteration = it)
    (hbody : n.block = i1 :: (mid ++ [b]))
    (hdistinct : (n.block.map instruction.pointer_address).Nodup)
    (hi1 : i1.pointer_address = e) (hi1b : i1.is_branch = false)
    (hmid : ∀ x ∈ mid, x.is_branch = false) (hb : b.is_branch = true) :
    g.feed_all it n.block =
      (outcome.ok,
        { g with
          nodes := map_assign g.nodes e
            (some { n with occurrences := (n.occurrences + 1) % 2 ^ 32 }) }) ∧
    (g.feed_all it n.block).2.current_pointer = 0 ∧
    (n.occurrences + 1 < 2 ^ 32 → visits_incremented g (g.feed_all it n.block).2 e) := by
  have h := refeed_reachable g hr e it n i1 mid b hidle hn hdone hiter hbody hdistinct hi1 hi1b
    hmid hb
  refine ⟨h, ?_, ?_⟩
  · rw [h]
    exact hidle
  · intro hlt
    refine ⟨n, { n with occurrences := (n.occurrences + 1) % 2 ^ 32 }, hn, ?_, ?_⟩
    · rw [h]
      simp only [map_find_assign, if_true]
    · exact Nat.mod_eq_of_lt hlt

/-- C10 (as amended), instantiated on the scenario of the spec: after `cmp` at `0x3000`
and `jne 0x3000` at `0x3004` the node at `0x3000` has successors `0x3000` and `0x3006`
and one visit; feeding the pair again gives the same graph with two visits. -/
theorem C10_refeed_closed_block_witness :
    Reachable loop_graph ∧ loop_graph.current_pointer = 0 ∧
    map_find loop_graph.nodes 0x3000 = some (some (loop_node 1)) ∧
    (loop_node 1).true_branch_address = 0x3000 ∧ (loop_node 1).false_branch_address = 0x3006 ∧
    (loop_node 1).occurrences = 1 ∧
    loop_graph.feed_all 1 [loop_cmp, loop_jne] =
      (outcome.ok,
        { loop_graph with nodes := map_assign loop_graph.nodes 0x3000 (some (loop_node 2)) }) ∧
    (loop_graph.feed_all 1 [loop_cmp, loop_jne]).2.current_pointer = 0 ∧
    visits_incremented loop_graph (loop_graph.feed_all 1 [loop_cmp, loop_jne]).2 0x3000 :=
  ⟨Reachable_loop_graph, by decide, by decide, by decide, by decide, by decide,
    (C10_refeed_closed_block loop_graph Reachable_loop_graph 0x3000 1 (loop_node 1) loop_cmp []
      loop_jne (by decide) (by decide) (by decide) (by decide) (by decide) (by decide)
      (by decide) (by decide) (by simp) (by decide)).1,
    (C10_refeed_closed_block loop_graph Reachable_loop_graph 0x3000 1 (loop_node 1) loop_cmp []
      loop_jne (by decide) (by decide) (by decide) (by decide) (by decide) (by decide)
      (by decide) (by decide) (by simp) (by decide)).2.1,
    (C10_refeed_closed_block loop_graph Reachable_loop_graph 0x3000 1 (loop_node 1) loop_cmp []
      loop_jne (by decide) (by decide) (by decide) (by decide) (by decide) (by decide)
      (by decide) (by decide) (by simp) (by decide)).2.2 (by decide)⟩

/-- C10 as stated fails when the 32-bit visit counter is full: the loop graph with
`2^32 - 1` visits of the block at `0x3000` is built by the builder, and feeding `cmp`,
`jne` once more leaves a visit count of 0, not one more. -/
theorem C10_counterexample :
    Reachable (loop_graph_visited 4294967295) ∧
    (loop_graph_visited 4294967295).current_pointer = 0 ∧
    map_find (loop_graph_visited 4294967295).nodes 0x3000 = some (some (loop_node 4294967295)) ∧
    (loop_node 4294967295).done = true ∧ (loop_node 4294967295)._iteration = 1 ∧
    (loop_node 4294967295).block = [loop_cmp, loop_jne] ∧
    loop_cmp.pointer_address = 0x3000 ∧ loop_cmp.is_branch = false ∧
    loop_jne.pointer_address ≠ loop_cmp.pointer_address ∧ loop_jne.is_branch = true ∧
    ((loop_graph_visited 4294967295).feed_all 1 [loop_cmp, loop_jne]).1 = outcome.ok ∧
    map_find ((loop_graph_visited 4294967295).feed_all 1 [loop_cmp, loop_jne]).2.nodes 0x3000 =
      some (some (loop_node 0)) ∧
    ¬ visits_incremented (loop_graph_visited 4294967295)
      ((loop_graph_visited 4294967295).feed_all 1 [loop_cmp, loop_jne]).2 0x3000 := by
  refine ⟨Reachable_loop_graph_visited 4294967294 (by decide), by decide, by decide, by decide,
    by decide, by decide, by decide, by decide, by decide, by decide, by decide, by decide, ?_⟩
  rintro ⟨n, n1, h1, h2, h3⟩
  have e1 : map_find (loop_graph_visited 4294967295).nodes 0x3000 =
      some (some (loop_node 4294967295)) := by decide
  have e2 : map_find ((loop_graph_visited 4294967295).feed_all 1
      [loop_cmp, loop_jne]).2.nodes 0x3000 = some (some (loop_node 0)) := by decide
  rw [e1] at h1
  rw [e2] at h2
  simp only [Option.some.injEq] at h1 h2
  subst h1
  subst h2
  simp [loop_node] at h3

/-! ### Frame of a closed node, the image of an empty node -/

theorem read_of_holds {m : Memory} {ws : List Write} (h : holds m ws) (dst : Nat)
    (bytes : List Nat) (hw : { dst := dst, bytes := bytes } ∈ ws) :
    m.read dst bytes.length = bytes :=
  h _ hw

/-- C12: a closed node opened at iteration `i` is left entirely unchanged by
`Node::append_instruction(inst, j)` and by `Node::append_branch_instruction(inst, j)`
for every `j` different from `i` and every instruction whose address is already in
the body of the node. -/
theorem C12_closed_node_unchanged (n : Node) (inst : instruction) (j : Nat)
    (hdone : n.done = true) (hj : n._iteration ≠ j)
    (hin : n.contains_address inst.pointer_address = true) :
    n.append_instruction inst j = n ∧ n.append_branch_instruction inst j = n := by
  constructor
  · simp [Node.append_instruction, hdone, hin, hj]
  · simp [Node.append_branch_instruction, hdone]

/-- C12, instantiated on the closed block of the loop scenario, opened at iteration
1 and met again at iteration 2. -/
theorem C12_closed_node_unchanged_witness :
    (loop_node 3).done = true ∧ (loop_node 3)._iteration ≠ 2 ∧
    (loop_node 3).contains_address loop_jne.pointer_address = true ∧
    (loop_node 3).append_instruction loop_jne 2 = loop_node 3 ∧
    (loop_node 3).append_branch_instruction loop_jne 2 = loop_node 3 :=
  ⟨by decide, by decide, by decide,
    C12_closed_node_unchanged (loop_node 3) loop_jne 2 (by decide) (by decide) (by decide)⟩

/-- C16: for a node with an empty body `Node::mem_size()` is 53, and
`Node::load_to_memory` makes eight copies that follow one another without a gap from
the pointer on: the entry, the iteration and the body count `0` (8 bytes each), the
closed flag (one byte, `0` or `1`), `max_occurrences`, the two successors (8 bytes
each) and the visit count (4 bytes); the 53 bytes found at the pointer afterwards
are these values in that order, little-endian. -/
theorem C16_empty_node_image (codec : instruction_codec) (n : Node) (mem : Nat) (m : Memory)
    (hb : n.block = []) :
    n.mem_size codec = 53 ∧
    n.load_to_memory codec mem =
      [{ dst := mem, bytes := le_bytes 8 n._start_address },
       { dst := mem + 8, bytes := le_bytes 8 n._iteration },
       { dst := mem + 16, bytes := le_bytes 8 0 },
       { dst := mem + 24, bytes := [if n.is_done then 1 else 0] },
       { dst := mem + 25, bytes := le_bytes 8 n.max_occurrences },
       { dst := mem + 33, bytes := le_bytes 8 n.true_branch_address },
       { dst := mem + 41, bytes := le_bytes 8 n.false_branch_address },
       { dst := mem + 49, bytes := le_bytes 4 n.occurrences }] ∧
    bytes_written (n.load_to_memory codec mem) = 53 ∧
    (m.store_all (n.load_to_memory codec mem)).read mem 53 =
      le_bytes 8 n._start_address ++ le_bytes 8 n._iteration ++ le_bytes 8 0 ++
        [if n.is_done then 1 else 0] ++ le_bytes 8 n.max_occurrences ++
        le_bytes 8 n.true_branch_address ++ le_bytes 8 n.false_branch_address ++
        le_bytes 4 n.occurrences := by
  have hlog : n.load_to_memory codec mem =
      [{ dst := mem, bytes := le_bytes 8 n._start_address },
       { dst := mem + 8, bytes := le_bytes 8 n._iteration },
       { dst := mem + 16, bytes := le_bytes 8 0 },
       { dst := mem + 24, bytes := [if n.is_done then 1 else 0] },
       { dst := mem + 25, bytes := le_bytes 8 n.max_occurrences },
       { dst := mem + 33, bytes := le_bytes 8 n.true_branch_address },
       { dst := mem + 41, bytes := le_bytes 8 n.false_branch_address },
       { dst := mem + 49, bytes := le_bytes 4 n.occurrences }] := by
    simp [Node.load_to_memory, hb, store_block, block_end]
  have hsize : n.mem_size codec = 53 := by simp [Node.mem_size, hb, block_mem_size]
  refine ⟨hsize, hlog, ?_, ?_⟩
  · rw [hlog]; simp [bytes_written, le_bytes_length]
  · have hord := Node.load_to_memory_ordered codec n mem (by simp [hb])
    have hh := holds_store_all m _ hord
    rw [hlog] at hh
    rw [hlog]
    generalize Memory.store_all m _ = m1 at hh ⊢
    have e1 := read_of_holds hh mem (le_bytes 8 n._start_address) (by simp)
    have e2 := read_of_holds hh (mem + 8) (le_bytes 8 n._iteration) (by simp)
    have e3 := read_of_holds hh (mem + 16) (le_bytes 8 0) (by simp)
    have e4 := read_of_holds hh (mem + 24) [if n.is_done then 1 else 0] (by simp)
    have e5 := read_of_holds hh (mem + 25) (le_bytes 8 n.max_occurrences) (by simp)
    have e6 := read_of_holds hh (mem + 33) (le_bytes 8 n.true_branch_address) (by simp)
    have e7 := read_of_holds hh (mem + 41) (le_bytes 8 n.false_branch_address) (by simp)
    have e8 := read_of_holds hh (mem + 49) (le_bytes 4 n.occurrences) (by simp)
    simp only [le_bytes_length, List.length_singleton] at e1 e2 e3 e4 e5 e6 e7 e8
    have hsplit : m1.read mem 53 = m1.read mem 8 ++ m1.read (mem + 8) 8 ++ m1.read (mem + 16) 8 ++
        m1.read (mem + 24) 1 ++ m1.read (mem + 25) 8 ++ m1.read (mem + 33) 8 ++
        m1.read (mem + 41) 8 ++ m1.read (mem + 49) 4 := by
      rw [show (53 : Nat) = 49 + 4 from rfl, Memory.read_add,
        show (49 : Nat) = 41 + 8 from rfl, Memory.read_add,
        show (41 : Nat) = 33 + 8 from rfl, Memory.read_add,
        show (33 : Nat) = 25 + 8 from rfl, Memory.read_add,
        show (25 : Nat) = 24 + 1 from rfl, Memory.read_add,
        show (24 : Nat) = 16 + 8 from rfl, Memory.read_add,
        show (16 : Nat) = 8 + 8 from rfl, Memory.read_add]
    rw [hsplit, e1, e2, e3, e4, e5, e6, e7, e8]

/-- C16, instantiated on the placeholder `0x3006` of the loop scenario written at
address 0 of a zeroed memory. -/
theorem C16_empty_node_image_witness :
    (Node.create 0x3006 1).block = [] ∧
    (Node.create 0x3006 1).mem_size wire_codec = 53 ∧
    bytes_written ((Node.create 0x3006 1).load_to_memory wire_codec 0) = 53 ∧
    (Memory.store_all (fun _ => 0) ((Node.create 0x3006 1).load_to_memory wire_codec 0)).read
        0 53 =
      [0x06, 0x30, 0, 0, 0, 0, 0, 0, 1, 0, 0, 0, 0, 0, 0, 0, 0, 0, 0, 0, 0, 0, 0, 0, 0,
       1, 0, 0, 0, 0, 0, 0, 0, 0, 0, 0, 0, 0, 0, 0, 0, 0, 0, 0, 0, 0, 0, 0, 0, 1, 0, 0, 0] :=
  ⟨rfl, (C16_empty_node_image wire_codec (Node.create 0x3006 1) 0 (fun _ => 0) rfl).1,
    (C16_empty_node_image wire_codec (Node.create 0x3006 1) 0 (fun _ => 0) rfl).2.2.1,
    (C16_empty_node_image wire_codec (Node.create 0x3006 1) 0 (fun _ => 0) rfl).2.2.2.trans
      (by decide)⟩

/-! ### The pre-render pass and the colour of a node -/

theorem max_of_occurrences_eq (nodes : List (Nat × Option Node)) (acc : Nat)
    (hnn : ∀ item ∈ nodes, item.2 ≠ none) :
    max_of_occurrences nodes acc = some (max acc (max_visits nodes)) := by
  induction nodes generalizing acc with
  | nil => simp [max_of_occurrences, max_visits]
  | cons item rest ih =>
    obtain ⟨k, v⟩ := item
    cases v with
    | none => exact absurd rfl (hnn (k, none) (by simp))
    | some node =>
      simp only [max_of_occurrences, max_visits]
      rw [ih _ (fun item h => hnn item (by simp [h]))]
      congr 1
      by_cases h : node.occurrences > acc
      · simp only [h, if_true]; omega
      · simp only [h, if_false]; omega

theorem assign_max_occurrences_eq (nodes : List (Nat × Option Node)) (max : Nat)
    (hnn : ∀ item ∈ nodes, item.2 ≠ none) :
    assign_max_occurrences nodes max =
      some (nodes.map (fun item =>
        (item.1, item.2.map (fun node => { node with max_occurrences := max })))) := by
  induction nodes with
  | nil => rfl
  | cons item rest ih =>
    obtain ⟨k, v⟩ := item
    cases v with
    | none => exact absurd rfl (hnn (k, none) (by simp))
    | some node =>
      simp only [assign_max_occurrences]
      rw [ih (fun item h => hnn item (by simp [h]))]
      rfl

theorem le_max_visits (nodes : List (Nat × Option Node)) (k : Nat) (node : Node)
    (h : (k, some node) ∈ nodes) : node.occurrences ≤ max_visits nodes := by
  induction nodes with
  | nil => simp at h
  | cons item rest ih =>
    obtain ⟨k1, v⟩ := item
    rcases List.mem_cons.1 h with h1 | h1
    · injection h1 with h2 h3
      subst h3
      simp only [max_visits]
      omega
    · have := ih h1
      cases v with
      | none => simpa only [max_visits] using this
      | some n1 =>
        simp only [max_visits]
        omega

theorem max_visits_attained (nodes : List (Nat × Option Node))
    (hnn : ∀ item ∈ nodes, item.2 ≠ none) (hne : nodes ≠ []) :
    ∃ k node, (k, some node) ∈ nodes ∧ node.occurrences = max_visits nodes := by
  induction nodes with
  | nil => exact absurd rfl hne
  | cons item rest ih =>
    obtain ⟨k, v⟩ := item
    cases v with
    | none => exact absurd rfl (hnn (k, none) (by simp))
    | some node =>
      simp only [max_visits]
      by_cases hr : rest = []
      · subst hr
        exact ⟨k, node, by simp, by simp [max_visits]⟩
      · obtain ⟨k1, n1, hm, he⟩ := ih (fun item h => hnn item (by simp [h])) hr
        by_cases hle : max_visits rest ≤ node.occurrences
        · exact ⟨k, node, by simp, by omega⟩
        · exact ⟨k1, n1, by simp [hm], by omega⟩

/-- C18: `set_nodes_max_occurrences` on a graph whose map holds no null pointer
returns the graph in which `max_occurrences` of every node is the largest visit
count of the graph and nothing else has changed: the keys, their order, every other
field of every node and the address members of the graph are as before. Every visit
count is at most that maximum, and a node of a non-empty graph attains it. -/
theorem C18_set_nodes_max_occurrences (g : control_flow_graph)
    (hnn : ∀ item ∈ g.nodes, item.2 ≠ none) :
    g.set_nodes_max_occurrences =
      some { g with nodes := g.nodes.map (fun item =>
        (item.1, item.2.map (fun node =>
          { node with max_occurrences := max_visits g.nodes }))) } ∧
    (∀ k node, (k, some node) ∈ g.nodes → node.occurrences ≤ max_visits g.nodes) ∧
    (g.nodes ≠ [] → ∃ k node, (k, some node) ∈ g.nodes ∧
      node.occurrences = max_visits g.nodes) := by
  refine ⟨?_, le_max_visits g.nodes, max_visits_attained g.nodes hnn⟩
  unfold control_flow_graph.set_nodes_max_occurrences
  rw [max_of_occurrences_eq g.nodes 0 hnn]
  simp only [Nat.zero_max]
  rw [assign_max_occurrences_eq g.nodes _ hnn]

/-- C18, instantiated on the loop scenario after its block has been seen three
times: both nodes end with `max_occurrences = 3`. -/
theorem C18_set_nodes_max_occurrences_witness :
    (∀ item ∈ (loop_graph_visited 3).nodes, item.2 ≠ none) ∧
    (loop_graph_visited 3).set_nodes_max_occurrences =
      some { loop_graph_visited 3 with nodes := (loop_graph_visited 3).nodes.map (fun item =>
        (item.1, item.2.map (fun node =>
          { node with max_occurrences := max_visits (loop_graph_visited 3).nodes }))) } :=
  ⟨by decide, (C18_set_nodes_max_occurrences (loop_graph_visited 3) (by decide)).1⟩

theorem blues9_ne_plum1 (x : String) :
    "colorscheme = blues9\n\t\tcolor = " ++ x ≠ "color = \"plum1\"" := by
  intro h
  have h1 := congrArg (fun s => s.data.get? 5) h
  simp only [String.data_append] at h1
  simp [List.get?] at h1

theorem Node.no_branching_iff (n : Node) :
    n.no_branching = true ↔
      n.true_branch_address = 0 ∧ n.false_branch_address = 0 ∧ n.block ≠ [] := by
  simp [Node.no_branching, and_assoc]

/-- C19: `graphviz_color` returns the literal colour `plum1` if and only if the node
has both successors zero and a non-empty body; in every other case it returns the
`blues9` scheme with the palette index chosen by `pick_color`, followed by a white
font colour when the index is 7 or more. The node built from three non-branch
instructions at `0x1000`, `0x1002`, `0x1005` renders `plum1`. -/
theorem C19_graphviz_color (n : Node) :
    (n.graphviz_color = "color = \"plum1\"" ↔
      n.true_branch_address = 0 ∧ n.false_branch_address = 0 ∧ n.block ≠ []) ∧
    (¬ (n.true_branch_address = 0 ∧ n.false_branch_address = 0 ∧ n.block ≠ []) →
      n.graphviz_color =
        "colorscheme = blues9\n\t\tcolor = " ++
          (toString (pick_color (n.max_occurrences % 2 ^ 32) n.occurrences) ++
            ((if 7 ≤ pick_color (n.max_occurrences % 2 ^ 32) n.occurrences
              then "\n\t\tfontcolor = white" else "") ++ "\n"))) ∧
    (control_flow_graph.empty.feed_all 1 straight_line =
        (outcome.ok, { nodes := [(0x1000, some straight_node)],
                       current_node_start_addr := 0x1000, current_pointer := 0x1000 }) ∧
      straight_node.graphviz_color = "color = \"plum1\"") := by
  have hother : ¬ (n.true_branch_address = 0 ∧ n.false_branch_address = 0 ∧ n.block ≠ []) →
      n.graphviz_color =
        "colorscheme = blues9\n\t\tcolor = " ++
          (toString (pick_color (n.max_occurrences % 2 ^ 32) n.occurrences) ++
            ((if 7 ≤ pick_color (n.max_occurrences % 2 ^ 32) n.occurrences
              then "\n\t\tfontcolor = white" else "") ++ "\n")) := by
    intro h
    have hb : n.no_branching = false := by
      rw [← Node.no_branching_iff] at h
      simpa using h
    unfold Node.graphviz_color
    simp only [hb, Bool.false_eq_true, if_false, ge_iff_le]
    split_ifs <;> simp [String.append_assoc]
  refine ⟨⟨?_, ?_⟩, hother, by decide, by decide⟩
  · intro h
    by_contra hc
    rw [hother hc] at h
    exact blues9_ne_plum1 _ h
  · intro h
    have hb := (Node.no_branching_iff n).2 h
    simp [Node.graphviz_color, hb]

/-- C19, instantiated on the closed block of the loop scenario, which has two
successors: it is coloured from the `blues9` scheme. -/
theorem C19_graphviz_color_witness :
    ¬ ((loop_node 1).true_branch_address = 0 ∧ (loop_node 1).false_branch_address = 0 ∧
        (loop_node 1).block ≠ []) ∧
    (loop_node 1).graphviz_color =
      "colorscheme = blues9\n\t\tcolor = " ++
        (toString (pick_color ((loop_node 1).max_occurrences % 2 ^ 32) (loop_node 1).occurrences) ++
          ((if 7 ≤ pick_color ((loop_node 1).max_occurrences % 2 ^ 32) (loop_node 1).occurrences
            then "\n\t\tfontcolor = white" else "") ++ "\n")) :=
  ⟨by decide, (C19_graphviz_color (loop_node 1)).2.1 (by decide)⟩

/-! ### The merger -/

theorem merge_node_find (nodes : List (Nat × Option Node)) (k : Nat) (other : Node) (j : Nat) :
    map_find (merge_node nodes k other) j =
      if k = j then
        (match map_find nodes k with
          | some (some self) => some (some (self.fuse other))
          | _ => some (some other))
      else map_find nodes j := by
  unfold merge_node
  split <;> rw [map_find_assign]

theorem merge_nodes_find (other nodes : List (Nat × Option Node)) (hs : keys_sorted other)
    (j : Nat) :
    map_find (merge_nodes nodes other) j =
      match map_find other j with
      | some (some o) =>
        (match map_find nodes j with
          | some (some self) => some (some (self.fuse o))
          | _ => some (some o))
      | _ => map_find nodes j := by
  induction other generalizing nodes with
  | nil => simp [merge_nodes, map_find]
  | cons item rest ih =>
    obtain ⟨k, v⟩ := item
    have hs1 : keys_sorted rest := (List.pairwise_cons.1 hs).2
    have hlt : ∀ x ∈ rest.map Prod.fst, k < x := (List.pairwise_cons.1 hs).1
    by_cases hkj : k = j
    · subst hkj
      have hnone : map_find rest k = none := map_find_none_of_lt rest k hlt
      cases v with
      | none =>
        simp only [merge_nodes, map_find, if_true]
        rw [ih nodes hs1, hnone]
      | some o =>
        simp only [merge_nodes, map_find, if_true]
        rw [ih _ hs1, hnone]
        simp only [merge_node_find, if_true]
    · cases v with
      | none =>
        simp only [merge_nodes, map_find, if_neg hkj]
        exact ih nodes hs1
      | some o =>
        simp only [merge_nodes, map_find, if_neg hkj]
        rw [ih _ hs1]
        simp only [merge_node_find, if_neg hkj]

/-- C13: when the graph `other` decoded from shared memory is merged into `self`,
a key present in both ends with the visit count `self.visits + other.visits`, a key
present only in `other` is inserted with the node of `other` unchanged, and a key
that `other` does not have keeps what `self` holds. -/
theorem C13_merge_adds_visits (self other : control_flow_graph)
    (hs : keys_sorted other.nodes) (k : Nat) :
    (∀ s o, map_find self.nodes k = some (some s) → map_find other.nodes k = some (some o) →
      ∃ n, map_find (self.merge other).nodes k = some (some n) ∧
        n.occurrences = s.occurrences + o.occurrences) ∧
    (∀ o, map_find self.nodes k = none → map_find other.nodes k = some (some o) →
      map_find (self.merge other).nodes k = some (some o)) ∧
    (map_find other.nodes k = none →
      map_find (self.merge other).nodes k = map_find self.nodes k) := by
  have h := merge_nodes_find other.nodes self.nodes hs k
  refine ⟨?_, ?_, ?_⟩
  · intro s o h1 h2
    rw [h1, h2] at h
    exact ⟨s.fuse o, h, rfl⟩
  · intro o h1 h2
    rw [h1, h2] at h
    exact h
  · intro h2
    rw [h2] at h
    exact h

/-- C13, instantiated on the merge scenario: `self` holds `0x4000` with 2 visits and
`0x4100` with 1 visit, `other` holds `0x4000` with 3 visits; after the merge `0x4000`
has 5 visits and `0x4100` has 1. -/
theorem C13_merge_adds_visits_witness :
    keys_sorted merge_other.nodes ∧
    map_find merge_self.nodes 0x4000 = some (some (visited_node 0x4000 2)) ∧
    map_find merge_other.nodes 0x4000 =
      some (some { visited_node 0x4000 3 with _iteration := 1 }) ∧
    (∃ n, map_find (merge_self.merge merge_other).nodes 0x4000 = some (some n) ∧
      n.occurrences = 2 + 3) ∧
    map_find merge_other.nodes 0x4100 = none ∧
    map_find (merge_self.merge merge_other).nodes 0x4100 = some (some (visited_node 0x4100 1)) :=
  ⟨by simp [keys_sorted, merge_other], by decide, by decide,
    (C13_merge_adds_visits merge_self merge_other (by simp [keys_sorted, merge_other])
      0x4000).1 (visited_node 0x4000 2) { visited_node 0x4000 3 with _iteration := 1 }
      (by decide) (by decide), by decide,
    ((C13_merge_adds_visits merge_self merge_other (by simp [keys_sorted, merge_other])
      0x4100).2.2 (by decide)).trans (by decide)⟩

/-! ### The rounding of `float` and of `double` -/

theorem round_half_even_floor_or (s : ℚ) :
    round_half_even s = ⌊s⌋ ∨ round_half_even s = ⌊s⌋ + 1 := by
  unfold round_half_even
  split_ifs <;> simp

theorem round_half_even_sub_le (s : ℚ) : (round_half_even s : ℚ) - s ≤ 1 / 2 := by
  have h1 := Int.floor_le s
  have h2 := Int.lt_floor_add_one s
  unfold round_half_even
  split_ifs with a b c
  · linarith
  · push_cast; linarith
  · linarith
  · push_cast; linarith

theorem sub_round_half_even_le (s : ℚ) : s - (round_half_even s : ℚ) ≤ 1 / 2 := by
  have h1 := Int.floor_le s
  have h2 := Int.lt_floor_add_one s
  unfold round_half_even
  split_ifs with a b c
  · linarith
  · push_cast; linarith
  · linarith
  · push_cast; linarith

theorem round_half_even_intCast (n : ℤ) : round_half_even (n : ℚ) = n := by
  unfold round_half_even
  simp

theorem round_half_even_mono {s t : ℚ} (h : s ≤ t) : round_half_even s ≤ round_half_even t := by
  have hf : ⌊s⌋ ≤ ⌊t⌋ := Int.floor_le_floor h
  rcases lt_or_eq_of_le hf with hlt | heq
  · have h1 : round_half_even s ≤ ⌊s⌋ + 1 := by
      rcases round_half_even_floor_or s with e | e <;> omega
    have h2 : ⌊t⌋ ≤ round_half_even t := by
      rcases round_half_even_floor_or t with e | e <;> omega
    omega
  · unfold round_half_even
    rw [← heq]
    split_ifs <;> first | omega | (exfalso; linarith)

theorem round_half_even_eq {s : ℚ} {m : ℤ} (h1 : (m : ℚ) - 1 / 2 < s) (h2 : s < (m : ℚ) + 1 / 2) :
    round_half_even s = m := by
  have a := round_half_even_sub_le s
  have b := sub_round_half_even_le s
  have c1 : ((round_half_even s : ℤ) : ℚ) < ((m + 1 : ℤ) : ℚ) := by push_cast; linarith
  have c2 : ((m - 1 : ℤ) : ℚ) < ((round_half_even s : ℤ) : ℚ) := by push_cast; linarith
  have d1 : round_half_even s < m + 1 := by exact_mod_cast c1
  have d2 : m - 1 < round_half_even s := by exact_mod_cast c2
  omega

theorem two_zpow_pos (e : ℤ) : (0 : ℚ) < 2 ^ e := zpow_pos (by norm_num) e

/-- The scaled value of a positive rational lies between `2^(prec-1)` and `2^prec`. -/
theorem scaled_bounds (prec : Nat) (hp : 1 ≤ prec) (x : ℚ) (hx : 0 < x) :
    (2 : ℚ) ^ (prec - 1) ≤ x / 2 ^ (Int.log 2 x - ((prec : ℤ) - 1)) ∧
    x / 2 ^ (Int.log 2 x - ((prec : ℤ) - 1)) < (2 : ℚ) ^ prec := by
  have h1 : ((2 : ℕ) : ℚ) ^ Int.log 2 x ≤ x := Int.zpow_log_le_self (by norm_num) hx
  have h2 : x < ((2 : ℕ) : ℚ) ^ (Int.log 2 x + 1) := Int.lt_zpow_succ_log_self (by norm_num) x
  push_cast at h1 h2
  have hpos := two_zpow_pos (Int.log 2 x - ((prec : ℤ) - 1))
  have e1 : (2 : ℚ) ^ (prec - 1) * 2 ^ (Int.log 2 x - ((prec : ℤ) - 1)) = 2 ^ Int.log 2 x := by
    rw [← zpow_natCast, ← zpow_add₀ (by norm_num : (2 : ℚ) ≠ 0)]
    congr 1
    push_cast [Nat.cast_sub hp]
    ring
  have e2 : (2 : ℚ) ^ prec * 2 ^ (Int.log 2 x - ((prec : ℤ) - 1)) = 2 ^ (Int.log 2 x + 1) := by
    rw [← zpow_natCast, ← zpow_add₀ (by norm_num : (2 : ℚ) ≠ 0)]
    congr 1
    ring
  constructor
  · rw [le_div_iff₀ hpos, e1]; exact h1
  · rw [div_lt_iff₀ hpos, e2]; exact h2

theorem round_to_nonpos (prec : Nat) (x : ℚ) (hx : x ≤ 0) : round_to prec x = 0 := by
  simp [round_to, hx]

theorem round_to_pos_eq (prec : Nat) (x : ℚ) (hx : 0 < x) :
    round_to prec x =
      (round_half_even (x / 2 ^ (Int.log 2 x - ((prec : ℤ) - 1))) : ℚ) *
        2 ^ (Int.log 2 x - ((prec : ℤ) - 1)) := by
  simp [round_to, not_le.2 hx]

/-- The exponent of a positive rational is the only one that brings it between
`2^(prec-1)` and `2^prec`. -/
theorem exponent_unique (prec : Nat) (hp : 1 ≤ prec) (x : ℚ) (hx : 0 < x) (e : ℤ)
    (h1 : (2 : ℚ) ^ (prec - 1) * 2 ^ e ≤ x) (h2 : x < (2 : ℚ) ^ prec * 2 ^ e) :
    Int.log 2 x - ((prec : ℤ) - 1) = e := by
  have e1 : (2 : ℚ) ^ (prec - 1) * 2 ^ e = ((2 : ℕ) : ℚ) ^ (e + ((prec : ℤ) - 1)) := by
    rw [← zpow_natCast, ← zpow_add₀ (by norm_num : (2 : ℚ) ≠ 0)]
    push_cast [Nat.cast_sub hp]
    congr 1
    ring
  have e2 : (2 : ℚ) ^ prec * 2 ^ e = ((2 : ℕ) : ℚ) ^ (e + ((prec : ℤ) - 1) + 1) := by
    rw [← zpow_natCast, ← zpow_add₀ (by norm_num : (2 : ℚ) ≠ 0)]
    push_cast
    congr 1
    ring
  rw [e1] at h1
  rw [e2] at h2
  have a := (Int.zpow_le_iff_le_log (by norm_num : 1 < 2) hx).1 h1
  have b := (Int.lt_zpow_iff_log_lt (by norm_num : 1 < 2) hx).1 h2
  omega

theorem round_to_of_exponent (prec : Nat) (hp : 1 ≤ prec) (x : ℚ) (e : ℤ)
    (h1 : (2 : ℚ) ^ (prec - 1) * 2 ^ e ≤ x) (h2 : x < (2 : ℚ) ^ prec * 2 ^ e) :
    round_to prec x = (round_half_even (x / 2 ^ e) : ℚ) * 2 ^ e := by
  have hx : 0 < x := lt_of_lt_of_le (mul_pos (pow_pos (by norm_num) _) (two_zpow_pos e)) h1
  rw [round_to_pos_eq prec x hx, exponent_unique prec hp x hx e h1 h2]

/-- A value with `prec` significant bits is its own rounding. -/
theorem round_to_normal (prec : Nat) (hp : 1 ≤ prec) (m : ℕ) (e : ℤ)
    (h1 : 2 ^ (prec - 1) ≤ m) (h2 : m < 2 ^ prec) :
    round_to prec ((m : ℚ) * 2 ^ e) = (m : ℚ) * 2 ^ e := by
  have hpos := two_zpow_pos e
  have a : (2 : ℚ) ^ (prec - 1) ≤ (m : ℚ) := by exact_mod_cast h1
  have b : (m : ℚ) < (2 : ℚ) ^ prec := by exact_mod_cast h2
  rw [round_to_of_exponent prec hp _ e (mul_le_mul_of_nonneg_right a hpos.le)
    (mul_lt_mul_of_pos_right b hpos), mul_div_assoc, div_self hpos.ne', mul_one]
  have : ((m : ℤ) : ℚ) = (m : ℚ) := by push_cast; rfl
  rw [← this, round_half_even_intCast]

/-- The rounding of `x` when the scaled value lies strictly within a half of `m`. -/
theorem round_to_eq (prec : Nat) (hp : 1 ≤ prec) (x : ℚ) (m e : ℤ)
    (h1 : (2 : ℚ) ^ (prec - 1) * 2 ^ e ≤ x) (h2 : x < (2 : ℚ) ^ prec * 2 ^ e)
    (h3 : ((m : ℚ) - 1 / 2) * 2 ^ e < x) (h4 : x < ((m : ℚ) + 1 / 2) * 2 ^ e) :
    round_to prec x = (m : ℚ) * 2 ^ e := by
  have hpos := two_zpow_pos e
  rw [round_to_of_exponent prec hp x e h1 h2]
  congr 2
  apply round_half_even_eq
  · rw [lt_div_iff₀ hpos]; exact h3
  · rw [div_lt_iff₀ hpos]; exact h4

theorem round_to_nonneg (prec : Nat) (x : ℚ) : 0 ≤ round_to prec x := by
  by_cases hx : x ≤ 0
  · rw [round_to_nonpos prec x hx]
  · rw [round_to_pos_eq prec x (not_le.1 hx)]
    apply mul_nonneg _ (two_zpow_pos _).le
    have h0 : (0 : ℚ) ≤ x / 2 ^ (Int.log 2 x - ((prec : ℤ) - 1)) :=
      div_nonneg (not_le.1 hx).le (two_zpow_pos _).le
    have := round_half_even_mono h0
    have z : round_half_even ((0 : ℤ) : ℚ) = 0 := round_half_even_intCast 0
    simp only [Int.cast_zero] at z
    rw [z] at this
    exact_mod_cast this

theorem round_to_mono (prec : Nat) (hp : 1 ≤ prec) {x y : ℚ} (h : x ≤ y) :
    round_to prec x ≤ round_to prec y := by
  by_cases hx : x ≤ 0
  · rw [round_to_nonpos prec x hx]; exact round_to_nonneg prec y
  have hx0 : 0 < x := not_le.1 hx
  have hy0 : 0 < y := lt_of_lt_of_le hx0 h
  have hl : Int.log 2 x ≤ Int.log 2 y := Int.log_mono_right hx0 h
  rw [round_to_pos_eq prec x hx0, round_to_pos_eq prec y hy0]
  have bx := scaled_bounds prec hp x hx0
  have bY := scaled_bounds prec hp y hy0
  rcases lt_or_eq_of_le hl with hlt | heq
  · -- the exponents differ: a power of two lies between the two roundings
    have ux : round_half_even (x / 2 ^ (Int.log 2 x - ((prec : ℤ) - 1))) ≤
        ((2 ^ prec : ℕ) : ℤ) := by
      have := round_half_even_mono (le_of_lt bx.2)
      have c : ((2 : ℚ) ^ prec) = (((2 ^ prec : ℕ) : ℤ) : ℚ) := by push_cast; rfl
      rw [c, round_half_even_intCast] at this
      exact this
    have ly : ((2 ^ (prec - 1) : ℕ) : ℤ) ≤
        round_half_even (y / 2 ^ (Int.log 2 y - ((prec : ℤ) - 1))) := by
      have := round_half_even_mono bY.1
      have c : ((2 : ℚ) ^ (prec - 1)) = (((2 ^ (prec - 1) : ℕ) : ℤ) : ℚ) := by push_cast; rfl
      rw [c, round_half_even_intCast] at this
      exact this
    have ux1 : (round_half_even (x / 2 ^ (Int.log 2 x - ((prec : ℤ) - 1))) : ℚ) ≤
        (2 : ℚ) ^ prec := by
      have : ((round_half_even (x / 2 ^ (Int.log 2 x - ((prec : ℤ) - 1))) : ℤ) : ℚ) ≤
          ((((2 ^ prec : ℕ) : ℤ)) : ℚ) := by exact_mod_cast ux
      push_cast at this; exact this
    have ly1 : (2 : ℚ) ^ (prec - 1) ≤
        (round_half_even (y / 2 ^ (Int.log 2 y - ((prec : ℤ) - 1))) : ℚ) := by
      have : ((((2 ^ (prec - 1) : ℕ) : ℤ)) : ℚ) ≤
          ((round_half_even (y / 2 ^ (Int.log 2 y - ((prec : ℤ) - 1))) : ℤ) : ℚ) := by
        exact_mod_cast ly
      push_cast at this; exact this
    calc (round_half_even (x / 2 ^ (Int.log 2 x - ((prec : ℤ) - 1))) : ℚ) *
          2 ^ (Int.log 2 x - ((prec : ℤ) - 1))
        ≤ (2 : ℚ) ^ prec * 2 ^ (Int.log 2 x - ((prec : ℤ) - 1)) :=
          mul_le_mul_of_nonneg_right ux1 (two_zpow_pos _).le
      _ = (2 : ℚ) ^ (Int.log 2 x + 1) := by
          rw [← zpow_natCast, ← zpow_add₀ (by norm_num : (2 : ℚ) ≠ 0)]
          congr 1
          ring
      _ ≤ (2 : ℚ) ^ (Int.log 2 y) := zpow_le_zpow_right₀ (by norm_num) (by omega)
      _ = (2 : ℚ) ^ (prec - 1) * 2 ^ (Int.log 2 y - ((prec : ℤ) - 1)) := by
          rw [← zpow_natCast, ← zpow_add₀ (by norm_num : (2 : ℚ) ≠ 0)]
          congr 1
          push_cast [Nat.cast_sub hp]
          ring
      _ ≤ _ := mul_le_mul_of_nonneg_right ly1 (two_zpow_pos _).le
  · rw [← heq]
    apply mul_le_mul_of_nonneg_right _ (two_zpow_pos _).le
    have : x / 2 ^ (Int.log 2 x - ((prec : ℤ) - 1)) ≤ y / 2 ^ (Int.log 2 x - ((prec : ℤ) - 1)) :=
      div_le_div_of_nonneg_right h (two_zpow_pos _).le
    exact_mod_cast round_half_even_mono this

/-- The rounding error is at most `x / 2^prec`: half a unit in the last place. -/
theorem round_to_error (prec : Nat) (hp : 1 ≤ prec) (x : ℚ) (hx : 0 < x) :
    x - x / 2 ^ prec ≤ round_to prec x ∧ round_to prec x ≤ x + x / 2 ^ prec := by
  have b := scaled_bounds prec hp x hx
  have hpos := two_zpow_pos (Int.log 2 x - ((prec : ℤ) - 1))
  have r1 := round_half_even_sub_le (x / 2 ^ (Int.log 2 x - ((prec : ℤ) - 1)))
  have r2 := sub_round_half_even_le (x / 2 ^ (Int.log 2 x - ((prec : ℤ) - 1)))
  rw [round_to_pos_eq prec x hx]
  set u := (2 : ℚ) ^ (Int.log 2 x - ((prec : ℤ) - 1)) with hu
  set r := (round_half_even (x / u) : ℚ) with hr
  have hxu : x = (x / u) * u := by field_simp
  -- half a unit is at most x / 2^prec
  have hhalf : u / 2 ≤ x / 2 ^ prec := by
    have h2p : (2 : ℚ) ^ prec = 2 * 2 ^ (prec - 1) := by
      rw [← pow_succ']
      congr 1
      omega
    have hpp : (0 : ℚ) < 2 ^ (prec - 1) := pow_pos (by norm_num) _
    have h3 : (2 : ℚ) ^ (prec - 1) * u ≤ x := by
      have := b.1
      rw [le_div_iff₀ hpos] at this
      exact this
    rw [h2p, div_le_div_iff₀ (by norm_num) (by positivity)]
    nlinarith
  constructor
  · have : x - u / 2 ≤ r * u := by
      have : (x / u - 1 / 2) * u ≤ r * u := mul_le_mul_of_nonneg_right (by linarith) hpos.le
      calc x - u / 2 = (x / u - 1 / 2) * u := by field_simp; ring
        _ ≤ r * u := this
    linarith
  · have : r * u ≤ x + u / 2 := by
      have : r * u ≤ (x / u + 1 / 2) * u := mul_le_mul_of_nonneg_right (by linarith) hpos.le
      calc r * u ≤ (x / u + 1 / 2) * u := this
        _ = x + u / 2 := by field_simp; ring
    linarith

theorem round_half_even_tie {s : ℚ} {m : ℤ} (hm : m % 2 = 0)
    (h1 : (m : ℚ) - 1 / 2 ≤ s) (h2 : s ≤ (m : ℚ) + 1 / 2) : round_half_even s = m := by
  rcases lt_or_eq_of_le h1 with a | a
  · rcases lt_or_eq_of_le h2 with b | b
    · exact round_half_even_eq a b
    · have hf : ⌊s⌋ = m := by
        rw [Int.floor_eq_iff]
        constructor <;> linarith
      unfold round_half_even
      rw [hf, b]
      norm_num [hm]
  · have hf : ⌊s⌋ = m - 1 := by
      rw [Int.floor_eq_iff]
      push_cast
      constructor <;> linarith
    have hodd : ¬ ((m - 1) % 2 = 0) := by omega
    unfold round_half_even
    rw [hf, ← a]
    push_cast
    norm_num [hodd]

/-- The rounding of `x` when the scaled value lies within a half of the even `m`,
the two ties included. -/
theorem round_to_eq_even (prec : Nat) (hp : 1 ≤ prec) (x : ℚ) (m e : ℤ) (hm : m % 2 = 0)
    (h1 : (2 : ℚ) ^ (prec - 1) * 2 ^ e ≤ x) (h2 : x < (2 : ℚ) ^ prec * 2 ^ e)
    (h3 : ((m : ℚ) - 1 / 2) * 2 ^ e ≤ x) (h4 : x ≤ ((m : ℚ) + 1 / 2) * 2 ^ e) :
    round_to prec x = (m : ℚ) * 2 ^ e := by
  have hpos := two_zpow_pos e
  rw [round_to_of_exponent prec hp x e h1 h2]
  congr 2
  apply round_half_even_tie hm
  · rw [le_div_iff₀ hpos]; exact h3
  · rw [div_le_iff₀ hpos]; exact h4

/-- A value `n * 2^k` with `n` below `2^prec` is its own rounding. -/
theorem round_to_dyadic (prec : Nat) (hp : 1 ≤ prec) (n : ℕ) (k : ℤ) (h : n < 2 ^ prec) :
    round_to prec ((n : ℚ) * 2 ^ k) = (n : ℚ) * 2 ^ k := by
  rcases Nat.eq_zero_or_pos n with h0 | h0
  · subst h0
    simp [round_to]
  have hl : Nat.log 2 n < prec := Nat.log_lt_of_lt_pow (by omega) h
  have h1 : 2 ^ Nat.log 2 n ≤ n := Nat.pow_log_le_self 2 (by omega)
  have h2 : n < 2 ^ (Nat.log 2 n + 1) := Nat.lt_pow_succ_log_self (by norm_num) n
  have e1 : (n : ℚ) * 2 ^ k =
      ((n * 2 ^ (prec - 1 - Nat.log 2 n) : ℕ) : ℚ) *
        2 ^ (k - ((prec - 1 - Nat.log 2 n : ℕ) : ℤ)) := by
    push_cast
    rw [mul_assoc, ← zpow_natCast, ← zpow_add₀ (by norm_num : (2 : ℚ) ≠ 0)]
    congr 2
    ring
  rw [e1]
  apply round_to_normal prec hp
  · calc 2 ^ (prec - 1) = 2 ^ Nat.log 2 n * 2 ^ (prec - 1 - Nat.log 2 n) := by
          rw [← pow_add]; congr 1; omega
      _ ≤ n * 2 ^ (prec - 1 - Nat.log 2 n) := Nat.mul_le_mul_right _ h1
  · calc n * 2 ^ (prec - 1 - Nat.log 2 n)
        < 2 ^ (Nat.log 2 n + 1) * 2 ^ (prec - 1 - Nat.log 2 n) :=
          Nat.mul_lt_mul_of_pos_right h2 (by positivity)
      _ = 2 ^ prec := by rw [← pow_add]; congr 1; omega

theorem round_to_natCast (prec : Nat) (hp : 1 ≤ prec) (n : ℕ) (h : n < 2 ^ prec) :
    round_to prec (n : ℚ) = (n : ℚ) := by
  have := round_to_dyadic prec hp n 0 h
  simpa using this

theorem round_to_pos (prec : Nat) (hp : 1 ≤ prec) (x : ℚ) (hx : 0 < x) : 0 < round_to prec x := by
  have h := (round_to_error prec hp x hx).1
  have h2 : (2 : ℚ) ≤ 2 ^ prec := by
    calc (2 : ℚ) = 2 ^ 1 := by norm_num
      _ ≤ 2 ^ prec := pow_le_pow_right₀ (by norm_num) hp
  have h3 : x / 2 ^ prec ≤ x / 2 := div_le_div_of_nonneg_left hx.le (by norm_num) h2
  linarith

theorem to_double_eq (x : ℚ) (m e : ℤ)
    (h1 : (2 : ℚ) ^ 52 * 2 ^ e ≤ x) (h2 : x < (2 : ℚ) ^ 53 * 2 ^ e)
    (h3 : ((m : ℚ) - 1 / 2) * 2 ^ e < x) (h4 : x < ((m : ℚ) + 1 / 2) * 2 ^ e) :
    to_double x = (m : ℚ) * 2 ^ e :=
  round_to_eq 53 (by norm_num) x m e h1 h2 h3 h4

theorem to_double_eq_even (x : ℚ) (m e : ℤ) (hm : m % 2 = 0)
    (h1 : (2 : ℚ) ^ 52 * 2 ^ e ≤ x) (h2 : x < (2 : ℚ) ^ 53 * 2 ^ e)
    (h3 : ((m : ℚ) - 1 / 2) * 2 ^ e ≤ x) (h4 : x ≤ ((m : ℚ) + 1 / 2) * 2 ^ e) :
    to_double x = (m : ℚ) * 2 ^ e :=
  round_to_eq_even 53 (by norm_num) x m e hm h1 h2 h3 h4

theorem to_float_eq_even (x : ℚ) (m e : ℤ) (hm : m % 2 = 0)
    (h1 : (2 : ℚ) ^ 23 * 2 ^ e ≤ x) (h2 : x < (2 : ℚ) ^ 24 * 2 ^ e)
    (h3 : ((m : ℚ) - 1 / 2) * 2 ^ e ≤ x) (h4 : x ≤ ((m : ℚ) + 1 / 2) * 2 ^ e) :
    to_float x = (m : ℚ) * 2 ^ e :=
  round_to_eq_even 24 (by norm_num) x m e hm h1 h2 h3 h4

/-! ### The palette index -/

/-- The `double` that `100.0 / n` gives for `n = 9`: `11.11111111111111`. -/
theorem split_in_value : to_double (100 / 9) = 3127499741229511 / 281474976710656 :=
  (to_double_eq _ 6254999482459022 (-49) (by norm_num) (by norm_num) (by norm_num)
    (by norm_num)).trans (by norm_num)

/-- The nine bounds, each the `double` nearest to `split_in * (i + 1)`; the products for
`i = 2, 4, 5` are ties, which go to the even neighbour, and the last is `100.0`, so
that it becomes `99.0`. -/
theorem interval_zero : interval 0 = 3127499741229511 / 281474976710656 := by
  have h : to_double (3127499741229511 / 281474976710656 * ((0 + 1 : ℕ) : ℚ)) =
      3127499741229511 / 281474976710656 :=
    (to_double_eq _ 6254999482459022 (-49) (by norm_num) (by norm_num) (by norm_num)
      (by norm_num)).trans (by norm_num)
  have hne : ¬ ((3127499741229511 / 281474976710656 : ℚ) = 100) := by norm_num
  simp only [interval, split_in_value, h, hne, if_false]

theorem interval_one : interval 1 = 3127499741229511 / 140737488355328 := by
  have h : to_double (3127499741229511 / 281474976710656 * ((1 + 1 : ℕ) : ℚ)) =
      3127499741229511 / 140737488355328 :=
    (to_double_eq _ 6254999482459022 (-48) (by norm_num) (by norm_num) (by norm_num)
      (by norm_num)).trans (by norm_num)
  have hne : ¬ ((3127499741229511 / 140737488355328 : ℚ) = 100) := by norm_num
  simp only [interval, split_in_value, h, hne, if_false]

theorem interval_two : interval 2 = 2345624805922133 / 70368744177664 := by
  have h : to_double (3127499741229511 / 281474976710656 * ((2 + 1 : ℕ) : ℚ)) =
      2345624805922133 / 70368744177664 :=
    (to_double_eq_even _ 4691249611844266 (-47) (by norm_num) (by norm_num) (by norm_num)
      (by norm_num) (by norm_num)).trans (by norm_num)
  have hne : ¬ ((2345624805922133 / 70368744177664 : ℚ) = 100) := by norm_num
  simp only [interval, split_in_value, h, hne, if_false]

theorem interval_three : interval 3 = 3127499741229511 / 70368744177664 := by
  have h : to_double (3127499741229511 / 281474976710656 * ((3 + 1 : ℕ) : ℚ)) =
      3127499741229511 / 70368744177664 :=
    (to_double_eq _ 6254999482459022 (-47) (by norm_num) (by norm_num) (by norm_num)
      (by norm_num)).trans (by norm_num)
  have hne : ¬ ((3127499741229511 / 70368744177664 : ℚ) = 100) := by norm_num
  simp only [interval, split_in_value, h, hne, if_false]

theorem interval_four : interval 4 = 3909374676536889 / 70368744177664 := by
  have h : to_double (3127499741229511 / 281474976710656 * ((4 + 1 : ℕ) : ℚ)) =
      3909374676536889 / 70368744177664 :=
    (to_double_eq_even _ 7818749353073778 (-47) (by norm_num) (by norm_num) (by norm_num)
      (by norm_num) (by norm_num)).trans (by norm_num)
  have hne : ¬ ((3909374676536889 / 70368744177664 : ℚ) = 100) := by norm_num
  simp only [interval, split_in_value, h, hne, if_false]

theorem interval_five : interval 5 = 2345624805922133 / 35184372088832 := by
  have h : to_double (3127499741229511 / 281474976710656 * ((5 + 1 : ℕ) : ℚ)) =
      2345624805922133 / 35184372088832 :=
    (to_double_eq_even _ 4691249611844266 (-46) (by norm_num) (by norm_num) (by norm_num)
      (by norm_num) (by norm_num)).trans (by norm_num)
  have hne : ¬ ((2345624805922133 / 35184372088832 : ℚ) = 100) := by norm_num
  simp only [interval, split_in_value, h, hne, if_false]

theorem interval_six : interval 6 = 1368281136787911 / 17592186044416 := by
  have h : to_double (3127499741229511 / 281474976710656 * ((6 + 1 : ℕ) : ℚ)) =
      1368281136787911 / 17592186044416 :=
    (to_double_eq _ 5473124547151644 (-46) (by norm_num) (by norm_num) (by norm_num)
      (by norm_num)).trans (by norm_num)
  have hne : ¬ ((1368281136787911 / 17592186044416 : ℚ) = 100) := by norm_num
  simp only [interval, split_in_value, h, hne, if_false]

theorem interval_seven : interval 7 = 3127499741229511 / 35184372088832 := by
  have h : to_double (3127499741229511 / 281474976710656 * ((7 + 1 : ℕ) : ℚ)) =
      3127499741229511 / 35184372088832 :=
    (to_double_eq _ 6254999482459022 (-46) (by norm_num) (by norm_num) (by norm_num)
      (by norm_num)).trans (by norm_num)
  have hne : ¬ ((3127499741229511 / 35184372088832 : ℚ) = 100) := by norm_num
  simp only [interval, split_in_value, h, hne, if_false]

theorem interval_eight : interval 8 = 99 := by
  have h : to_double (3127499741229511 / 281474976710656 * ((8 + 1 : ℕ) : ℚ)) = 100 :=
    (to_double_eq _ 7036874417766400 (-46) (by norm_num) (by norm_num) (by norm_num)
      (by norm_num)).trans (by norm_num)
  have h99 : to_double (100 - 1) = 99 := by
    have := round_to_natCast 53 (by norm_num) 99 (by norm_num)
    norm_num at this ⊢
    exact this
  simp only [interval, split_in_value, h, if_true, h99]

theorem to_double_mono {x y : ℚ} (h : x ≤ y) : to_double x ≤ to_double y :=
  round_to_mono 53 (by norm_num) h

theorem to_float_mono {x y : ℚ} (h : x ≤ y) : to_float x ≤ to_float y :=
  round_to_mono 24 (by norm_num) h

theorem to_double_pos {x : ℚ} (h : 0 < x) : 0 < to_double x :=
  round_to_pos 53 (by norm_num) x h

theorem to_float_pos {x : ℚ} (h : 0 < x) : 0 < to_float x :=
  round_to_pos 24 (by norm_num) x h

theorem to_double_natCast (n : ℕ) (h : n < 2 ^ 53) : to_double (n : ℚ) = (n : ℚ) :=
  round_to_natCast 53 (by norm_num) n h

theorem to_float_natCast (n : ℕ) (h : n < 2 ^ 24) : to_float (n : ℚ) = (n : ℚ) :=
  round_to_natCast 24 (by norm_num) n h

theorem to_double_dyadic (n : ℕ) (k : ℤ) (h : n < 2 ^ 53) :
    to_double ((n : ℚ) * 2 ^ k) = (n : ℚ) * 2 ^ k :=
  round_to_dyadic 53 (by norm_num) n k h

theorem precent_mono_left {a b c : ℚ} (hc : 0 < c) (h : a ≤ b) : precent a c ≤ precent b c := by
  unfold precent
  apply to_double_mono
  apply mul_le_mul_of_nonneg_right _ (by norm_num)
  apply to_double_mono
  exact div_le_div_of_nonneg_right h hc.le

theorem precent_nonneg (a c : ℚ) : 0 ≤ precent a c := round_to_nonneg 53 _

/-- The test `precent(p, half) > 50.0` of `pick_color` succeeds for every `p` at or
above the lower bound `low`, when the sum of the two bounds is at most `2 * H` and
`low` is at least five eighths of `H`. -/
theorem precent_gt_fifty_of (p low high : ℚ) (H : ℕ) (hH : 2 * H < 2 ^ 53) (hlow : 0 < low)
    (hhigh : 0 < high) (hsum : high + low ≤ 2 * (H : ℚ)) (hfrac : 5 / 8 * (H : ℚ) ≤ low)
    (hp : low ≤ p) :
    precent p (to_double (to_double (high + low) / 2)) > 50 := by
  have hs1 : to_double (high + low) ≤ 2 * (H : ℚ) := by
    have := to_double_mono hsum
    have e : to_double (2 * (H : ℚ)) = 2 * (H : ℚ) := by
      have := to_double_natCast (2 * H) hH
      push_cast at this
      exact this
    rw [e] at this
    exact this
  have hs0 : 0 < to_double (high + low) := to_double_pos (by linarith)
  have hh1 : to_double (to_double (high + low) / 2) ≤ (H : ℚ) := by
    have : to_double (high + low) / 2 ≤ (H : ℚ) := by linarith
    have := to_double_mono this
    rw [to_double_natCast H (by omega)] at this
    exact this
  have hh0 : 0 < to_double (to_double (high + low) / 2) := to_double_pos (by linarith)
  have hq : (5 : ℚ) / 8 ≤ p / to_double (to_double (high + low) / 2) := by
    rw [le_div_iff₀ hh0]
    nlinarith
  have e58 : to_double (5 / 8) = 5 / 8 := by
    have := to_double_dyadic 5 (-3) (by norm_num)
    norm_num at this
    exact this
  have hq1 : (5 : ℚ) / 8 ≤ to_double (p / to_double (to_double (high + low) / 2)) := by
    have := to_double_mono hq
    rw [e58] at this
    exact this
  have e125 : to_double (125 / 2) = 125 / 2 := by
    have := to_double_dyadic 125 (-1) (by norm_num)
    norm_num at this
    exact this
  have hq2 : (125 : ℚ) / 2 ≤ precent p (to_double (to_double (high + low) / 2)) := by
    unfold precent
    have : (125 : ℚ) / 2 ≤ to_double (p / to_double (to_double (high + low) / 2)) * 100 := by
      linarith
    have := to_double_mono this
    rw [e125] at this
    exact this
  linarith

theorem interval_pos (i : Nat) (hi : i ≤ 8) : 0 < interval i := by
  interval_cases i
  · rw [interval_zero]; norm_num
  · rw [interval_one]; norm_num
  · rw [interval_two]; norm_num
  · rw [interval_three]; norm_num
  · rw [interval_four]; norm_num
  · rw [interval_five]; norm_num
  · rw [interval_six]; norm_num
  · rw [interval_seven]; norm_num
  · rw [interval_eight]; norm_num

theorem interval_lt_succ (i : Nat) (hi : i < 8) : interval i < interval (i + 1) := by
  interval_cases i
  · rw [interval_zero, interval_one]; norm_num
  · rw [interval_one, interval_two]; norm_num
  · rw [interval_two, interval_three]; norm_num
  · rw [interval_three, interval_four]; norm_num
  · rw [interval_four, interval_five]; norm_num
  · rw [interval_five, interval_six]; norm_num
  · rw [interval_six, interval_seven]; norm_num
  · rw [interval_seven, interval_eight]; norm_num

theorem interval_mono (i j : Nat) (hij : i ≤ j) (hj : j ≤ 8) : interval i ≤ interval j := by
  induction j with
  | zero =>
    have : i = 0 := by omega
    rw [this]
  | succ j ih =>
    rcases Nat.lt_or_ge i (j + 1) with h | h
    · exact le_trans (ih (by omega) (by omega)) (interval_lt_succ j (by omega)).le
    · have : i = j + 1 := by omega
      rw [this]

/-- The test `pr > 50.0` succeeds at every `p` that has reached the loop body. -/
theorem precent_gt_fifty (p : ℚ) (i : Nat) (hi : i < 8) (hlow : interval i ≤ p) :
    precent p (to_double (to_double (interval (i + 1) + interval i) / 2)) > 50 := by
  have h0 := interval_pos i (by omega)
  have h1 := interval_pos (i + 1) (by omega)
  interval_cases i
  · refine precent_gt_fifty_of p _ _ 17 (by norm_num) h0 h1 ?_ ?_ hlow
    · rw [interval_zero, interval_one]; norm_num
    · rw [interval_zero]; norm_num
  · refine precent_gt_fifty_of p _ _ 28 (by norm_num) h0 h1 ?_ ?_ hlow
    · rw [interval_one, interval_two]; norm_num
    · rw [interval_one]; norm_num
  · refine precent_gt_fifty_of p _ _ 39 (by norm_num) h0 h1 ?_ ?_ hlow
    · rw [interval_two, interval_three]; norm_num
    · rw [interval_two]; norm_num
  · refine precent_gt_fifty_of p _ _ 50 (by norm_num) h0 h1 ?_ ?_ hlow
    · rw [interval_three, interval_four]; norm_num
    · rw [interval_three]; norm_num
  · refine precent_gt_fifty_of p _ _ 62 (by norm_num) h0 h1 ?_ ?_ hlow
    · rw [interval_four, interval_five]; norm_num
    · rw [interval_four]; norm_num
  · refine precent_gt_fifty_of p _ _ 73 (by norm_num) h0 h1 ?_ ?_ hlow
    · rw [interval_five, interval_six]; norm_num
    · rw [interval_five]; norm_num
  · refine precent_gt_fifty_of p _ _ 84 (by norm_num) h0 h1 ?_ ?_ hlow
    · rw [interval_six, interval_seven]; norm_num
    · rw [interval_six]; norm_num
  · refine precent_gt_fifty_of p _ _ 94 (by norm_num) h0 h1 ?_ ?_ hlow
    · rw [interval_seven, interval_eight]; norm_num
    · rw [interval_seven]; norm_num

theorem pallet_getD_succ (i : Nat) (hi : i < 8) : pallet.getD (i + 1) 0 = i + 2 := by
  interval_cases i <;> rfl

theorem pick_color_loop_hit (p : ℚ) (i : Nat) (rest : List Nat) (hi : i < 8)
    (hlow : interval i ≤ p) (hhigh : p ≤ interval (i + 1)) :
    pick_color_loop p (i :: rest) = pallet.getD (i + 1) 0 := by
  have hpr := precent_gt_fifty p i hi hlow
  simp only [pick_color_loop, ge_iff_le, hlow, hhigh, and_self, hpr, if_true]

theorem pick_color_loop_skip (p : ℚ) (i : Nat) (rest : List Nat)
    (h : ¬ (interval i ≤ p ∧ p ≤ interval (i + 1))) :
    pick_color_loop p (i :: rest) = pick_color_loop p rest := by
  simp only [pick_color_loop, ge_iff_le, h, if_false]

theorem pick_color_loop_first (p : ℚ) (len s i : Nat) (hs : s ≤ i) (hlen : i < s + len)
    (hi : i < 8) (hlow : interval i ≤ p) (hhigh : p ≤ interval (i + 1))
    (hfirst : ∀ j, s ≤ j → j < i → ¬ (interval j ≤ p ∧ p ≤ interval (j + 1))) :
    pick_color_loop p (List.range' s len) = pallet.getD (i + 1) 0 := by
  induction len generalizing s with
  | zero => omega
  | succ len ih =>
    rw [List.range'_succ]
    by_cases e : s = i
    · subst e
      exact pick_color_loop_hit p s _ hi hlow hhigh
    · rw [pick_color_loop_skip p s _ (hfirst s (le_refl s) (by omega))]
      exact ih (s + 1) (by omega) (by omega) (fun j h1 h2 => hfirst j (by omega) h2)

/-- The loop of `pick_color`, entered above the bound `interval[s]`, returns `s + 2`
plus the number of the later bounds that `p` exceeds. -/
theorem pick_color_loop_count (p : ℚ) (len s : Nat) (hs : s + len = 8) (hlen : 1 ≤ len)
    (hlow : interval s < p) (hhi : p < interval 8) :
    pick_color_loop p (List.range' s len) =
      s + 2 + (List.range' (s + 1) (len - 1)).countP (fun k => decide (interval k < p)) := by
  induction len generalizing s with
  | zero => omega
  | succ len ih =>
    rw [List.range'_succ]
    by_cases h : p ≤ interval (s + 1)
    · rw [pick_color_loop_hit p s _ (by omega) hlow.le h, pallet_getD_succ s (by omega)]
      have : (List.range' (s + 1) (len + 1 - 1)).countP (fun k => decide (interval k < p)) = 0 := by
        rw [List.countP_eq_zero]
        intro k hk
        rw [List.mem_range'_1] at hk
        have := interval_mono (s + 1) k hk.1 (by omega)
        simp only [decide_eq_true_eq, not_lt]
        linarith
      rw [this]
    · have hlt : interval (s + 1) < p := not_le.1 h
      have hlen1 : 1 ≤ len := by
        rcases Nat.eq_zero_or_pos len with h0 | h0
        · subst h0
          have e : s + 1 = 8 := by omega
          rw [e] at hlt
          exact absurd hlt (not_lt.2 hhi.le)
        · exact h0
      rw [pick_color_loop_skip p s _ (fun hc => h hc.2), ih (s + 1) (by omega) hlen1 hlt]
      have e : len + 1 - 1 = (len - 1) + 1 := by omega
      rw [e, List.range'_succ, List.countP_cons_of_pos _ _ (by simpa using hlt)]
      omega

/-- The palette index is one more than the number of the bounds `interval[0..7]`
that the computed percentage exceeds. -/
theorem pick_color_count (max v : Nat) (hm : 0 < max) (h1 : ¬ (max = 1 ∧ v = 1)) :
    pick_color max v =
      1 + (List.range 8).countP
        (fun k => decide (interval k < precent (to_float (v : ℚ)) (to_float (max : ℚ)))) := by
  unfold pick_color
  rw [if_neg h1, if_neg (by omega)]
  simp only [ge_iff_le]
  set p := precent (to_float (v : ℚ)) (to_float (max : ℚ)) with hp
  by_cases c0 : p ≤ interval 0
  · rw [if_pos c0]
    have : (List.range 8).countP (fun k => decide (interval k < p)) = 0 := by
      rw [List.countP_eq_zero]
      intro k hk
      rw [List.mem_range] at hk
      have := interval_mono 0 k (Nat.zero_le k) (by omega)
      simp only [decide_eq_true_eq, not_lt]
      linarith
    rw [this]
  rw [if_neg c0]
  by_cases c8 : interval 8 ≤ p
  · rw [if_pos c8]
    have : (List.range 8).countP (fun k => decide (interval k < p)) = (List.range 8).length := by
      rw [List.countP_eq_length]
      intro k hk
      rw [List.mem_range] at hk
      have := interval_lt_succ k hk
      have := interval_mono (k + 1) 8 (by omega) (le_refl 8)
      simp only [decide_eq_true_eq]
      linarith
    rw [this, List.length_range]
  rw [if_neg c8, List.range_eq_range', pick_color_loop_count p 8 0 (by norm_num) (by norm_num)
    (not_le.1 c0) (not_le.1 c8)]
  have e : List.range' 0 8 = 0 :: List.range' (0 + 1) (8 - 1) := rfl
  rw [e, List.countP_cons_of_pos _ _ (by simpa using not_le.1 c0)]
  omega

/-- The percentages that the code computes for `max = 9`, at `v = 1, ..., 8`. -/
theorem precent_one_of_nine :
    precent (to_float ((1 : ℕ) : ℚ)) (to_float ((9 : ℕ) : ℚ)) =
      3127499741229511 / 281474976710656 := by
  have a : to_float ((1 : ℕ) : ℚ) = 1 :=
    (to_float_natCast 1 (by norm_num)).trans (by norm_num)
  have b : to_float ((9 : ℕ) : ℚ) = 9 :=
    (to_float_natCast 9 (by norm_num)).trans (by norm_num)
  have q : to_double ((1 : ℚ) / 9) =
      2001599834386887 / 18014398509481984 :=
    (to_double_eq _ 8006399337547548 (-56) (by norm_num) (by norm_num) (by norm_num)
      (by norm_num)).trans (by norm_num)
  have p : to_double ((2001599834386887 / 18014398509481984 : ℚ) * 100) =
      3127499741229511 / 281474976710656 :=
    (to_double_eq _ 6254999482459022 (-49) (by norm_num) (by norm_num) (by norm_num)
      (by norm_num)).trans (by norm_num)
  unfold precent
  rw [a, b, q, p]

theorem precent_two_of_nine :
    precent (to_float ((2 : ℕ) : ℚ)) (to_float ((9 : ℕ) : ℚ)) =
      3127499741229511 / 140737488355328 := by
  have a : to_float ((2 : ℕ) : ℚ) = 2 :=
    (to_float_natCast 2 (by norm_num)).trans (by norm_num)
  have b : to_float ((9 : ℕ) : ℚ) = 9 :=
    (to_float_natCast 9 (by norm_num)).trans (by norm_num)
  have q : to_double ((2 : ℚ) / 9) =
      2001599834386887 / 9007199254740992 :=
    (to_double_eq _ 8006399337547548 (-55) (by norm_num) (by norm_num) (by norm_num)
      (by norm_num)).trans (by norm_num)
  have p : to_double ((2001599834386887 / 9007199254740992 : ℚ) * 100) =
      3127499741229511 / 140737488355328 :=
    (to_double_eq _ 6254999482459022 (-48) (by norm_num) (by norm_num) (by norm_num)
      (by norm_num)).trans (by norm_num)
  unfold precent
  rw [a, b, q, p]

theorem precent_three_of_nine :
    precent (to_float ((3 : ℕ) : ℚ)) (to_float ((9 : ℕ) : ℚ)) =
      2345624805922133 / 70368744177664 := by
  have a : to_float ((3 : ℕ) : ℚ) = 3 :=
    (to_float_natCast 3 (by norm_num)).trans (by norm_num)
  have b : to_float ((9 : ℕ) : ℚ) = 9 :=
    (to_float_natCast 9 (by norm_num)).trans (by norm_num)
  have q : to_double ((3 : ℚ) / 9) =
      6004799503160661 / 18014398509481984 :=
    (to_double_eq _ 6004799503160661 (-54) (by norm_num) (by norm_num) (by norm_num)
      (by norm_num)).trans (by norm_num)
  have p : to_double ((6004799503160661 / 18014398509481984 : ℚ) * 100) =
      2345624805922133 / 70368744177664 :=
    (to_double_eq _ 4691249611844266 (-47) (by norm_num) (by norm_num) (by norm_num)
      (by norm_num)).trans (by norm_num)
  unfold precent
  rw [a, b, q, p]

theorem precent_four_of_nine :
    precent (to_float ((4 : ℕ) : ℚ)) (to_float ((9 : ℕ) : ℚ)) =
      3127499741229511 / 70368744177664 := by
  have a : to_float ((4 : ℕ) : ℚ) = 4 :=
    (to_float_natCast 4 (by norm_num)).trans (by norm_num)
  have b : to_float ((9 : ℕ) : ℚ) = 9 :=
    (to_float_natCast 9 (by norm_num)).trans (by norm_num)
  have q : to_double ((4 : ℚ) / 9) =
      2001599834386887 / 4503599627370496 :=
    (to_double_eq _ 8006399337547548 (-54) (by norm_num) (by norm_num) (by norm_num)
      (by norm_num)).trans (by norm_num)
  have p : to_double ((2001599834386887 / 4503599627370496 : ℚ) * 100) =
      3127499741229511 / 70368744177664 :=
    (to_double_eq _ 6254999482459022 (-47) (by norm_num) (by norm_num) (by norm_num)
      (by norm_num)).trans (by norm_num)
  unfold precent
  rw [a, b, q, p]

theorem precent_five_of_nine :
    precent (to_float ((5 : ℕ) : ℚ)) (to_float ((9 : ℕ) : ℚ)) =
      3909374676536889 / 70368744177664 := by
  have a : to_float ((5 : ℕ) : ℚ) = 5 :=
    (to_float_natCast 5 (by norm_num)).trans (by norm_num)
  have b : to_float ((9 : ℕ) : ℚ) = 9 :=
    (to_float_natCast 9 (by norm_num)).trans (by norm_num)
  have q : to_double ((5 : ℚ) / 9) =
      2501999792983609 / 4503599627370496 :=
    (to_double_eq _ 5003999585967218 (-53) (by norm_num) (by norm_num) (by norm_num)
      (by norm_num)).trans (by norm_num)
  have p : to_double ((2501999792983609 / 4503599627370496 : ℚ) * 100) =
      3909374676536889 / 70368744177664 :=
    (to_double_eq _ 7818749353073778 (-47) (by norm_num) (by norm_num) (by norm_num)
      (by norm_num)).trans (by norm_num)
  unfold precent
  rw [a, b, q, p]

theorem precent_six_of_nine :
    precent (to_float ((6 : ℕ) : ℚ)) (to_float ((9 : ℕ) : ℚ)) =
      2345624805922133 / 35184372088832 := by
  have a : to_float ((6 : ℕ) : ℚ) = 6 :=
    (to_float_natCast 6 (by norm_num)).trans (by norm_num)
  have b : to_float ((9 : ℕ) : ℚ) = 9 :=
    (to_float_natCast 9 (by norm_num)).trans (by norm_num)
  have q : to_double ((6 : ℚ) / 9) =
      6004799503160661 / 9007199254740992 :=
    (to_double_eq _ 6004799503160661 (-53) (by norm_num) (by norm_num) (by norm_num)
      (by norm_num)).trans (by norm_num)
  have p : to_double ((6004799503160661 / 9007199254740992 : ℚ) * 100) =
      2345624805922133 / 35184372088832 :=
    (to_double_eq _ 4691249611844266 (-46) (by norm_num) (by norm_num) (by norm_num)
      (by norm_num)).trans (by norm_num)
  unfold precent
  rw [a, b, q, p]

theorem precent_seven_of_nine :
    precent (to_float ((7 : ℕ) : ℚ)) (to_float ((9 : ℕ) : ℚ)) =
      5473124547151645 / 70368744177664 := by
  have a : to_float ((7 : ℕ) : ℚ) = 7 :=
    (to_float_natCast 7 (by norm_num)).trans (by norm_num)
  have b : to_float ((9 : ℕ) : ℚ) = 9 :=
    (to_float_natCast 9 (by norm_num)).trans (by norm_num)
  have q : to_double ((7 : ℚ) / 9) =
      7005599420354105 / 9007199254740992 :=
    (to_double_eq _ 7005599420354105 (-53) (by norm_num) (by norm_num) (by norm_num)
      (by norm_num)).trans (by norm_num)
  have p : to_double ((7005599420354105 / 9007199254740992 : ℚ) * 100) =
      5473124547151645 / 70368744177664 :=
    (to_double_eq _ 5473124547151645 (-46) (by norm_num) (by norm_num) (by norm_num)
      (by norm_num)).trans (by norm_num)
  unfold precent
  rw [a, b, q, p]

theorem precent_eight_of_nine :
    precent (to_float ((8 : ℕ) : ℚ)) (to_float ((9 : ℕ) : ℚ)) =
      3127499741229511 / 35184372088832 := by
  have a : to_float ((8 : ℕ) : ℚ) = 8 :=
    (to_float_natCast 8 (by norm_num)).trans (by norm_num)
  have b : to_float ((9 : ℕ) : ℚ) = 9 :=
    (to_float_natCast 9 (by norm_num)).trans (by norm_num)
  have q : to_double ((8 : ℚ) / 9) =
      2001599834386887 / 2251799813685248 :=
    (to_double_eq _ 8006399337547548 (-53) (by norm_num) (by norm_num) (by norm_num)
      (by norm_num)).trans (by norm_num)
  have p : to_double ((2001599834386887 / 2251799813685248 : ℚ) * 100) =
      3127499741229511 / 35184372088832 :=
    (to_double_eq _ 6254999482459022 (-46) (by norm_num) (by norm_num) (by norm_num)
      (by norm_num)).trans (by norm_num)
  unfold precent
  rw [a, b, q, p]

theorem precent_twelve_of_hundred :
    precent (to_float ((12 : ℕ) : ℚ)) (to_float ((100 : ℕ) : ℚ)) =
      12 := by
  have a : to_float ((12 : ℕ) : ℚ) = 12 :=
    (to_float_natCast 12 (by norm_num)).trans (by norm_num)
  have b : to_float ((100 : ℕ) : ℚ) = 100 :=
    (to_float_natCast 100 (by norm_num)).trans (by norm_num)
  have q : to_double ((12 : ℚ) / 100) =
      1080863910568919 / 9007199254740992 :=
    (to_double_eq _ 8646911284551352 (-56) (by norm_num) (by norm_num) (by norm_num)
      (by norm_num)).trans (by norm_num)
  have p : to_double ((1080863910568919 / 9007199254740992 : ℚ) * 100) =
      12 :=
    (to_double_eq _ 6755399441055744 (-49) (by norm_num) (by norm_num) (by norm_num)
      (by norm_num)).trans (by norm_num)
  unfold precent
  rw [a, b, q, p]

theorem precent_five_of_hundred :
    precent (to_float ((5 : ℕ) : ℚ)) (to_float ((100 : ℕ) : ℚ)) =
      5 := by
  have a : to_float ((5 : ℕ) : ℚ) = 5 :=
    (to_float_natCast 5 (by norm_num)).trans (by norm_num)
  have b : to_float ((100 : ℕ) : ℚ) = 100 :=
    (to_float_natCast 100 (by norm_num)).trans (by norm_num)
  have q : to_double ((5 : ℚ) / 100) =
      3602879701896397 / 72057594037927936 :=
    (to_double_eq _ 7205759403792794 (-57) (by norm_num) (by norm_num) (by norm_num)
      (by norm_num)).trans (by norm_num)
  have p : to_double ((3602879701896397 / 72057594037927936 : ℚ) * 100) =
      5 :=
    (to_double_eq _ 5629499534213120 (-50) (by norm_num) (by norm_num) (by norm_num)
      (by norm_num)).trans (by norm_num)
  unfold precent
  rw [a, b, q, p]

theorem countP_downward (P : Nat → Bool) (n : Nat)
    (hP : ∀ k, k + 1 ≤ n → P (k + 1) = true → P k = true) (hn : P n = true) (k : Nat)
    (hk : k ≤ n) : P k = true := by
  induction n with
  | zero =>
    have : k = 0 := by omega
    rw [this]; exact hn
  | succ n ih =>
    rcases Nat.lt_or_ge k (n + 1) with h | h
    · exact ih (fun j hj => hP j (by omega)) (hP n (le_refl _) hn) (by omega)
    · have : k = n + 1 := by omega
      rw [this]; exact hn

/-- For a predicate that holds at `k` whenever it holds at `k + 1`, at least `k + 1`
of the numbers below `n` satisfy it exactly when `k` does. -/
theorem countP_range_threshold (P : Nat → Bool) (n : Nat)
    (hP : ∀ k, k + 1 < n → P (k + 1) = true → P k = true) (k : Nat) (hk : k < n) :
    k + 1 ≤ (List.range n).countP P ↔ P k = true := by
  induction n generalizing k with
  | zero => omega
  | succ n ih =>
    have hle : (List.range n).countP P ≤ n := by
      have : (List.range n).countP P ≤ (List.range n).length := List.countP_le_length P
      rwa [List.length_range] at this
    have ih1 := fun j hj => ih (fun i hi => hP i (by omega)) j hj
    rw [List.range_succ, List.countP_append, List.countP_singleton]
    by_cases hPn : P n = true
    · have hall := countP_downward P n (fun j hj => hP j (by omega)) hPn
      have hfull : n ≤ (List.range n).countP P := by
        rcases Nat.eq_zero_or_pos n with h0 | h0
        · omega
        · have := (ih1 (n - 1) (by omega)).2 (hall (n - 1) (by omega))
          omega
      simp only [hPn, if_true]
      constructor
      · intro _
        exact hall k (by omega)
      · intro _
        omega
    · simp only [hPn, if_false, Bool.false_eq_true, add_zero]
      rcases Nat.lt_or_ge k n with h | h
      · exact ih1 k h
      · have e : k = n := by omega
        subst e
        constructor
        · intro hc
          omega
        · intro hc
          exact absurd hc hPn

theorem pick_color_bounds (max v : Nat) : 1 ≤ pick_color max v ∧ pick_color max v ≤ 9 := by
  by_cases h1 : max = 1 ∧ v = 1
  · simp [pick_color, h1]
  · by_cases h0 : max = 0
    · subst h0
      unfold pick_color
      rw [if_neg h1, if_pos rfl]
      split <;> omega
    · rw [pick_color_count max v (by omega) h1]
      have : (List.range 8).countP
          (fun k => decide (interval k < precent (to_float (v : ℚ)) (to_float (max : ℚ)))) ≤
          (List.range 8).length := List.countP_le_length _
      rw [List.length_range] at this
      omega

/-- The palette index reaches `k + 2` exactly when the computed percentage exceeds
the bound `interval[k]`. -/
theorem pick_color_thresholds (max v : Nat) (hm : 0 < max) (h1 : ¬ (max = 1 ∧ v = 1)) (k : Nat)
    (hk : k < 8) :
    k + 2 ≤ pick_color max v ↔ interval k < precent (to_float (v : ℚ)) (to_float (max : ℚ)) := by
  rw [pick_color_count max v hm h1]
  have h := countP_range_threshold
    (fun k => decide (interval k < precent (to_float (v : ℚ)) (to_float (max : ℚ)))) 8
    (fun j hj hp => by
      simp only [decide_eq_true_eq] at hp ⊢
      exact lt_trans (interval_lt_succ j (by omega)) hp) k hk
  simp only [decide_eq_true_eq] at h
  rw [← h]
  omega

theorem pick_color_le_nine (max v : Nat) : pick_color max v ≤ 9 := (pick_color_bounds max v).2

theorem to_float_natCast_pos (n : Nat) (h : 0 < n) : 0 < to_float (n : ℚ) :=
  to_float_pos (by exact_mod_cast h)

theorem precent_mono_value (max v w : Nat) (hm : 0 < max) (hvw : v ≤ w) :
    precent (to_float (v : ℚ)) (to_float (max : ℚ)) ≤
      precent (to_float (w : ℚ)) (to_float (max : ℚ)) :=
  precent_mono_left (to_float_natCast_pos max hm) (to_float_mono (by exact_mod_cast hvw))

theorem pick_color_mono (max v w : Nat) (hmax : 2 ≤ max) (hvw : v ≤ w) :
    pick_color max v ≤ pick_color max w := by
  rw [pick_color_count max v (by omega) (by omega), pick_color_count max w (by omega) (by omega)]
  apply Nat.add_le_add_left
  apply List.countP_mono_left
  intro k _ hk
  simp only [decide_eq_true_eq] at hk ⊢
  exact lt_of_lt_of_le hk (precent_mono_value max v w (by omega) hvw)

/-- The palette index is `k + 1` when the computed percentage lies above the bound
`interval[k - 1]`, if there is one, and at or below `interval[k]`, if `k` is not 8. -/
theorem pick_color_eq_of (max v k : Nat) (hm : 0 < max) (h1 : ¬ (max = 1 ∧ v = 1)) (hk : k ≤ 8)
    (hlow : k = 0 ∨ interval (k - 1) < precent (to_float (v : ℚ)) (to_float (max : ℚ)))
    (hhigh : k = 8 ∨ precent (to_float (v : ℚ)) (to_float (max : ℚ)) ≤ interval k) :
    pick_color max v = k + 1 := by
  have hb := pick_color_bounds max v
  have l : k + 1 ≤ pick_color max v := by
    rcases hlow with h | h
    · omega
    · have := (pick_color_thresholds max v hm h1 (k - 1) (by omega)).2 h
      rcases Nat.eq_zero_or_pos k with h0 | h0
      · omega
      · omega
  have u : pick_color max v ≤ k + 1 := by
    rcases hhigh with h | h
    · omega
    · by_contra hc
      have := (pick_color_thresholds max v hm h1 k (by omega)).1 (by omega)
      exact absurd this (not_lt.2 h)
  omega

theorem precent_self (a : ℚ) (ha : 0 < a) : precent a a = 100 := by
  unfold precent
  rw [div_self ha.ne']
  have e1 : to_double 1 = 1 := by
    have := to_double_natCast 1 (by norm_num)
    simpa using this
  have e100 : to_double 100 = 100 := by
    have := to_double_natCast 100 (by norm_num)
    simpa using this
  rw [e1, one_mul, e100]

theorem pick_color_self (m : Nat) (hm : 2 ≤ m) : pick_color m m = 9 := by
  apply pick_color_eq_of m m 8 (by omega) (by omega) (le_refl 8) _ (Or.inl rfl)
  right
  rw [precent_self _ (to_float_natCast_pos m (by omega)), interval_seven]
  norm_num

theorem pick_color_nine_one : pick_color 9 1 = 1 :=
  pick_color_eq_of 9 1 0 (by norm_num) (by omega) (by norm_num) (Or.inl rfl)
    (Or.inr (by rw [precent_one_of_nine, interval_zero]))

theorem pick_color_nine_two : pick_color 9 2 = 2 :=
  pick_color_eq_of 9 2 1 (by norm_num) (by omega) (by norm_num)
    (Or.inr (by rw [precent_two_of_nine]; show interval 0 < _; rw [interval_zero]; norm_num))
    (Or.inr (by rw [precent_two_of_nine, interval_one]))

theorem pick_color_nine_three : pick_color 9 3 = 3 :=
  pick_color_eq_of 9 3 2 (by norm_num) (by omega) (by norm_num)
    (Or.inr (by rw [precent_three_of_nine]; show interval 1 < _; rw [interval_one]; norm_num))
    (Or.inr (by rw [precent_three_of_nine, interval_two]))

theorem pick_color_nine_four : pick_color 9 4 = 4 :=
  pick_color_eq_of 9 4 3 (by norm_num) (by omega) (by norm_num)
    (Or.inr (by rw [precent_four_of_nine]; show interval 2 < _; rw [interval_two]; norm_num))
    (Or.inr (by rw [precent_four_of_nine, interval_three]))

theorem pick_color_nine_five : pick_color 9 5 = 5 :=
  pick_color_eq_of 9 5 4 (by norm_num) (by omega) (by norm_num)
    (Or.inr (by rw [precent_five_of_nine]; show interval 3 < _; rw [interval_three]; norm_num))
    (Or.inr (by rw [precent_five_of_nine, interval_four]))

theorem pick_color_nine_six : pick_color 9 6 = 6 :=
  pick_color_eq_of 9 6 5 (by norm_num) (by omega) (by norm_num)
    (Or.inr (by rw [precent_six_of_nine]; show interval 4 < _; rw [interval_four]; norm_num))
    (Or.inr (by rw [precent_six_of_nine, interval_five]))

/-- At `max = 9`, `v = 7` the quotient `7/9` rounds up, the product by 100 is the
double above `interval[6]`, and the index is 8. -/
theorem pick_color_nine_seven : pick_color 9 7 = 8 :=
  pick_color_eq_of 9 7 7 (by norm_num) (by omega) (by norm_num)
    (Or.inr (by rw [precent_seven_of_nine]; show interval 6 < _; rw [interval_six]; norm_num))
    (Or.inr (by rw [precent_seven_of_nine, interval_seven]; norm_num))

theorem pick_color_nine_eight : pick_color 9 8 = 8 :=
  pick_color_eq_of 9 8 7 (by norm_num) (by omega) (by norm_num)
    (Or.inr (by rw [precent_eight_of_nine]; show interval 6 < _; rw [interval_six]; norm_num))
    (Or.inr (by rw [precent_eight_of_nine, interval_seven]))

/-- C20: for every `max >= 1`, `pick_color(max, v)` is non-decreasing in `v` over
`1 <= v <= max`, and this in the `float` and `double` arithmetic that the code itself
performs, each operation rounded to nearest; for `max = 9` the indices of
`v = 1, ..., 9` are `1, 2, 3, 4, 5, 6, 8, 8, 9`, non-decreasing from
`pick_color(9, 1) = 1` to `pick_color(9, 9) = 9`. -/
theorem C20_pick_color_monotone (max v w : Nat) (hmax : 1 ≤ max) (hv : 1 ≤ v) (hvw : v ≤ w)
    (hw : w ≤ max) :
    pick_color max v ≤ pick_color max w ∧
    (List.range 9).map (fun k => pick_color 9 (k + 1)) = [1, 2, 3, 4, 5, 6, 8, 8, 9] ∧
    pick_color 9 1 = 1 ∧ pick_color 9 9 = 9 := by
  refine ⟨?_, ?_, pick_color_nine_one, pick_color_self 9 (by norm_num)⟩
  · by_cases h1 : max = 1
    · have e1 : v = 1 := by omega
      have e2 : w = 1 := by omega
      rw [e1, e2]
    · exact pick_color_mono max v w (by omega) hvw
  · have hr : List.range 9 = [0, 1, 2, 3, 4, 5, 6, 7, 8] := rfl
    rw [hr]
    simp only [List.map_cons, List.map_nil, Nat.reduceAdd, zero_add]
    rw [pick_color_nine_one, pick_color_nine_two, pick_color_nine_three, pick_color_nine_four,
      pick_color_nine_five, pick_color_nine_six, pick_color_nine_seven, pick_color_nine_eight,
      pick_color_self 9 (by norm_num)]

/-- C20, instantiated at `max = 9` between `v = 1` and `v = 9`. -/
theorem C20_pick_color_monotone_witness :
    1 ≤ 9 ∧ 1 ≤ 1 ∧ 1 ≤ 9 ∧ 9 ≤ 9 ∧ pick_color 9 1 ≤ pick_color 9 9 :=
  ⟨by decide, by decide, by decide, by decide,
    (C20_pick_color_monotone 9 1 9 (by decide) (by decide) (by decide) (by decide)).1⟩

/-! ### The document -/

theorem same_rendered_definition (a b : Node) (h : same_rendered_fields a b) (max : Nat) :
    ({ a with max_occurrences := max } : Node).graphviz_definition =
        ({ b with max_occurrences := max } : Node).graphviz_definition ∧
    ({ a with max_occurrences := max } : Node).graphviz_relation =
        ({ b with max_occurrences := max } : Node).graphviz_relation := by
  obtain ⟨h1, h2, _, h4, h5, h6⟩ := h
  simp only [Node.graphviz_definition, Node.graphviz_relation, Node.name, Node.graphviz_label,
    Node.graphviz_color, Node.no_branching, Node.start_address, h1, h2, h4, h5, h6]
  exact ⟨trivial, trivial⟩

theorem same_rendered_no_null (l1 l2 : List (Nat × Option Node))
    (h : same_rendered_nodes l1 l2) :
    (∀ item ∈ l1, item.2 ≠ none) ∧ (∀ item ∈ l2, item.2 ≠ none) ∧
    max_visits l1 = max_visits l2 ∧ l1.map Prod.fst = l2.map Prod.fst := by
  induction l1 generalizing l2 with
  | nil =>
    cases l2 with
    | nil => simp
    | cons b r2 => simp [same_rendered_nodes] at h
  | cons a r1 ih =>
    obtain ⟨k1, v1⟩ := a
    cases l2 with
    | nil => cases v1 <;> simp [same_rendered_nodes] at h
    | cons b r2 =>
      obtain ⟨k2, v2⟩ := b
      cases v1 with
      | none => simp [same_rendered_nodes] at h
      | some n1 =>
        cases v2 with
        | none => simp [same_rendered_nodes] at h
        | some n2 =>
          simp only [same_rendered_nodes] at h
          obtain ⟨hk, hf, hr⟩ := h
          obtain ⟨i1, i2, i3, i4⟩ := ih r2 hr
          refine ⟨?_, ?_, ?_, ?_⟩
          · intro item hi
            rcases List.mem_cons.1 hi with e | e
            · rw [e]; simp
            · exact i1 item e
          · intro item hi
            rcases List.mem_cons.1 hi with e | e
            · rw [e]; simp
            · exact i2 item e
          · simp only [max_visits, i3, hf.2.2.2.2.2]
          · simp [hk, i4]

theorem same_rendered_strings (l1 l2 : List (Nat × Option Node))
    (h : same_rendered_nodes l1 l2) (max : Nat) :
    (nodes_in_order (l1.map (fun item =>
        (item.1, item.2.map (fun node => { node with max_occurrences := max }))))).map
      Node.graphviz_definition =
    (nodes_in_order (l2.map (fun item =>
        (item.1, item.2.map (fun node => { node with max_occurrences := max }))))).map
      Node.graphviz_definition ∧
    (nodes_in_order (l1.map (fun item =>
        (item.1, item.2.map (fun node => { node with max_occurrences := max }))))).map
      Node.graphviz_relation =
    (nodes_in_order (l2.map (fun item =>
        (item.1, item.2.map (fun node => { node with max_occurrences := max }))))).map
      Node.graphviz_relation := by
  induction l1 generalizing l2 with
  | nil =>
    cases l2 with
    | nil => simp
    | cons b r2 => simp [same_rendered_nodes] at h
  | cons a r1 ih =>
    obtain ⟨k1, v1⟩ := a
    cases l2 with
    | nil => cases v1 <;> simp [same_rendered_nodes] at h
    | cons b r2 =>
      obtain ⟨k2, v2⟩ := b
      cases v1 with
      | none => simp [same_rendered_nodes] at h
      | some n1 =>
        cases v2 with
        | none => simp [same_rendered_nodes] at h
        | some n2 =>
          simp only [same_rendered_nodes] at h
          obtain ⟨_, hf, hr⟩ := h
          obtain ⟨i1, i2⟩ := ih r2 hr
          obtain ⟨d1, d2⟩ := same_rendered_definition n1 n2 hf max
          simp only [List.map_cons, Option.map_some', nodes_in_order, i1, i2, d1, d2]
          exact ⟨trivial, trivial⟩

theorem append_definitions_eq (l : List (Nat × Option Node)) (acc : String)
    (hnn : ∀ item ∈ l, item.2 ≠ none) :
    append_definitions acc l =
      some (acc ++ concat_strings ((nodes_in_order l).map Node.graphviz_definition)) := by
  induction l generalizing acc with
  | nil => simp [append_definitions, nodes_in_order, concat_strings]
  | cons item rest ih =>
    obtain ⟨k, v⟩ := item
    cases v with
    | none => exact absurd rfl (hnn (k, none) (by simp))
    | some node =>
      simp only [append_definitions, nodes_in_order, List.map_cons, concat_strings]
      rw [ih _ (fun item h => hnn item (by simp [h])), String.append_assoc]

theorem append_relations_eq (l : List (Nat × Option Node)) (acc : String)
    (hnn : ∀ item ∈ l, item.2 ≠ none) :
    append_relations acc l =
      some (acc ++ concat_strings ((nodes_in_order l).map Node.graphviz_relation)) := by
  induction l generalizing acc with
  | nil => simp [append_relations, nodes_in_order, concat_strings]
  | cons item rest ih =>
    obtain ⟨k, v⟩ := item
    cases v with
    | none => exact absurd rfl (hnn (k, none) (by simp))
    | some node =>
      simp only [append_relations, nodes_in_order, List.map_cons, concat_strings]
      rw [ih _ (fun item h => hnn item (by simp [h])), String.append_assoc]

theorem set_nodes_max_occurrences_eq (g : control_flow_graph)
    (hnn : ∀ item ∈ g.nodes, item.2 ≠ none) :
    g.set_nodes_max_occurrences =
      some { g with nodes := g.nodes.map (fun item =>
        (item.1, item.2.map (fun node =>
          { node with max_occurrences := max_visits g.nodes }))) } := by
  unfold control_flow_graph.set_nodes_max_occurrences
  rw [max_of_occurrences_eq g.nodes 0 hnn]
  simp only [Nat.zero_max]
  rw [assign_max_occurrences_eq g.nodes _ hnn]

theorem graphviz_eq (g : control_flow_graph) (hnn : ∀ item ∈ g.nodes, item.2 ≠ none) :
    g.graphviz =
      some ( digraph_prefix ++
          concat_strings ((nodes_in_order (g.nodes.map (fun item =>
            (item.1, item.2.map (fun node =>
              { node with max_occurrences := max_visits g.nodes }))))).map
            Node.graphviz_definition) ++
          concat_strings ((nodes_in_order (g.nodes.map (fun item =>
            (item.1, item.2.map (fun node =>
              { node with max_occurrences := max_visits g.nodes }))))).map
            Node.graphviz_relation) ++ "\n\x7d",
        { g with nodes := g.nodes.map (fun item =>
          (item.1, item.2.map (fun node =>
            { node with max_occurrences := max_visits g.nodes }))) }) := by
  have hnn1 : ∀ item ∈ g.nodes.map (fun item =>
      (item.1, item.2.map (fun node =>
        ({ node with max_occurrences := max_visits g.nodes } : Node)))), item.2 ≠ none := by
    intro item hi
    obtain ⟨a, ha, rfl⟩ := List.mem_map.1 hi
    have := hnn a ha
    cases h : a.2 with
    | none => exact absurd h this
    | some n => simp [h]
  unfold control_flow_graph.graphviz
  rw [set_nodes_max_occurrences_eq g hnn]
  simp only
  rw [append_definitions_eq _ _ hnn1]
  simp only
  rw [append_relations_eq _ _ hnn1]
  simp only [String.empty_append]

/-- C17: two graphs with the same keys whose nodes agree on the entry, the body, the
closed flag, the two successors and the visit count, whatever their stored
`max_occurrences` and iteration, get byte-identical documents from `graphviz()`. The
document is the prefix, then the definition of every node, then the relations of
every node, both in the order of the map, which is that of the keys, then the
closing brace. -/
theorem C17_graphviz_deterministic (g1 g2 : control_flow_graph)
    (h : same_rendered_nodes g1.nodes g2.nodes) :
    ∃ doc r1 r2, g1.graphviz = some (doc, r1) ∧ g2.graphviz = some (doc, r2) ∧
      r1.nodes.map Prod.fst = g1.nodes.map Prod.fst ∧
      r2.nodes.map Prod.fst = g2.nodes.map Prod.fst ∧
      doc = digraph_prefix ++
        concat_strings ((nodes_in_order r1.nodes).map Node.graphviz_definition) ++
        concat_strings ((nodes_in_order r1.nodes).map Node.graphviz_relation) ++ "\n\x7d" := by
  obtain ⟨n1, n2, hmax, _⟩ := same_rendered_no_null g1.nodes g2.nodes h
  obtain ⟨s1, s2⟩ := same_rendered_strings g1.nodes g2.nodes h (max_visits g1.nodes)
  refine ⟨_, _, { g2 with nodes := g2.nodes.map (fun item =>
      (item.1, item.2.map (fun node =>
        { node with max_occurrences := max_visits g2.nodes }))) },
    graphviz_eq g1 n1, ?_, ?_, ?_, rfl⟩
  · rw [graphviz_eq g2 n2, ← hmax, ← s1, ← s2]
  · simp [List.map_map, Function.comp_def]
  · simp [List.map_map, Function.comp_def]

/-- C17, instantiated on the loop scenario built at iteration 1 and the same nodes
restored with another iteration index and another stored maximum. -/
theorem C17_graphviz_deterministic_witness :
    same_rendered_nodes (loop_graph_visited 3).nodes
      [(0x3000, some { loop_node 3 with _iteration := 7, max_occurrences := 40 }),
       (0x3006, some (Node.create 0x3006 2))] ∧
    ∃ doc r1 r2, (loop_graph_visited 3).graphviz = some (doc, r1) ∧
      control_flow_graph.graphviz
        { nodes := [(0x3000, some { loop_node 3 with _iteration := 7, max_occurrences := 40 }),
                    (0x3006, some (Node.create 0x3006 2))] } = some (doc, r2) ∧
      r1.nodes.map Prod.fst = (loop_graph_visited 3).nodes.map Prod.fst ∧
      r2.nodes.map Prod.fst = [0x3000, 0x3006] ∧
      doc = digraph_prefix ++
        concat_strings ((nodes_in_order r1.nodes).map Node.graphviz_definition) ++
        concat_strings ((nodes_in_order r1.nodes).map Node.graphviz_relation) ++ "\n\x7d" :=
  ⟨by simp [same_rendered_nodes, same_rendered_fields, loop_graph_visited, loop_node, Node.create],
    C17_graphviz_deterministic (loop_graph_visited 3)
      { nodes := [(0x3000, some { loop_node 3 with _iteration := 7, max_occurrences := 40 }),
                  (0x3006, some (Node.create 0x3006 2))] }
      (by simp [same_rendered_nodes, same_rendered_fields, loop_graph_visited, loop_node,
        Node.create])⟩

/-! ### The first entry, and buffers that end early -/

theorem Reachable_first_node {g : control_flow_graph} (h : Reachable g) :
    g.start_address_first_node = 0 := by
  induction h with
  | empty => rfl
  | instruction g g1 i it _ hstep ih =>
    obtain ⟨_, _, _, _, _, _, _, hf⟩ := append_instruction_ok hstep
    rw [hf, ih]
  | branch g g1 i it _ hstep ih =>
    obtain ⟨_, _, _, _, _, _, _, hf⟩ := append_branch_instruction_ok hstep
    rw [hf, ih]

/-- C15 (the code departs from the claim): on every graph built from the empty graph
by accepted builder calls, the first copy `load_to_memory` makes is that of the
member `start_address_first_node`, which no builder call writes and which is
therefore still zero: the first 8 bytes of the image are zero, whatever the address
of the first instruction appended was. -/
theorem C15_first_entry_written_is_zero (g : control_flow_graph) (hr : Reachable g)
    (codec : instruction_codec) (m : Memory) (mem : Nat) (ws : List Write)
    (hlen : ∀ i, (codec.load_to_memory i).length ≤ codec.mem_size i)
    (hws : g.load_to_memory codec mem = some ws) :
    ws.head? = some { dst := mem, bytes := le_bytes 8 0 } ∧
    (m.store_all ws).read mem 8 = [0, 0, 0, 0, 0, 0, 0, 0] := by
  have hz := Reachable_first_node hr
  obtain ⟨hi, hord⟩ := graph_load_to_memory_ordered codec g mem ws
    (fun _ _ _ _ i _ => hlen i) hws
  have hh := holds_store_all m ws hord
  have hhead : ws.head? = some { dst := mem, bytes := le_bytes 8 0 } := by
    unfold control_flow_graph.load_to_memory at hws
    split at hws
    · exact absurd hws (by simp)
    · injection hws with hws
      rw [← hws, hz]
      rfl
  refine ⟨hhead, ?_⟩
  have hmem : ({ dst := mem, bytes := le_bytes 8 0 } : Write) ∈ ws := List.mem_of_mem_head? hhead
  have := hh _ hmem
  simpa [le_bytes_length] using this

/-- C15, instantiated on the loop scenario: the first instruction appended is the
`cmp` at `0x3000`, and the first 8 bytes of the image are zero, not `0x3000`. -/
theorem C15_first_entry_written_is_zero_witness :
    Reachable loop_graph ∧
    control_flow_graph.empty.feed_all 1 [loop_cmp, loop_jne] = (outcome.ok, loop_graph) ∧
    loop_cmp.pointer_address = 0x3000 ∧
    (∃ ws, loop_graph.load_to_memory wire_codec 0 = some ws ∧
      ws.head? = some { dst := 0, bytes := le_bytes 8 0 } ∧
      (Memory.store_all (fun _ => 0) ws).read 0 8 = [0, 0, 0, 0, 0, 0, 0, 0]) ∧
    le_bytes 8 0x3000 ≠ [0, 0, 0, 0, 0, 0, 0, 0] :=
  ⟨Reachable_loop_graph, by decide, by decide,
    ⟨(loop_graph.load_to_memory wire_codec 0).getD [], by decide,
      C15_first_entry_written_is_zero loop_graph Reachable_loop_graph wire_codec (fun _ => 0) 0
        ((loop_graph.load_to_memory wire_codec 0).getD [])
        (fun i => le_of_eq (wire_codec_size i)) (by decide)⟩,
    by decide⟩

theorem Node.load_from_memory_some (codec : instruction_codec) (m : Memory) (mem : Nat)
    (h : le_value (m.read (mem + 16) 8) < 2 ^ 32) :
    ∃ node, Node.load_from_memory codec {} m mem = some node ∧
      node.mem_size codec = record_size codec m mem := by
  unfold Node.load_from_memory
  simp only [h, if_true]
  exact ⟨_, rfl, by simp [Node.mem_size, record_size]⟩

theorem load_nodes_some (codec : instruction_codec) (m : Memory) (count mem : Nat)
    (g : control_flow_graph) (h : body_counts_fit codec m count mem = true) :
    load_nodes codec m count mem g =
      some { g with nodes := store_records g.nodes (decoded_records codec m count mem) } := by
  induction count generalizing mem g with
  | zero => rfl
  | succ count ih =>
    simp only [body_counts_fit, Bool.and_eq_true, decide_eq_true_eq] at h
    obtain ⟨h1, h2⟩ := h
    obtain ⟨node, hn, hsize⟩ := Node.load_from_memory_some codec m (mem + 8) h1
    simp only [load_nodes, hn, hsize, decoded_records, store_records, List.foldl_cons]
    rw [ih (mem + 8 + record_size codec m (mem + 8))
      { g with nodes := map_assign g.nodes (le_value (m.read mem 8)) (some node) } h2]
    simp only [store_records]

/-- C14 (what holds instead): `control_flow_graph::load_from_memory` is given no
buffer length and has no error to report. Whatever the bytes are, when the node
count it reads and every body count it meets are below `2^32` it returns the graph
it was called on with `start_address_first_node` overwritten by the first 8 bytes
and with each of the records read, at the offsets the layout gives, assigned under
its key (inserted or replaced), whatever lies at those offsets. -/
theorem C14_load_from_memory_reports_nothing (codec : instruction_codec)
    (g : control_flow_graph) (m : Memory) (mem : Nat)
    (hcount : le_value (m.read (mem + 8) 8) < 2 ^ 32)
    (hfit : body_counts_fit codec m (le_value (m.read (mem + 8) 8)) (mem + 16) = true) :
    control_flow_graph.load_from_memory codec g m mem =
      some { g with
        start_address_first_node := le_value (m.read mem 8),
        nodes := store_records g.nodes
          (decoded_records codec m (le_value (m.read (mem + 8) 8)) (mem + 16)) } := by
  unfold control_flow_graph.load_from_memory
  simp only [hcount, if_true]
  rw [load_nodes_some codec m _ (mem + 16)
    { g with start_address_first_node := le_value (m.read mem 8) } hfit]

/-- C14, instantiated on the 16-byte buffer that announces one node and on the graph
of the loop scenario. -/
theorem C14_load_from_memory_reports_nothing_witness :
    le_value (truncated_buffer.read (0 + 8) 8) < 2 ^ 32 ∧
    body_counts_fit wire_codec truncated_buffer (le_value (truncated_buffer.read (0 + 8) 8))
      (0 + 16) = true ∧
    control_flow_graph.load_from_memory wire_codec loop_graph truncated_buffer 0 =
      some { loop_graph with
        start_address_first_node := le_value (truncated_buffer.read 0 8),
        nodes := store_records loop_graph.nodes
          (decoded_records wire_codec truncated_buffer
            (le_value (truncated_buffer.read (0 + 8) 8)) (0 + 16)) } :=
  ⟨by decide, by decide,
    C14_load_from_memory_reports_nothing wire_codec loop_graph truncated_buffer 0
      (by decide) (by decide)⟩

/-- C14 (the claim fails): a buffer whose 16 bytes announce one node and which ends
there is not reported as corrupt. `load_from_memory` reads the node from the bytes
that follow the buffer, zeros here, and returns; the graph of the loop scenario it
was called on has its first entry replaced by `0x1234` and has gained a node under
the key 0. -/
theorem C14_counterexample :
    truncated_buffer.read 0 16 = le_bytes 8 0x1234 ++ le_bytes 8 1 ∧
    control_flow_graph.load_from_memory wire_codec loop_graph truncated_buffer 0 =
      some loop_graph_overwritten ∧
    loop_graph_overwritten ≠ loop_graph ∧
    loop_graph_overwritten.start_address_first_node = 0x1234 ∧
    map_find loop_graph_overwritten.nodes 0 = some (some zero_node) ∧
    map_find loop_graph.nodes 0 = none :=
  ⟨by decide, by decide, by decide, by decide, by decide, by decide⟩

/-! ### The call-then-return scenario -/

theorem outcome_ok_eq {r : outcome × control_flow_graph} (h : r.1 = outcome.ok) :
    r = (outcome.ok, r.2) := by
  obtain ⟨o, g⟩ := r
  simp only at h
  rw [h]

/-- C11: on an empty graph, a call at `a` of length `l` to `t` (with `a`, `t` and
`a + l` pairwise distinct and `t` non-zero), then a non-branch at `t`, then a return,
all three valid records, leave a graph with exactly the three keys `a`, `t` and
`a + l`: the node at `a` is closed, holds the call and has the successors `t` and
`a + l`; the node at `t` is closed, holds the two instructions and has both
successors zero; the node at `a + l` has an empty body, is not closed and has been
visited once. The address of the return plays no part, nor does `a` being non-zero:
the cursor is at `t` when the return arrives. -/
theorem C11_call_then_return (c x r : instruction) (iteration : Nat)
    (hck : c.kind = Kind.call) (hcv : c.validate = true)
    (hxk : x.kind = Kind.none) (hxv : x.validate = true) (hxa : x.address = c.target)
    (hrk : r.kind = Kind.ret) (hrv : r.validate = true)
    (ht : c.target ≠ 0) (hat : c.address ≠ c.target)
    (htl : c.target ≠ c.address + c.length) (hal : c.address ≠ c.address + c.length) :
    ∃ g, control_flow_graph.empty.feed_all iteration [c, x, r] = (outcome.ok, g) ∧
      (∀ k, g.node_exists k = true ↔ (k = c.address ∨ k = c.target ∨ k = c.address + c.length)) ∧
      map_find g.nodes c.address =
        some (some { _start_address := c.address, _iteration := iteration, block := [c],
                     is_done := true, max_occurrences := 1, true_branch_address := c.target,
                     false_branch_address := c.address + c.length, occurrences := 1 }) ∧
      map_find g.nodes c.target =
        some (some { _start_address := c.target, _iteration := iteration, block := [x, r],
                     is_done := true, max_occurrences := 1, true_branch_address := 0,
                     false_branch_address := 0, occurrences := 1 }) ∧
      map_find g.nodes (c.address + c.length) =
        some (some { _start_address := c.address + c.length, _iteration := iteration,
                     block := [], is_done := false, max_occurrences := 1,
                     true_branch_address := 0, false_branch_address := 0, occurrences := 1 }) := by
  have hcb : c.is_branch = true := by simp [instruction.is_branch, hck]
  have hxb : x.is_branch = false := by simp [instruction.is_branch, hxk]
  have hrb : r.is_branch = true := by simp [instruction.is_branch, hrk]
  -- the call
  have p1 := append_branch_instruction_progress control_flow_graph.empty c iteration hcv hcb
    (by simp [control_flow_graph.empty, map_find])
  have h1 := outcome_ok_eq p1
  generalize (control_flow_graph.empty.append_branch_instruction c iteration).2 = g1 at h1
  obtain ⟨_, _, node1, hnode1, hfind1, hcp1, _, _⟩ := append_branch_instruction_ok h1
  have hcur1 : (control_flow_graph.empty.set_and_get_current_address c.pointer_address).1 =
      c.address := by
    simp [set_and_get_current_address, control_flow_graph.empty, instruction.pointer_address]
  rw [hcur1] at hnode1 hfind1
  have hn1 : node1 = Node.create c.address iteration := by
    simp only [control_flow_graph.empty, map_find, slot_after_ensure] at hnode1
    injection hnode1 with hnode1
    exact hnode1.symm
  have hA : node1.append_branch_instruction c iteration =
      { _start_address := c.address, _iteration := iteration, block := [c],
        is_done := true, max_occurrences := 1, true_branch_address := c.target,
        false_branch_address := c.address + c.length, occurrences := 1 } := by
    rw [hn1]
    simp [Node.append_branch_instruction, Node.append_instruction, Node.create, Node.done,
      Node.mark_done, Node.contains_address, instruction.is_ret, hck,
      instruction.true_branch_address, instruction.false_branch_address]
  rw [hA] at hfind1
  simp only [control_flow_graph.empty, map_find, slot_after_ensure] at hfind1
  -- the instruction at the target
  have hcur2 : (g1.set_and_get_current_address x.pointer_address).1 = c.target := by
    rw [(set_and_get_current_address_spec g1 x.pointer_address).1, hcp1]
    simp [instruction.pointer_address, hxa]
  have hf1t : map_find g1.nodes c.target = some (some (Node.create c.target iteration)) := by
    rw [hfind1]
    simp [hat, ht]
  have p2 := append_instruction_progress g1 x iteration hxv hxb (by rw [hcur2, hf1t]; simp)
  have h2 := outcome_ok_eq p2
  generalize (g1.append_instruction x iteration).2 = g2 at h2
  obtain ⟨_, _, node2, hnode2, hfind2, hcp2, _, _⟩ := append_instruction_ok h2
  rw [hcur2] at hnode2 hfind2 hcp2
  have hn2 : node2 = Node.create c.target iteration := by
    rw [hf1t] at hnode2
    simp only [slot_after_ensure] at hnode2
    injection hnode2 with hnode2
    exact hnode2.symm
  have hT1 : node2.append_instruction x iteration =
      { _start_address := c.target, _iteration := iteration, block := [x] } := by
    rw [hn2]
    simp [Node.append_instruction, Node.create, Node.done]
  rw [hT1] at hfind2
  -- the return
  have hcur3 : (g2.set_and_get_current_address r.pointer_address).1 = c.target := by
    rw [(set_and_get_current_address_spec g2 r.pointer_address).1, hcp2]
    simp [ht]
  have hf2t : map_find g2.nodes c.target =
      some (some { _start_address := c.target, _iteration := iteration, block := [x] }) := by
    rw [hfind2]
    simp
  have p3 := append_branch_instruction_progress g2 r iteration hrv hrb
    (by rw [hcur3, hf2t]; simp)
  have h3 := outcome_ok_eq p3
  generalize (g2.append_branch_instruction r iteration).2 = g3 at h3
  obtain ⟨_, _, node3, hnode3, hfind3, _, _, _⟩ := append_branch_instruction_ok h3
  rw [hcur3] at hnode3 hfind3
  have hn3 : node3 = { _start_address := c.target, _iteration := iteration, block := [x] } := by
    rw [hf2t] at hnode3
    simp only [slot_after_ensure] at hnode3
    injection hnode3 with hnode3
    exact hnode3.symm
  have hT : node3.append_branch_instruction r iteration =
      { _start_address := c.target, _iteration := iteration, block := [x, r],
        is_done := true, max_occurrences := 1, true_branch_address := 0,
        false_branch_address := 0, occurrences := 1 } := by
    rw [hn3]
    simp [Node.append_branch_instruction, Node.append_instruction, Node.done,
      Node.mark_done, instruction.is_ret, hrk]
  rw [hT] at hfind3
  simp only [ne_eq, not_true_eq_false, false_and, or_self, if_false] at hfind3
  -- the graph
  have hfind : ∀ j, map_find g3.nodes j =
      if c.target = j then
        some (some { _start_address := c.target, _iteration := iteration, block := [x, r],
                     is_done := true, max_occurrences := 1, true_branch_address := 0,
                     false_branch_address := 0, occurrences := 1 })
      else if c.address = j then
        some (some { _start_address := c.address, _iteration := iteration, block := [c],
                     is_done := true, max_occurrences := 1, true_branch_address := c.target,
                     false_branch_address := c.address + c.length, occurrences := 1 })
      else if c.address + c.length = j then some (some (Node.create j iteration))
      else none := by
    intro j
    rw [hfind3, hfind2, hfind1]
    by_cases e1 : c.target = j
    · simp [e1]
    · by_cases e2 : c.address = j
      · simp [e1, e2]
      · by_cases e3 : c.address + c.length = j
        · have : j ≠ 0 := by omega
          simp [e1, e2, e3, this]
        · simp [e1, e2, e3]
  refine ⟨g3, ?_, ?_, ?_, ?_, ?_⟩
  · simp only [feed_all, feed, hcb, hxb, hrb, if_true, Bool.false_eq_true, if_false, h1, h2, h3]
  · intro k
    unfold node_exists
    rw [hfind k]
    by_cases e1 : c.target = k
    · subst e1
      rw [if_pos rfl]
      simp
    · by_cases e2 : c.address = k
      · subst e2
        rw [if_neg e1, if_pos rfl]
        simp
      · by_cases e3 : c.address + c.length = k
        · subst e3
          rw [if_neg e1, if_neg e2, if_pos rfl]
          simp
        · have e1a : ¬ k = c.target := fun h => e1 h.symm
          have e2a : ¬ k = c.address := fun h => e2 h.symm
          have e3a : ¬ k = c.address + c.length := fun h => e3 h.symm
          simp [e1, e2, e3, e1a, e2a, e3a]
  · rw [hfind]
    simp [hat, Ne.symm hat]
  · rw [hfind]
    simp
  · have hl : c.length ≠ 0 := by omega
    rw [hfind]
    simp [htl, hl, Node.create]

/-- C11, instantiated on the call at `0x1000` (length 5, target `0x2000`), the `xor`
at `0x2000` (length 2) and the `ret` at `0x2002`. -/
theorem C11_call_then_return_witness :
    scenario_call.kind = Kind.call ∧ scenario_call.validate = true ∧
    scenario_xor.kind = Kind.none ∧ scenario_xor.validate = true ∧
    scenario_xor.address = scenario_call.target ∧
    scenario_ret.kind = Kind.ret ∧ scenario_ret.validate = true ∧
    scenario_ret.address = scenario_xor.address + scenario_xor.length ∧
    ∃ g, control_flow_graph.empty.feed_all 1 [scenario_call, scenario_xor, scenario_ret] =
        (outcome.ok, g) ∧
      (∀ k, g.node_exists k = true ↔
        (k = scenario_call.address ∨ k = scenario_call.target ∨
          k = scenario_call.address + scenario_call.length)) ∧
      map_find g.nodes scenario_call.address =
        some (some { _start_address := scenario_call.address, _iteration := 1,
                     block := [scenario_call], is_done := true, max_occurrences := 1,
                     true_branch_address := scenario_call.target,
                     false_branch_address := scenario_call.address + scenario_call.length,
                     occurrences := 1 }) ∧
      map_find g.nodes scenario_call.target =
        some (some { _start_address := scenario_call.target, _iteration := 1,
                     block := [scenario_xor, scenario_ret], is_done := true,
                     max_occurrences := 1, true_branch_address := 0,
                     false_branch_address := 0, occurrences := 1 }) ∧
      map_find g.nodes (scenario_call.address + scenario_call.length) =
        some (some { _start_address := scenario_call.address + scenario_call.length,
                     _iteration := 1, block := [], is_done := false, max_occurrences := 1,
                     true_branch_address := 0, false_branch_address := 0, occurrences := 1 }) :=
  ⟨by decide, by decide, by decide, by decide, by decide, by decide, by decide, by decide,
    C11_call_then_return scenario_call scenario_xor scenario_ret 1 (by decide) (by decide)
      (by decide) (by decide) (by decide) (by decide) (by decide) (by decide) (by decide)
      (by decide) (by decide)⟩

/-! ### Open nodes, re-entry and the closed node -/

/-- C28: in every graph built from the empty graph by accepted builder calls, a node
that is not closed has no branch instruction anywhere in its body. -/
theorem C28_open_node_has_no_branch (g : control_flow_graph) (hr : Reachable g) (k : Nat)
    (n : Node) (hn : map_find g.nodes k = some (some n)) (hopen : n.done = false) :
    ∀ x ∈ n.block, x.is_branch = false :=
  ((Reachable_inv hr).opened k n hn hopen).2.2

/-- C28, instantiated on the straight-line scenario, whose node at `0x1000` is open
and holds three instructions. -/
theorem C28_open_node_has_no_branch_witness :
    Reachable (control_flow_graph.empty.feed_all 1 straight_line).2 ∧
    map_find (control_flow_graph.empty.feed_all 1 straight_line).2.nodes 0x1000 =
      some (some straight_node) ∧
    straight_node.done = false ∧ straight_node.block.length = 3 ∧
    ∀ x ∈ straight_node.block, x.is_branch = false :=
  ⟨Reachable_feed_all 1 straight_line Reachable.empty (by decide), by decide, by decide,
    by decide,
    C28_open_node_has_no_branch (control_flow_graph.empty.feed_all 1 straight_line).2
      (Reachable_feed_all 1 straight_line Reachable.empty (by decide)) 0x1000 straight_node
      (by decide) (by decide)⟩

/-- C29 (as amended): on a closed node with a non-empty body, for an instruction
whose address is already in the body and the iteration index of the node,
`Node::append_instruction` leaves the body, the successors, the closed flag, the
entry, the iteration and `max_occurrences` unchanged; the visit count becomes
`(visits + 1) mod 2^32` if the address is that of the first instruction of the body,
which is `visits + 1` whenever that still fits the 32-bit counter, and is unchanged
otherwise. -/
theorem C29_reentry_same_iteration (n : Node) (i first : instruction) (iteration : Nat)
    (hdone : n.done = true) (hhead : n.block.head? = some first)
    (hin : n.contains_address i.pointer_address = true) (hit : n._iteration = iteration) :
    n.append_instruction i iteration =
      (if first.pointer_address = i.pointer_address
        then { n with occurrences := (n.occurrences + 1) % 2 ^ 32 } else n) ∧
    (first.pointer_address = i.pointer_address → n.occurrences + 1 < 2 ^ 32 →
      (n.append_instruction i iteration).occurrences = n.occurrences + 1) := by
  have h : n.append_instruction i iteration =
      (if first.pointer_address = i.pointer_address
        then { n with occurrences := (n.occurrences + 1) % 2 ^ 32 } else n) := by
    by_cases hf : first.pointer_address = i.pointer_address
    · rw [if_pos hf]
      exact Node.append_instruction_reentry n i first iteration hdone hit hhead hf
    · rw [if_neg hf]
      exact Node.append_instruction_inside n i first iteration hdone hhead hin hf
  refine ⟨h, ?_⟩
  intro hf hlt
  rw [h, if_pos hf]
  exact Nat.mod_eq_of_lt hlt

/-- C29, instantiated on the closed block of the loop scenario, seen three times,
and its first instruction. -/
theorem C29_reentry_same_iteration_witness :
    (loop_node 3).done = true ∧ (loop_node 3).block.head? = some loop_cmp ∧
    (loop_node 3).contains_address loop_cmp.pointer_address = true ∧
    (loop_node 3)._iteration = 1 ∧
    (loop_node 3).append_instruction loop_cmp 1 =
      (if loop_cmp.pointer_address = loop_cmp.pointer_address
        then { loop_node 3 with occurrences := ((loop_node 3).occurrences + 1) % 2 ^ 32 }
        else loop_node 3) :=
  ⟨by decide, by decide, by decide, by decide,
    (C29_reentry_same_iteration (loop_node 3) loop_cmp loop_cmp 1 (by decide) (by decide)
      (by decide) (by decide)).1⟩

/-- C29 as stated fails on the loop block with a visit count of `2^32 - 1`: the
re-entry at its head wraps the 32-bit counter, and the visit count is 0 afterwards,
not `2^32`. -/
theorem C29_counterexample :
    (loop_node 4294967295).done = true ∧ (loop_node 4294967295).block ≠ [] ∧
    (loop_node 4294967295).contains_address loop_cmp.pointer_address = true ∧
    (loop_node 4294967295)._iteration = 1 ∧
    (loop_node 4294967295).block.head? = some loop_cmp ∧
    ((loop_node 4294967295).append_instruction loop_cmp 1).occurrences = 0 ∧
    ((loop_node 4294967295).append_instruction loop_cmp 1).occurrences ≠
      (loop_node 4294967295).occurrences + 1 :=
  ⟨by decide, by decide, by decide, by decide, by decide, by decide, by decide⟩

/-- C30 (the code departs from the claim): on a closed node, an instruction whose
address is not yet in the body is pushed onto the body, whatever the iteration
index, and the node stays closed: `Node::append_instruction` returns early only when
the node is closed and already contains the address. -/
theorem C30_closed_node_body_grows (n : Node) (i : instruction) (iteration : Nat)
    (hdone : n.done = true) (hnew : n.contains_address i.pointer_address = false) :
    (n.append_instruction i iteration).block = n.block ++ [i] ∧
    (n.append_instruction i iteration).block ≠ n.block ∧
    (n.append_instruction i iteration).done = true := by
  have hb : (n.append_instruction i iteration).block = n.block ++ [i] := by
    rw [Node.append_instruction_block]
    simp [hnew]
  refine ⟨hb, ?_, ?_⟩
  · rw [hb]
    intro h
    have := congrArg List.length h
    simp at this
  · have := (Node.append_instruction_frame n i iteration).2.2.1
    simpa [Node.done] using this.trans hdone

/-- C30, instantiated on the closed block of the loop scenario and the non-branch
`add` at `0x3005`, an address the block does not hold. -/
theorem C30_closed_node_body_grows_witness :
    (loop_node 1).done = true ∧ patched_add.is_branch = false ∧
    (loop_node 1).contains_address patched_add.pointer_address = false ∧
    ((loop_node 1).append_instruction patched_add 1).block =
      (loop_node 1).block ++ [patched_add] ∧
    ((loop_node 1).append_instruction patched_add 1).block ≠ (loop_node 1).block ∧
    ((loop_node 1).append_instruction patched_add 1).done = true :=
  ⟨by decide, by decide, by decide,
    C30_closed_node_body_grows (loop_node 1) patched_add 1 (by decide) (by decide)⟩

/-! ### The result of the diagram command -/

theorem space_append_ne_empty (s : String) : " " ++ s ≠ "" := by
  intro h
  have h1 := congrArg (fun t => t.data.length) h
  simp [String.data_append] at h1

theorem append_ne_empty (a b : String) (h : b ≠ "") : a ++ b ≠ "" := by
  intro hc
  apply h
  have h1 := congrArg String.data hc
  simp only [String.data_append] at h1
  have h2 : b.data = [] := (List.append_eq_nil.1 h1).2
  exact String.ext h2

/-- C26 (the code departs from the claim): `control_flow_graph::generate` throws
exactly when the exit text is non-empty. The message is built from `process_exit`
alone, the stderr text only deciding whether the exit text is put in twice, so a
non-empty stderr text with an empty exit text raises nothing. -/
theorem C26_generate_ignores_stderr (content out process_stderr process_exit : String) :
    (process_exit = "" →
      (control_flow_graph.generate content out process_stderr process_exit).2 = Except.ok ()) ∧
    (process_exit ≠ "" →
      (control_flow_graph.generate content out process_stderr process_exit).2 =
        Except.error ((if process_stderr ≠ "" then process_exit else "") ++
          (" " ++ process_exit))) ∧
    (control_flow_graph.generate "digraph" "" "Error: syntax error in line 1" "").2 =
      Except.ok () := by
  have hempty : ∀ c o s : String, (control_flow_graph.generate c o s "").2 = Except.ok () := by
    intro c o s
    simp [control_flow_graph.generate]
  refine ⟨?_, ?_, hempty _ _ _⟩
  · intro h
    subst h
    exact hempty _ _ _
  · intro h
    have hne : (if process_stderr ≠ "" then "" ++ process_exit else "") ++ (" " ++ process_exit)
        ≠ "" := append_ne_empty _ _ (space_append_ne_empty _)
    simp only [control_flow_graph.generate, h, ne_eq, not_false_eq_true, if_true, hne]
    simp

/-! ### The ends of the palette and the middle intervals -/

/-- C22 (the code departs from the claim): when the percentage `p` that the code
computes lies strictly between the first bound `interval[0]` and the last bound
`interval[8] = 99`, and `i` is the first index whose pair of consecutive bounds
`interval[i] <= p <= interval[i + 1]` holds `p`, `pick_color` returns
`pallet[i + 1]`, on whichever side of `half` the value `p` lies. The test the code
makes is `precent(p, half) > 50`, that is `p > half / 2` up to rounding, which every
`p` of the interval passes. -/
theorem C22_upper_entry_always_chosen (max v i : Nat)
    (hlo : interval 0 < precent (to_float (v : ℚ)) (to_float (max : ℚ)))
    (hhi : precent (to_float (v : ℚ)) (to_float (max : ℚ)) < interval 8)
    (hi : i < 8)
    (hlow : interval i ≤ precent (to_float (v : ℚ)) (to_float (max : ℚ)))
    (hhigh : precent (to_float (v : ℚ)) (to_float (max : ℚ)) ≤ interval (i + 1))
    (hfirst : ∀ j, j < i →
      ¬ (interval j ≤ precent (to_float (v : ℚ)) (to_float (max : ℚ)) ∧
        precent (to_float (v : ℚ)) (to_float (max : ℚ)) ≤ interval (j + 1))) :
    pick_color max v = pallet.getD (i + 1) 0 := by
  have h0 : (0 : ℚ) < interval 0 := interval_pos 0 (by norm_num)
  have hmax : max ≠ 0 := by
    intro h
    subst h
    have e : to_float ((0 : ℕ) : ℚ) = 0 := by simp [to_float, round_to]
    have : precent (to_float (v : ℚ)) (to_float ((0 : ℕ) : ℚ)) = 0 := by
      rw [e]
      simp [precent, to_double, round_to]
    rw [this] at hlo
    linarith
  have h11 : ¬ (max = 1 ∧ v = 1) := by
    rintro ⟨e1, e2⟩
    subst e1 e2
    rw [precent_self _ (to_float_natCast_pos 1 (by norm_num)), interval_eight] at hhi
    norm_num at hhi
  unfold pick_color
  rw [if_neg h11, if_neg hmax]
  simp only [ge_iff_le, not_le.2 hlo, not_le.2 hhi, if_false]
  rw [List.range_eq_range']
  exact pick_color_loop_first _ 8 0 i (Nat.zero_le i) (by omega) hi hlow hhigh
    (fun j _ h2 => hfirst j h2)

theorem half_lower (low high : ℚ) (H : ℕ) (hH : H < 2 ^ 53) (h : (H : ℚ) ≤ high + low) :
    (H : ℚ) / 2 ≤ to_double (to_double (high + low) / 2) := by
  have h1 := to_double_mono h
  rw [to_double_natCast H hH] at h1
  have h2 : (H : ℚ) / 2 ≤ to_double (high + low) / 2 := by linarith
  have h3 := to_double_mono h2
  have e : to_double ((H : ℚ) / 2) = (H : ℚ) / 2 := by
    have := to_double_dyadic H (-1) hH
    have e2 : (H : ℚ) * 2 ^ (-1 : ℤ) = (H : ℚ) / 2 := by
      rw [zpow_neg_one, div_eq_mul_inv]
    rw [e2] at this
    exact this
  rw [e] at h3
  exact h3

/-- C22, instantiated at `max = 100`, `v = 12`: the computed `p` is 12, which lies in
the first pair of bounds, `interval[0]` and `interval[1]`, below the `half` the code
computes for them, and the index returned is `pallet[1] = 2`, not `pallet[0] = 1`. -/
theorem C22_upper_entry_always_chosen_witness :
    interval 0 < precent (to_float ((12 : Nat) : ℚ)) (to_float ((100 : Nat) : ℚ)) ∧
    precent (to_float ((12 : Nat) : ℚ)) (to_float ((100 : Nat) : ℚ)) < interval 8 ∧
    interval 0 ≤ precent (to_float ((12 : Nat) : ℚ)) (to_float ((100 : Nat) : ℚ)) ∧
    precent (to_float ((12 : Nat) : ℚ)) (to_float ((100 : Nat) : ℚ)) ≤ interval (0 + 1) ∧
    precent (to_float ((12 : Nat) : ℚ)) (to_float ((100 : Nat) : ℚ)) ≤
      to_double (to_double (interval (0 + 1) + interval 0) / 2) ∧
    pallet.getD 0 0 = 1 ∧ pallet.getD (0 + 1) 0 = 2 ∧
    pick_color 100 12 = pallet.getD (0 + 1) 0 :=
  have hlo : interval 0 < precent (to_float ((12 : Nat) : ℚ)) (to_float ((100 : Nat) : ℚ)) := by
    rw [precent_twelve_of_hundred, interval_zero]; norm_num
  have hhi : precent (to_float ((12 : Nat) : ℚ)) (to_float ((100 : Nat) : ℚ)) < interval 8 := by
    rw [precent_twelve_of_hundred, interval_eight]; norm_num
  have hhigh : precent (to_float ((12 : Nat) : ℚ)) (to_float ((100 : Nat) : ℚ)) ≤
      interval (0 + 1) := by
    rw [precent_twelve_of_hundred]; show _ ≤ interval 1; rw [interval_one]; norm_num
  have hhalf : precent (to_float ((12 : Nat) : ℚ)) (to_float ((100 : Nat) : ℚ)) ≤
      to_double (to_double (interval (0 + 1) + interval 0) / 2) := by
    have h := half_lower (interval 0) (interval (0 + 1)) 33 (by norm_num) (by
      show _ ≤ interval 1 + interval 0
      rw [interval_one, interval_zero]; norm_num)
    rw [precent_twelve_of_hundred]
    norm_num at h ⊢
    linarith
  ⟨hlo, hhi, hlo.le, hhigh, hhalf, by decide, by decide,
    C22_upper_entry_always_chosen 100 12 0 hlo hhi (by decide) hlo.le hhigh
      (fun j hj => absurd hj (Nat.not_lt_zero j))⟩

/-! ### The colour attribute, the name and the relations -/

theorem Node.graphviz_color_blues9 (n : Node) (h : n.no_branching = false) :
    n.graphviz_color =
      "colorscheme = blues9\n\t\tcolor = " ++
        (toString (pick_color (n.max_occurrences % 2 ^ 32) n.occurrences) ++
          ((if 7 ≤ pick_color (n.max_occurrences % 2 ^ 32) n.occurrences
            then "\n\t\tfontcolor = white" else "") ++ "\n")) := by
  unfold Node.graphviz_color
  simp only [h, Bool.false_eq_true, if_false, ge_iff_le]
  split_ifs <;> simp [String.append_assoc]

theorem blues9_contains_white (c : Nat) (hc : c ≤ 9) :
    contains_text
      ("colorscheme = blues9\n\t\tcolor = " ++
        (toString c ++ ((if 7 ≤ c then "\n\t\tfontcolor = white" else "") ++ "\n")))
      "fontcolor = white" = decide (7 ≤ c) := by
  interval_cases c <;> decide

/-- C23: the colour attribute that `graphviz_color` produces contains
`fontcolor = white` if and only if the node is not terminal (it is not rendered
`plum1`) and the palette index that `pick_color` returns for its `max_occurrences`
and visit count is 7 or more. `pick_color` takes `unsigned int` parameters, so the
index is that of `max_occurrences` modulo `2^32`, which is `max_occurrences` itself
when it fits 32 bits, as every maximum of visit counts does. -/
theorem C23_fontcolor_white (n : Node) :
    (contains_text n.graphviz_color "fontcolor = white" = true ↔
      (¬ (n.true_branch_address = 0 ∧ n.false_branch_address = 0 ∧ n.block ≠ []) ∧
        7 ≤ pick_color (n.max_occurrences % 2 ^ 32) n.occurrences)) ∧
    (n.max_occurrences < 2 ^ 32 →
      (contains_text n.graphviz_color "fontcolor = white" = true ↔
        (¬ (n.true_branch_address = 0 ∧ n.false_branch_address = 0 ∧ n.block ≠ []) ∧
          7 ≤ pick_color n.max_occurrences n.occurrences))) := by
  have h : contains_text n.graphviz_color "fontcolor = white" = true ↔
      (¬ (n.true_branch_address = 0 ∧ n.false_branch_address = 0 ∧ n.block ≠ []) ∧
        7 ≤ pick_color (n.max_occurrences % 2 ^ 32) n.occurrences) := by
    by_cases ht : n.true_branch_address = 0 ∧ n.false_branch_address = 0 ∧ n.block ≠ []
    · have hb := (Node.no_branching_iff n).2 ht
      have hc : n.graphviz_color = "color = \"plum1\"" := by
        simp [Node.graphviz_color, hb]
      rw [hc]
      constructor
      · intro h1
        exact absurd h1 (by decide)
      · intro h1
        exact absurd ht h1.1
    · have hb : n.no_branching = false := by
        rw [← Node.no_branching_iff] at ht
        simpa using ht
      rw [Node.graphviz_color_blues9 n hb,
        blues9_contains_white _ (pick_color_le_nine _ _)]
      simp [ht]
  refine ⟨h, ?_⟩
  intro hlt
  rw [Nat.mod_eq_of_lt hlt] at h
  exact h

/-- C23, instantiated on the placeholder of the loop scenario once the block of the
loop has nine visits: the placeholder has one visit, index 1, and no white font. -/
theorem C23_fontcolor_white_witness :
    ({ Node.create 0x3006 1 with max_occurrences := 9 } : Node).max_occurrences < 2 ^ 32 ∧
    (contains_text ({ Node.create 0x3006 1 with max_occurrences := 9 } : Node).graphviz_color
        "fontcolor = white" = true ↔
      (¬ (({ Node.create 0x3006 1 with max_occurrences := 9 } : Node).true_branch_address = 0 ∧
          ({ Node.create 0x3006 1 with max_occurrences := 9 } : Node).false_branch_address = 0 ∧
          ({ Node.create 0x3006 1 with max_occurrences := 9 } : Node).block ≠ []) ∧
        7 ≤ pick_color ({ Node.create 0x3006 1 with max_occurrences := 9 } : Node).max_occurrences
          ({ Node.create 0x3006 1 with max_occurrences := 9 } : Node).occurrences)) :=
  ⟨by decide,
    (C23_fontcolor_white { Node.create 0x3006 1 with max_occurrences := 9 }).2 (by decide)⟩

theorem hex_digit_eq (d : Nat) (h : d < 16) : (Nat.digitChar d).toUpper = hex_digit d := by
  interval_cases d <;> decide

theorem hex_digits_zero (k : Nat) : hex_digits k 0 = List.replicate k '0' := by
  induction k with
  | zero => rfl
  | succ k ih =>
    have h0 : hex_digit 0 = '0' := by decide
    simp only [hex_digits, Nat.zero_div, Nat.zero_mod, ih, h0]
    exact (List.replicate_succ' k '0').symm

theorem hex_digits_length (k value : Nat) : (hex_digits k value).length = k := by
  induction k generalizing value with
  | zero => rfl
  | succ k ih => simp [hex_digits, ih]

theorem toDigitsCore_hex (k : Nat) :
    ∀ n fuel ds, n < 16 ^ (k + 1) → n < fuel →
      ∃ L, Nat.toDigitsCore 16 fuel n ds = L ++ ds ∧ L.length ≤ k + 1 ∧
        List.replicate (k + 1 - L.length) '0' ++ L.map Char.toUpper = hex_digits (k + 1) n := by
  induction k with
  | zero =>
    intro n fuel ds hn hf
    obtain ⟨f, rfl⟩ : ∃ f, fuel = f + 1 := ⟨fuel - 1, by omega⟩
    have h0 : n / 16 = 0 := by omega
    refine ⟨[Nat.digitChar (n % 16)], ?_, by simp, ?_⟩
    · simp [Nat.toDigitsCore, h0]
    · simp [hex_digits, hex_digit_eq (n % 16) (Nat.mod_lt _ (by norm_num))]
  | succ k ih =>
    intro n fuel ds hn hf
    obtain ⟨f, rfl⟩ : ∃ f, fuel = f + 1 := ⟨fuel - 1, by omega⟩
    by_cases h0 : n / 16 = 0
    · refine ⟨[Nat.digitChar (n % 16)], ?_, by simp, ?_⟩
      · simp [Nat.toDigitsCore, h0]
      · have e : hex_digits (k + 1 + 1) n = hex_digits (k + 1) (n / 16) ++ [hex_digit (n % 16)] :=
          rfl
        rw [e, h0, hex_digits_zero]
        simp [hex_digit_eq (n % 16) (Nat.mod_lt _ (by norm_num))]
    · have hq : n / 16 < 16 ^ (k + 1) := by
        rw [Nat.div_lt_iff_lt_mul (by norm_num)]
        calc n < 16 ^ (k + 1 + 1) := hn
          _ = 16 ^ (k + 1) * 16 := by rw [pow_succ]
      have hqf : n / 16 < f := by omega
      obtain ⟨L, hL, hlen, hpad⟩ := ih (n / 16) f (Nat.digitChar (n % 16) :: ds) hq hqf
      refine ⟨L ++ [Nat.digitChar (n % 16)], ?_, ?_, ?_⟩
      · simp [Nat.toDigitsCore, h0, hL]
      · simp; omega
      · have e : hex_digits (k + 1 + 1) n = hex_digits (k + 1) (n / 16) ++ [hex_digit (n % 16)] :=
          rfl
        rw [e, ← hpad]
        have e2 : k + 1 + 1 - (L ++ [Nat.digitChar (n % 16)]).length = k + 1 - L.length := by
          simp
        rw [e2]
        simp [hex_digit_eq (n % 16) (Nat.mod_lt _ (by norm_num))]

theorem upper_hex_eq (value : Nat) :
    format.upper_hex value = String.mk (hex_digits 8 (value % 2 ^ 32)) := by
  have hlt : value % 2 ^ 32 < 16 ^ (7 + 1) := by
    have : (16 : Nat) ^ (7 + 1) = 2 ^ 32 := by norm_num
    rw [this]
    exact Nat.mod_lt _ (by norm_num)
  obtain ⟨L, hL, _, hpad⟩ := toDigitsCore_hex 7 (value % 2 ^ 32) (value % 2 ^ 32 + 1) []
    hlt (Nat.lt_succ_self _)
  unfold format.upper_hex Nat.toDigits
  simp only [hL, List.append_nil, List.length_map]
  rw [hpad]

theorem Node.graphviz_relation_eq (n : Node) :
    n.graphviz_relation =
      (if n.true_branch_address ≠ 0 then green_line n._start_address n.true_branch_address
        else "") ++
      (if n.false_branch_address ≠ 0 then red_line n._start_address n.false_branch_address
        else "") := by
  unfold Node.graphviz_relation Node.relation green_line red_line Node.start_address
  simp only [upper_hex_eq]
  split_ifs <;> simp [String.append_assoc]

/-- C24 (as amended): for every node whose entry address is not zero and fits in 32
bits, `Node::name` is exactly `0x` followed by the entry address as 8 zero-padded
upper-case hexadecimal digits, and the source of each edge that `graphviz_relation`
writes is that name between quotes. -/
theorem C24_name_is_hex_entry (n : Node) (hne : n.start_address ≠ 0)
    (h32 : n.start_address < 2 ^ 32) :
    n.name = "0x" ++ String.mk (hex_digits 8 n.start_address) ∧
    (hex_digits 8 n.start_address).length = 8 ∧
    n.graphviz_relation =
      (if n.true_branch_address ≠ 0 then
        "\"" ++ n.name ++ "\" -> \"0x" ++
          String.mk (hex_digits 8 (n.true_branch_address % 2 ^ 32)) ++
          "\" [color=green penwidth=2.0] \n"
        else "") ++
      (if n.false_branch_address ≠ 0 then
        "\"" ++ n.name ++ "\" -> \"0x" ++
          String.mk (hex_digits 8 (n.false_branch_address % 2 ^ 32)) ++
          "\" [color=red penwidth=2.0] \n"
        else "") := by
  have hname : n.name = "0x" ++ String.mk (hex_digits 8 n.start_address) := by
    unfold Node.name
    simp only [ne_eq, hne, not_false_eq_true, if_true]
    rw [upper_hex_eq, Nat.mod_eq_of_lt h32]
  refine ⟨hname, hex_digits_length 8 _, ?_⟩
  rw [Node.graphviz_relation_eq, hname]
  unfold green_line red_line
  have e : n._start_address % 2 ^ 32 = n.start_address := Nat.mod_eq_of_lt h32
  have q : ∀ x : String, "\"0x" ++ x = "\"" ++ ("0x" ++ x) := by
    intro x
    rw [← String.append_assoc]
    rfl
  rw [e]
  split_ifs <;> simp [String.append_assoc, q]

/-- C24, instantiated on the closed block of the loop scenario, whose entry is
`0x3000`. -/
theorem C24_name_is_hex_entry_witness :
    (loop_node 1).start_address ≠ 0 ∧ (loop_node 1).start_address < 2 ^ 32 ∧
    (loop_node 1).name = "0x" ++ String.mk (hex_digits 8 (loop_node 1).start_address) ∧
    String.mk (hex_digits 8 (loop_node 1).start_address) = "00003000" :=
  ⟨by decide, by decide,
    (C24_name_is_hex_entry (loop_node 1) (by decide) (by decide)).1, by decide⟩

/-- C24 as stated fails for the entry address 0, which fits in 32 bits: `Node::name`
returns the empty string for it, while `graphviz_relation` writes `0x00000000` as
the source of the edge. -/
theorem C24_counterexample :
    zero_entry_node.start_address < 2 ^ 32 ∧
    zero_entry_node.name = "" ∧
    zero_entry_node.name ≠ "0x00000000" ∧
    zero_entry_node.graphviz_relation =
      "\"0x00000000\" -> \"0x00000010\" [color=green penwidth=2.0] \n" :=
  ⟨by decide, by decide, by decide, by decide⟩

/-- C25: `graphviz_relation` writes the line of the true edge, in green, exactly when
the true successor is not zero, and the line of the false edge, in red, exactly when
the false successor is not zero, the true edge first; with both successors zero it
returns the empty string. Each line is the quoted `0x` form of the entry, ` -> `,
the quoted `0x` form of the successor and the attributes, and ends in a blank and a
newline. -/
theorem C25_graphviz_relation (n : Node) :
    (n.true_branch_address ≠ 0 → n.false_branch_address ≠ 0 →
      n.graphviz_relation =
        green_line n.start_address n.true_branch_address ++
          red_line n.start_address n.false_branch_address) ∧
    (n.true_branch_address ≠ 0 → n.false_branch_address = 0 →
      n.graphviz_relation = green_line n.start_address n.true_branch_address) ∧
    (n.true_branch_address = 0 → n.false_branch_address ≠ 0 →
      n.graphviz_relation = red_line n.start_address n.false_branch_address) ∧
    (n.true_branch_address = 0 → n.false_branch_address = 0 → n.graphviz_relation = "") := by
  have h := Node.graphviz_relation_eq n
  refine ⟨?_, ?_, ?_, ?_⟩
  · intro ht hf
    rw [h, if_pos ht, if_pos hf]
    rfl
  · intro ht hf
    rw [h, if_pos ht, if_neg (by simp [hf])]
    simp [Node.start_address]
  · intro ht hf
    rw [h, if_neg (by simp [ht]), if_pos hf]
    simp [Node.start_address]
  · intro ht hf
    rw [h, if_neg (by simp [ht]), if_neg (by simp [hf])]
    rfl

/-- C25, instantiated on the closed block of the loop scenario, which has both
successors: the green line to `0x3000` comes first, the red line to `0x3006` second. -/
theorem C25_graphviz_relation_witness :
    (loop_node 1).true_branch_address ≠ 0 ∧ (loop_node 1).false_branch_address ≠ 0 ∧
    (loop_node 1).graphviz_relation =
      green_line (loop_node 1).start_address (loop_node 1).true_branch_address ++
        red_line (loop_node 1).start_address (loop_node 1).false_branch_address ∧
    green_line (loop_node 1).start_address (loop_node 1).true_branch_address =
      "\"0x00003000\" -> \"0x00003000\" [color=green penwidth=2.0] \n" ∧
    red_line (loop_node 1).start_address (loop_node 1).false_branch_address =
      "\"0x00003000\" -> \"0x00003006\" [color=red penwidth=2.0] \n" :=
  ⟨by decide, by decide,
    (C25_graphviz_relation (loop_node 1)).1 (by decide) (by decide), by decide, by decide⟩

/-- C26, instantiated on a non-empty stderr text: with an empty exit text nothing is
raised, with the exit text `1` the message is made of the exit text alone. -/
theorem C26_generate_ignores_stderr_witness :
    (control_flow_graph.generate "digraph" "" "Error: syntax error in line 1" "").2 =
      Except.ok () ∧
    (control_flow_graph.generate "digraph" "" "Error: syntax error in line 1" "1").2 =
      Except.error ((if "Error: syntax error in line 1" ≠ "" then "1" else "") ++ (" " ++ "1")) :=
  ⟨(C26_generate_ignores_stderr "digraph" "" "Error: syntax error in line 1" "").1 rfl,
    (C26_generate_ignores_stderr "digraph" "" "Error: syntax error in line 1" "1").2.1
      (by decide)⟩

/-! ### The range of the visit counter -/

theorem Node.append_instruction_occurrences (n : Node) (i : instruction) (it : Nat) :
    (n.append_instruction i it).occurrences = n.occurrences ∨
    (n.append_instruction i it).occurrences = (n.occurrences + 1) % 2 ^ 32 := by
  unfold Node.append_instruction
  by_cases h1 : (n.done && n.contains_address i.pointer_address) = true
  · rw [if_pos h1]
    by_cases h2 : n._iteration = it
    · rw [if_pos h2]
      unfold Node.already_visited
      cases n.block with
      | nil => exact Or.inl rfl
      | cons x rest =>
        by_cases h3 : x.pointer_address = i.pointer_address
        · simp [h3]
        · simp [h3]
    · rw [if_neg h2]
      exact Or.inl rfl
  · rw [if_neg h1]
    exact Or.inl rfl

theorem Node.append_branch_instruction_occurrences (n : Node) (i : instruction) (it : Nat) :
    (n.append_branch_instruction i it).occurrences = n.occurrences ∨
    (n.append_branch_instruction i it).occurrences = (n.occurrences + 1) % 2 ^ 32 := by
  unfold Node.append_branch_instruction
  by_cases h1 : n.done = true
  · rw [if_pos h1]
    exact Or.inl rfl
  · rw [if_neg h1]
    have h := Node.append_instruction_occurrences n i it
    by_cases h2 : (!i.is_ret) = true
    · simp only [h2, if_true, Node.mark_done]
      exact h
    · simp only [h2, if_false, Node.mark_done]
      exact h

theorem ReachableIn_Reachable {n : Nat} {g : control_flow_graph} (h : ReachableIn n g) :
    Reachable g := by
  induction h with
  | empty => exact Reachable.empty
  | instruction n g g1 i it _ hstep ih => exact Reachable.instruction g g1 i it ih hstep
  | branch n g g1 i it _ hstep ih => exact Reachable.branch g g1 i it ih hstep

theorem Reachable_ReachableIn {g : control_flow_graph} (h : Reachable g) :
    ∃ n, ReachableIn n g := by
  induction h with
  | empty => exact ⟨0, ReachableIn.empty⟩
  | instruction g g1 i it _ hstep ih =>
    obtain ⟨n, hn⟩ := ih
    exact ⟨n + 1, ReachableIn.instruction n g g1 i it hn hstep⟩
  | branch g g1 i it _ hstep ih =>
    obtain ⟨n, hn⟩ := ih
    exact ⟨n + 1, ReachableIn.branch n g g1 i it hn hstep⟩

theorem visits_step (n : Nat) (node0 node : Node)
    (h0 : node0.occurrences < 2 ^ 32 ∧
      (n + 1 < 2 ^ 32 → 1 ≤ node0.occurrences ∧ node0.occurrences ≤ n + 1))
    (h : node.occurrences = node0.occurrences ∨
      node.occurrences = (node0.occurrences + 1) % 2 ^ 32) :
    node.occurrences < 2 ^ 32 ∧
      (n + 1 + 1 < 2 ^ 32 → 1 ≤ node.occurrences ∧ node.occurrences ≤ n + 1 + 1) := by
  obtain ⟨a, b⟩ := h0
  have hm : (node0.occurrences + 1) % 2 ^ 32 < 2 ^ 32 := Nat.mod_lt _ (by norm_num)
  refine ⟨by rcases h with h | h <;> omega, ?_⟩
  intro hlt
  have hb := b (by omega)
  have hnw : (node0.occurrences + 1) % 2 ^ 32 = node0.occurrences + 1 :=
    Nat.mod_eq_of_lt (by omega)
  rcases h with h | h <;> omega

theorem visits_slot (n : Nat) (g : control_flow_graph) (c it : Nat) (node0 : Node)
    (ih : ∀ k node, map_find g.nodes k = some (some node) →
      node.occurrences < 2 ^ 32 ∧
        (n + 1 < 2 ^ 32 → 1 ≤ node.occurrences ∧ node.occurrences ≤ n + 1))
    (h : slot_after_ensure (map_find g.nodes c) c it = some node0) :
    node0.occurrences < 2 ^ 32 ∧
      (n + 1 < 2 ^ 32 → 1 ≤ node0.occurrences ∧ node0.occurrences ≤ n + 1) := by
  rcases slot_after_ensure_cases h with h1 | ⟨_, h1⟩
  · exact ih c node0 h1
  · rw [h1]
    have : (Node.create c it).occurrences = 1 := rfl
    rw [this]
    exact ⟨by norm_num, fun _ => ⟨le_refl 1, by omega⟩⟩

theorem visits_weaken (n : Nat) (node : Node)
    (h : node.occurrences < 2 ^ 32 ∧
      (n + 1 < 2 ^ 32 → 1 ≤ node.occurrences ∧ node.occurrences ≤ n + 1)) :
    node.occurrences < 2 ^ 32 ∧
      (n + 1 + 1 < 2 ^ 32 → 1 ≤ node.occurrences ∧ node.occurrences ≤ n + 1 + 1) := by
  obtain ⟨a, b⟩ := h
  refine ⟨a, fun hlt => ?_⟩
  have := b (by omega)
  omega

theorem ReachableIn_visits {n : Nat} {g : control_flow_graph} (h : ReachableIn n g) :
    ∀ k node, map_find g.nodes k = some (some node) →
      node.occurrences < 2 ^ 32 ∧
        (n + 1 < 2 ^ 32 → 1 ≤ node.occurrences ∧ node.occurrences ≤ n + 1) := by
  induction h with
  | empty =>
    intro k node hk
    simp [control_flow_graph.empty, map_find] at hk
  | instruction n g g1 i it _ hstep ih =>
    intro k node hk
    obtain ⟨_, _, node0, hslot, hfind, _⟩ := append_instruction_ok hstep
    rw [hfind] at hk
    by_cases hc : (g.set_and_get_current_address i.pointer_address).1 = k
    · rw [if_pos hc] at hk
      injection hk with hk
      injection hk with hk
      rw [← hk]
      exact visits_step n node0 _ (visits_slot n g _ it node0 ih hslot)
        (Node.append_instruction_occurrences node0 i it)
    · rw [if_neg hc] at hk
      exact visits_weaken n node (ih k node hk)
  | branch n g g1 i it _ hstep ih =>
    intro k node hk
    obtain ⟨_, _, node0, hslot, hfind, _⟩ := append_branch_instruction_ok hstep
    rw [hfind] at hk
    by_cases hc : (g.set_and_get_current_address i.pointer_address).1 = k
    · rw [if_pos hc] at hk
      injection hk with hk
      injection hk with hk
      rw [← hk]
      exact visits_step n node0 _ (visits_slot n g _ it node0 ih hslot)
        (Node.append_branch_instruction_occurrences node0 i it)
    · rw [if_neg hc] at hk
      split at hk
      · injection hk with hk
        exact visits_weaken n node (visits_slot n g k it node ih hk)
      · exact visits_weaken n node (ih k node hk)

/-- C27 (as amended): in a graph built from the empty graph by `n` accepted builder
calls, every node, opened, closed or placeholder, has a visit count below `2^32`,
the counter being an `unsigned int` that wraps; as long as `n + 1 < 2^32` the count
is at least 1 and at most `n + 1`. -/
theorem C27_visits_range (n : Nat) (g : control_flow_graph) (h : ReachableIn n g) (k : Nat)
    (node : Node) (hk : map_find g.nodes k = some (some node)) :
    Reachable g ∧ node.occurrences < 2 ^ 32 ∧
    (n + 1 < 2 ^ 32 → 1 ≤ node.occurrences ∧ node.occurrences ≤ n + 1) :=
  ⟨ReachableIn_Reachable h, (ReachableIn_visits h k node hk).1,
    (ReachableIn_visits h k node hk).2⟩

/-- C27, instantiated on the loop scenario, built by two calls: the block at
`0x3000` has one visit. -/
theorem C27_visits_range_witness :
    ReachableIn 2 loop_graph ∧
    map_find loop_graph.nodes 0x3000 = some (some (loop_node 1)) ∧
    (loop_node 1).occurrences < 2 ^ 32 ∧
    (2 + 1 < 2 ^ 32 → 1 ≤ (loop_node 1).occurrences ∧ (loop_node 1).occurrences ≤ 2 + 1) :=
  ⟨ReachableIn.branch 1 (control_flow_graph.empty.append_instruction loop_cmp 1).2 loop_graph
      loop_jne 1
      (ReachableIn.instruction 0 control_flow_graph.empty
        (control_flow_graph.empty.append_instruction loop_cmp 1).2 loop_cmp 1 ReachableIn.empty
        (by decide))
      (by decide),
    by decide,
    (C27_visits_range 2 loop_graph
      (ReachableIn.branch 1 (control_flow_graph.empty.append_instruction loop_cmp 1).2 loop_graph
        loop_jne 1
        (ReachableIn.instruction 0 control_flow_graph.empty
          (control_flow_graph.empty.append_instruction loop_cmp 1).2 loop_cmp 1
          ReachableIn.empty (by decide))
        (by decide))
      0x3000 (loop_node 1) (by decide)).2⟩

/-- C27 as stated fails once the 32-bit counter wraps: the builder reaches the loop
graph with `2^32 - 1` visits of the block at `0x3000`, and one more re-entry at the
head of the block leaves that node with a visit count of 0. -/
theorem C27_counterexample :
    Reachable (loop_graph_visited 0) ∧
    map_find (loop_graph_visited 0).nodes 0x3000 = some (some (loop_node 0)) ∧
    (loop_node 0).occurrences = 0 ∧ ¬ (1 ≤ (loop_node 0).occurrences) :=
  ⟨Reachable_loop_graph_step 4294967295 (Reachable_loop_graph_visited 4294967294 (by decide)),
    by decide, by decide, by decide⟩

/-! ### The branch append of a node -/

/-- C31: on a node that is not closed, `Node::append_branch_instruction` appends the
instruction at the end of the body and closes the node; the visit count, the entry,
the iteration and `max_occurrences` are unchanged; the successors become those of the
instruction when it is not a return and stay what they were when it is a return. -/
theorem C31_append_branch_on_open_node (n : Node) (b : instruction) (iteration : Nat)
    (hopen : n.done = false) :
    (n.append_branch_instruction b iteration).block = n.block ++ [b] ∧
    (n.append_branch_instruction b iteration).done = true ∧
    (n.append_branch_instruction b iteration).occurrences = n.occurrences ∧
    (n.append_branch_instruction b iteration).start_address = n.start_address ∧
    (n.append_branch_instruction b iteration)._iteration = n._iteration ∧
    (n.append_branch_instruction b iteration).max_occurrences = n.max_occurrences ∧
    (b.is_ret = false →
      (n.append_branch_instruction b iteration).true_neighbour = b.true_branch_address ∧
      (n.append_branch_instruction b iteration).false_neighbour = b.false_branch_address) ∧
    (b.is_ret = true →
      (n.append_branch_instruction b iteration).true_neighbour = n.true_neighbour ∧
      (n.append_branch_instruction b iteration).false_neighbour = n.false_neighbour) := by
  have hd : n.is_done = false := hopen
  refine ⟨?_, ?_, ?_, ?_, ?_, ?_, ?_, ?_⟩
  · simp [Node.append_branch_instruction, Node.append_instruction, Node.done, Node.mark_done, hd]
    split <;> rfl
  · exact Node.append_branch_instruction_done n b iteration
  · simp [Node.append_branch_instruction, Node.append_instruction, Node.done, Node.mark_done, hd]
    split <;> rfl
  · exact (Node.append_branch_instruction_frame n b iteration).1
  · exact (Node.append_branch_instruction_frame n b iteration).2.1
  · exact (Node.append_branch_instruction_frame n b iteration).2.2
  · intro hr
    simp [Node.append_branch_instruction, Node.append_instruction, Node.done, Node.mark_done, hd,
      hr, Node.true_neighbour, Node.false_neighbour]
  · intro hr
    simp [Node.append_branch_instruction, Node.append_instruction, Node.done, Node.mark_done, hd,
      hr, Node.true_neighbour, Node.false_neighbour]

/-- C31, instantiated on the open block that holds the `cmp` of the loop scenario and
on the `jne` that closes it. -/
theorem C31_append_branch_on_open_node_witness :
    ({ _start_address := 0x3000, _iteration := 1, block := [loop_cmp] } : Node).done = false ∧
    ({ _start_address := 0x3000, _iteration := 1, block := [loop_cmp] } :
      Node).append_branch_instruction loop_jne 1 = loop_node 1 ∧
    (({ _start_address := 0x3000, _iteration := 1, block := [loop_cmp] } :
      Node).append_branch_instruction loop_jne 1).block =
      ({ _start_address := 0x3000, _iteration := 1, block := [loop_cmp] } : Node).block ++
        [loop_jne] :=
  ⟨by decide, by decide,
    (C31_append_branch_on_open_node
      { _start_address := 0x3000, _iteration := 1, block := [loop_cmp] } loop_jne 1
      (by decide)).1⟩

/-- C32: `Node::append_branch_instruction` is the identity on closed nodes, for every
instruction and every iteration index; as its result is always closed, a second
application, with any instruction and iteration, changes nothing after the first. -/
theorem C32_append_branch_idempotent (n : Node) (b1 b2 : instruction) (it1 it2 : Nat) :
    (n.done = true → n.append_branch_instruction b1 it1 = n) ∧
    (n.append_branch_instruction b1 it1).append_branch_instruction b2 it2 =
      n.append_branch_instruction b1 it1 :=
  ⟨fun h => Node.append_branch_instruction_closed n b1 it1 h,
    Node.append_branch_instruction_closed _ b2 it2
      (Node.append_branch_instruction_done n b1 it1)⟩

/-- C32, instantiated on the closed block of the loop scenario and on the open block
that the `jne` closes. -/
theorem C32_append_branch_idempotent_witness :
    (loop_node 1).done = true ∧
    (loop_node 1).append_branch_instruction self_jump 2 = loop_node 1 ∧
    (({ _start_address := 0x3000, _iteration := 1, block := [loop_cmp] } :
      Node).append_branch_instruction loop_jne 1).append_branch_instruction self_jump 2 =
      ({ _start_address := 0x3000, _iteration := 1, block := [loop_cmp] } :
        Node).append_branch_instruction loop_jne 1 :=
  ⟨by decide,
    (C32_append_branch_idempotent (loop_node 1) self_jump self_jump 2 2).1 (by decide),
    (C32_append_branch_idempotent
      { _start_address := 0x3000, _iteration := 1, block := [loop_cmp] }
      loop_jne self_jump 1 2).2⟩

/-! ### The cursor -/

theorem Reachable_cursor_first {g : control_flow_graph} (hr : Reachable g)
    (hc : g.current_pointer ≠ 0) : g.current_node_start_addr ≠ 0 := by
  have hinv := Reachable_inv hr
  obtain ⟨n, hn, hne⟩ := hinv.cursor hc
  intro h0
  cases hb : n.block with
  | nil => exact hne hb
  | cons x rest =>
    have h1 := hinv.head _ n x hn (by rw [hb]; rfl)
    have h2 := hinv.first h0 _ n x hn (by rw [hb]; simp)
    exact hc (by rw [← h1, h2])

/-- C33: on every graph built from the empty graph by accepted builder calls,
`set_and_get_current_address(a)` leaves in `current_node_start_addr` and
`current_pointer` the `first_entry` and `open_entry` of the cursor rule of the
specification and returns its effective entry; the node map and
`start_address_first_node` are not touched. -/
theorem C33_cursor_rule_refinement (g : control_flow_graph) (hr : Reachable g) (a : Nat) :
    ((g.set_and_get_current_address a).2.current_node_start_addr,
      (g.set_and_get_current_address a).2.current_pointer,
      (g.set_and_get_current_address a).1) =
      spec_cursor_rule g.current_node_start_addr g.current_pointer a ∧
    (g.set_and_get_current_address a).2.nodes = g.nodes ∧
    (g.set_and_get_current_address a).2.start_address_first_node =
      g.start_address_first_node := by
  obtain ⟨h1, h2, h3, h4, h5⟩ := set_and_get_current_address_spec g a
  refine ⟨?_, h5, h4⟩
  rw [h1, h2, h3]
  unfold spec_cursor_rule
  by_cases hc : g.current_pointer = 0
  · by_cases hf : g.current_node_start_addr = 0
    · simp [hc, hf]
    · simp [hc, hf]
  · have hf := Reachable_cursor_first hr hc
    simp [hc, hf]

/-- C33, instantiated on the loop scenario, whose cursor is idle and whose first
entry is `0x3000`: the address `0x3006` becomes the open entry. -/
theorem C33_cursor_rule_refinement_witness :
    Reachable loop_graph ∧
    ((loop_graph.set_and_get_current_address 0x3006).2.current_node_start_addr,
      (loop_graph.set_and_get_current_address 0x3006).2.current_pointer,
      (loop_graph.set_and_get_current_address 0x3006).1) =
      spec_cursor_rule loop_graph.current_node_start_addr loop_graph.current_pointer 0x3006 ∧
    spec_cursor_rule loop_graph.current_node_start_addr loop_graph.current_pointer 0x3006 =
      (0x3000, 0x3006, 0x3006) :=
  ⟨Reachable_loop_graph,
    (C33_cursor_rule_refinement loop_graph Reachable_loop_graph 0x3006).1, by decide⟩

/-- C34: after every accepted `append_branch_instruction` call, from any graph, the
cursor is idle and the node stored at the effective entry of the call is closed;
after every accepted `append_instruction` call the cursor is the effective entry of
the call. -/
theorem C34_cursor_after_append (g g1 : control_flow_graph) (i : instruction)
    (iteration : Nat) :
    (g.append_branch_instruction i iteration = (outcome.ok, g1) →
      g1.current_pointer = 0 ∧
      ∃ node, map_find g1.nodes (g.set_and_get_current_address i.pointer_address).1 =
          some (some node) ∧ node.done = true) ∧
    (g.append_instruction i iteration = (outcome.ok, g1) →
      g1.current_pointer = (g.set_and_get_current_address i.pointer_address).1) := by
  constructor
  · intro h
    obtain ⟨_, _, node, _, hfind, hcp, _⟩ := append_branch_instruction_ok h
    refine ⟨hcp, node.append_branch_instruction i iteration, ?_, ?_⟩
    · rw [hfind, if_pos rfl]
    · exact Node.append_branch_instruction_done node i iteration
  · intro h
    obtain ⟨_, _, node, _, _, hcp, _⟩ := append_instruction_ok h
    exact hcp

/-- C34, instantiated on the two calls of the loop scenario. -/
theorem C34_cursor_after_append_witness :
    control_flow_graph.empty.append_instruction loop_cmp 1 =
      (outcome.ok, (control_flow_graph.empty.append_instruction loop_cmp 1).2) ∧
    (control_flow_graph.empty.append_instruction loop_cmp 1).2.current_pointer =
      (control_flow_graph.empty.set_and_get_current_address loop_cmp.pointer_address).1 ∧
    (control_flow_graph.empty.append_instruction loop_cmp 1).2.append_branch_instruction
      loop_jne 1 = (outcome.ok, loop_graph) ∧
    loop_graph.current_pointer = 0 :=
  ⟨by decide,
    (C34_cursor_after_append control_flow_graph.empty
      (control_flow_graph.empty.append_instruction loop_cmp 1).2 loop_cmp 1).2 (by decide),
    by decide,
    ((C34_cursor_after_append (control_flow_graph.empty.append_instruction loop_cmp 1).2
      loop_graph loop_jne 1).1 (by decide)).1⟩

/-! ### What a builder call leaves alone -/

/-- C35 (as amended): let an `append_branch_instruction` call be accepted, with
effective entry `E`. Each non-zero successor `s` of the resulting node at `E` that is
not `E` itself and was not a key before the call is a key afterwards and holds a node
with entry `s`, the iteration of the call, an empty body, not closed, both successors
zero and one visit. Every key other than `E` that was present before the call holds
afterwards what it held before, and no key other than `E` and the successors is
added. -/
theorem C35_branch_append_frame (g g1 : control_flow_graph) (i : instruction)
    (iteration : Nat) (h : g.append_branch_instruction i iteration = (outcome.ok, g1)) :
    ∃ node, map_find g1.nodes (g.set_and_get_current_address i.pointer_address).1 =
        some (some node) ∧
      (∀ s, (s = node.true_neighbour ∨ s = node.false_neighbour) → s ≠ 0 →
        s ≠ (g.set_and_get_current_address i.pointer_address).1 →
        g.node_exists s = false →
          map_find g1.nodes s = some (some (Node.create s iteration)) ∧
          (Node.create s iteration).start_address = s ∧
          (Node.create s iteration).block = [] ∧
          (Node.create s iteration).done = false ∧
          (Node.create s iteration).true_neighbour = 0 ∧
          (Node.create s iteration).false_neighbour = 0 ∧
          (Node.create s iteration).occurrences = 1) ∧
      (∀ j, j ≠ (g.set_and_get_current_address i.pointer_address).1 →
        g.node_exists j = true → map_find g1.nodes j = map_find g.nodes j) ∧
      (∀ j, j ≠ (g.set_and_get_current_address i.pointer_address).1 →
        j ≠ node.true_neighbour → j ≠ node.false_neighbour →
        map_find g1.nodes j = map_find g.nodes j) := by
  obtain ⟨_, _, node, _, hfind, _⟩ := append_branch_instruction_ok h
  refine ⟨node.append_branch_instruction i iteration, by rw [hfind, if_pos rfl], ?_, ?_, ?_⟩
  · intro s hs hs0 hsE hnew
    have hnone : map_find g.nodes s = none := by
      unfold node_exists at hnew
      cases hf : map_find g.nodes s with
      | none => rfl
      | some p => simp [hf] at hnew
    refine ⟨?_, rfl, rfl, rfl, rfl, rfl, rfl⟩
    rw [hfind, if_neg (fun e => hsE e.symm)]
    have hcond : ((node.append_branch_instruction i iteration).false_branch_address ≠ 0 ∧
        (node.append_branch_instruction i iteration).false_branch_address = s) ∨
        ((node.append_branch_instruction i iteration).true_branch_address ≠ 0 ∧
        (node.append_branch_instruction i iteration).true_branch_address = s) := by
      rcases hs with e | e
      · right
        exact ⟨fun h0 => hs0 (by rw [e]; exact h0), e.symm⟩
      · left
        exact ⟨fun h0 => hs0 (by rw [e]; exact h0), e.symm⟩
    rw [if_pos hcond, hnone]
    rfl
  · intro j hj hex
    rw [hfind, if_neg (fun e => hj e.symm)]
    unfold node_exists at hex
    cases hf : map_find g.nodes j with
    | none => simp [hf] at hex
    | some p =>
      split
      · rfl
      · rfl
  · intro j hj ht hf
    rw [hfind, if_neg (fun e => hj e.symm)]
    have hcond : ¬ (((node.append_branch_instruction i iteration).false_branch_address ≠ 0 ∧
        (node.append_branch_instruction i iteration).false_branch_address = j) ∨
        ((node.append_branch_instruction i iteration).true_branch_address ≠ 0 ∧
        (node.append_branch_instruction i iteration).true_branch_address = j)) := by
      rintro (⟨_, e⟩ | ⟨_, e⟩)
      · exact hf e.symm
      · exact ht e.symm
    rw [if_neg hcond]

/-- C35, instantiated on the `jne` of the loop scenario: the successor `0x3006` is
new and gets an empty node. -/
theorem C35_branch_append_frame_witness :
    (control_flow_graph.empty.append_instruction loop_cmp 1).2.append_branch_instruction
      loop_jne 1 = (outcome.ok, loop_graph) ∧
    map_find loop_graph.nodes 0x3000 = some (some (loop_node 1)) ∧
    (loop_node 1).false_neighbour = 0x3006 ∧
    (control_flow_graph.empty.append_instruction loop_cmp 1).2.node_exists 0x3006 = false ∧
    map_find loop_graph.nodes 0x3006 = some (some (Node.create 0x3006 1)) ∧
    ∃ node, map_find loop_graph.nodes
        ((control_flow_graph.empty.append_instruction loop_cmp 1).2.set_and_get_current_address
          loop_jne.pointer_address).1 = some (some node) ∧
      (∀ j, j ≠ ((control_flow_graph.empty.append_instruction loop_cmp
            1).2.set_and_get_current_address loop_jne.pointer_address).1 →
        (control_flow_graph.empty.append_instruction loop_cmp 1).2.node_exists j = true →
        map_find loop_graph.nodes j =
          map_find (control_flow_graph.empty.append_instruction loop_cmp 1).2.nodes j) := by
  refine ⟨by decide, by decide, by decide, by decide, by decide, ?_⟩
  obtain ⟨node, h1, _, h3, _⟩ := C35_branch_append_frame
    (control_flow_graph.empty.append_instruction loop_cmp 1).2 loop_graph loop_jne 1 (by decide)
  exact ⟨node, h1, h3⟩

/-- C35 as stated fails when a successor is the effective entry itself: on the empty
graph the jump at `0x5000` to `0x5000` has the successor `0x5000`, which is not a key
before the call, and the key holds afterwards the closed block with the jump, not an
empty node. -/
theorem C35_counterexample :
    control_flow_graph.empty.append_branch_instruction self_jump 1 = (outcome.ok, jump_graph) ∧
    (control_flow_graph.empty.set_and_get_current_address self_jump.pointer_address).1 = 0x5000 ∧
    map_find jump_graph.nodes 0x5000 = some (some jump_node) ∧
    jump_node.true_neighbour = 0x5000 ∧
    control_flow_graph.empty.node_exists 0x5000 = false ∧
    jump_node.block ≠ [] ∧ jump_node.done = true :=
  ⟨by decide, by decide, by decide, by decide, by decide, by decide, by decide⟩

/-- C36 (as amended): let an `append_branch_instruction` call be accepted, with
effective entry `E`, and let a successor of the branch be `E` itself. Whether or not
there was a node at `E` before the call, the node stored at `E` afterwards is what
`Node::append_branch_instruction` makes of the node that was there, or of a new node:
it is closed, so it is not an empty placeholder. If the node was not closed before,
its body now ends with the branch, and, the branch not being a return, `E` is one of
its successors; if it was closed already it is unchanged, whatever the branch is. -/
theorem C36_self_loop (g g1 : control_flow_graph) (i : instruction) (iteration : Nat)
    (h : g.append_branch_instruction i iteration = (outcome.ok, g1))
    (hself : i.true_branch_address = (g.set_and_get_current_address i.pointer_address).1 ∨
      i.false_branch_address = (g.set_and_get_current_address i.pointer_address).1) :
    ∃ node0, slot_after_ensure
        (map_find g.nodes (g.set_and_get_current_address i.pointer_address).1)
        (g.set_and_get_current_address i.pointer_address).1 iteration = some node0 ∧
      map_find g1.nodes (g.set_and_get_current_address i.pointer_address).1 =
        some (some (node0.append_branch_instruction i iteration)) ∧
      (node0.append_branch_instruction i iteration).done = true ∧
      (node0.done = false →
        (node0.append_branch_instruction i iteration).block = node0.block ++ [i] ∧
        (node0.append_branch_instruction i iteration).block.getLast? = some i ∧
        (i.is_ret = false →
          (node0.append_branch_instruction i iteration).true_neighbour =
            (g.set_and_get_current_address i.pointer_address).1 ∨
          (node0.append_branch_instruction i iteration).false_neighbour =
            (g.set_and_get_current_address i.pointer_address).1)) ∧
      (node0.done = true → node0.append_branch_instruction i iteration = node0) := by
  obtain ⟨_, _, node, hslot, hfind, _⟩ := append_branch_instruction_ok h
  refine ⟨node, hslot, by rw [hfind, if_pos rfl],
    Node.append_branch_instruction_done node i iteration, ?_, ?_⟩
  · intro hopen
    have hd : node.is_done = false := hopen
    have hb : (node.append_branch_instruction i iteration).block = node.block ++ [i] := by
      rw [Node.append_branch_instruction_block]
      simp [hd]
    refine ⟨hb, by rw [hb]; simp, ?_⟩
    intro hret
    obtain ⟨s1, s2⟩ := Node.append_branch_instruction_succ node i iteration
    simp only [hd, hret, Bool.false_eq_true, or_self, if_false] at s1 s2
    rcases hself with e | e
    · left
      rw [Node.true_neighbour, s1]
      exact e
    · right
      rw [Node.false_neighbour, s2]
      exact e
  · intro hclosed
    exact Node.append_branch_instruction_closed node i iteration hclosed

/-- C36, instantiated on the empty graph and the jump at `0x5000` to `0x5000`: there
is no node at `0x5000` before the call, and afterwards the key holds the closed block
whose body is the jump. -/
theorem C36_self_loop_witness :
    control_flow_graph.empty.append_branch_instruction self_jump 1 = (outcome.ok, jump_graph) ∧
    self_jump.true_branch_address =
      (control_flow_graph.empty.set_and_get_current_address self_jump.pointer_address).1 ∧
    map_find jump_graph.nodes 0x5000 = some (some jump_node) ∧
    ∃ node0, slot_after_ensure
        (map_find control_flow_graph.empty.nodes
          (control_flow_graph.empty.set_and_get_current_address self_jump.pointer_address).1)
        (control_flow_graph.empty.set_and_get_current_address self_jump.pointer_address).1 1 =
          some node0 ∧
      map_find jump_graph.nodes
        (control_flow_graph.empty.set_and_get_current_address self_jump.pointer_address).1 =
        some (some (node0.append_branch_instruction self_jump 1)) ∧
      (node0.append_branch_instruction self_jump 1).done = true := by
  refine ⟨by decide, by decide, by decide, ?_⟩
  obtain ⟨node0, h1, h2, h3, _⟩ := C36_self_loop control_flow_graph.empty jump_graph self_jump 1
    (by decide) (Or.inl (by decide))
  exact ⟨node0, h1, h2, h3⟩

/-- C36 as stated fails when the node at the effective entry is closed already: on
the graph that holds the closed block `jmp 0x5000` at `0x5000`, the accepted call
with another branch at `0x5000` whose target is `0x5000` leaves the block as it was,
and its body does not end with that branch. -/
theorem C36_counterexample :
    Reachable jump_graph ∧
    jump_graph.append_branch_instruction other_jump 1 = (outcome.ok, jump_graph) ∧
    (jump_graph.set_and_get_current_address other_jump.pointer_address).1 = 0x5000 ∧
    other_jump.true_branch_address = 0x5000 ∧
    map_find jump_graph.nodes 0x5000 = some (some jump_node) ∧
    jump_node.block.getLast? = some self_jump ∧
    jump_node.block.getLast? ≠ some other_jump :=
  ⟨Reachable_feed_all 1 [self_jump] Reachable.empty (by decide), by decide, by decide,
    by decide, by decide, by decide, by decide⟩

/-- C37: let an `append_instruction` call be accepted, with effective entry `E`.
Every key present before the call is present after it, `E` is present after it and
is the only key that can have been added, and every key other than `E` holds what it
held before. -/
theorem C37_instruction_append_frame (g g1 : control_flow_graph) (i : instruction)
    (iteration : Nat) (h : g.append_instruction i iteration = (outcome.ok, g1)) :
    (∀ j, g.node_exists j = true → g1.node_exists j = true) ∧
    g1.node_exists (g.set_and_get_current_address i.pointer_address).1 = true ∧
    (∀ j, g1.node_exists j = true →
      j = (g.set_and_get_current_address i.pointer_address).1 ∨ g.node_exists j = true) ∧
    (∀ j, j ≠ (g.set_and_get_current_address i.pointer_address).1 →
      map_find g1.nodes j = map_find g.nodes j) := by
  obtain ⟨_, _, node, _, hfind, _⟩ := append_instruction_ok h
  refine ⟨?_, ?_, ?_, ?_⟩
  · intro j hj
    unfold node_exists at hj ⊢
    rw [hfind]
    split
    · rfl
    · exact hj
  · unfold node_exists
    rw [hfind, if_pos rfl]
    rfl
  · intro j hj
    by_cases e : (g.set_and_get_current_address i.pointer_address).1 = j
    · exact Or.inl e.symm
    · right
      unfold node_exists at hj ⊢
      rw [hfind, if_neg e] at hj
      exact hj
  · intro j hj
    rw [hfind, if_neg (fun e => hj e.symm)]

/-- C37, instantiated on the loop scenario followed by the instruction at `0x3006`,
which lands in the placeholder: the closed block at `0x3000` is untouched. -/
theorem C37_instruction_append_frame_witness :
    loop_graph.append_instruction
        { address := 0x3006, text := "nop", kind := Kind.none, length := 1, target := 0 } 1 =
      (outcome.ok, (loop_graph.append_instruction
        { address := 0x3006, text := "nop", kind := Kind.none, length := 1, target := 0 } 1).2) ∧
    (loop_graph.set_and_get_current_address 0x3006).1 = 0x3006 ∧
    map_find (loop_graph.append_instruction
        { address := 0x3006, text := "nop", kind := Kind.none, length := 1, target := 0 }
        1).2.nodes 0x3000 = map_find loop_graph.nodes 0x3000 :=
  ⟨by decide, by decide,
    (C37_instruction_append_frame loop_graph _
      { address := 0x3006, text := "nop", kind := Kind.none, length := 1, target := 0 } 1
      (by decide)).2.2.2 0x3000 (by decide)⟩

/-- C38: in every graph built from the empty graph by accepted builder calls, a node
that is not closed has both successors zero. -/
theorem C38_open_node_has_no_edges (g : control_flow_graph) (hr : Reachable g) (k : Nat)
    (n : Node) (hn : map_find g.nodes k = some (some n)) (hopen : n.done = false) :
    n.true_neighbour = 0 ∧ n.false_neighbour = 0 :=
  ⟨((Reachable_inv hr).opened k n hn hopen).1, ((Reachable_inv hr).opened k n hn hopen).2.1⟩

/-- C38, instantiated on the placeholder `0x3006` of the loop scenario. -/
theorem C38_open_node_has_no_edges_witness :
    Reachable loop_graph ∧
    map_find loop_graph.nodes 0x3006 = some (some (Node.create 0x3006 1)) ∧
    (Node.create 0x3006 1).done = false ∧
    (Node.create 0x3006 1).true_neighbour = 0 ∧ (Node.create 0x3006 1).false_neighbour = 0 :=
  ⟨Reachable_loop_graph, by decide, by decide,
    C38_open_node_has_no_edges loop_graph Reachable_loop_graph 0x3006 (Node.create 0x3006 1)
      (by decide) (by decide)⟩

/-! ### The palette index in closed form -/

theorem store_records_cons (nodes : List (Nat × Option Node)) (r : Nat × Option Node)
    (rest : List (Nat × Option Node)) :
    store_records nodes (r :: rest) = store_records (map_assign nodes r.1 r.2) rest := rfl

theorem store_records_find_other (records nodes : List (Nat × Option Node)) (j : Nat)
    (h : ∀ r ∈ records, r.1 ≠ j) :
    map_find (store_records nodes records) j = map_find nodes j := by
  induction records generalizing nodes with
  | nil => rfl
  | cons r rest ih =>
    rw [store_records_cons, ih _ (fun r1 h1 => h r1 (by simp [h1])), map_find_assign,
      if_neg (h r (by simp))]

theorem store_records_find_key (records nodes : List (Nat × Option Node)) (j : Nat)
    (h : j ∈ records.map Prod.fst) :
    ∃ r ∈ records, r.1 = j ∧ map_find (store_records nodes records) j = some r.2 := by
  induction records generalizing nodes with
  | nil => simp at h
  | cons r rest ih =>
    rw [store_records_cons]
    by_cases hr : j ∈ rest.map Prod.fst
    · obtain ⟨r1, h1, h2, h3⟩ := ih (map_assign nodes r.1 r.2) hr
      exact ⟨r1, by simp [h1], h2, h3⟩
    · have hj : r.1 = j := by
        simp only [List.map_cons, List.mem_cons] at h
        rcases h with e | e
        · exact e.symm
        · exact absurd e hr
      refine ⟨r, by simp, hj, ?_⟩
      rw [store_records_find_other rest _ j, map_find_assign, if_pos hj]
      intro r1 h1 e
      exact hr (List.mem_map.2 ⟨r1, h1, e⟩)

theorem store_records_find_nodup (records nodes : List (Nat × Option Node))
    (hd : (records.map Prod.fst).Nodup) (r : Nat × Option Node) (hr : r ∈ records) :
    map_find (store_records nodes records) r.1 = some r.2 := by
  obtain ⟨r1, h1, h2, h3⟩ := store_records_find_key records nodes r.1
    (List.mem_map.2 ⟨r, hr, rfl⟩)
  have : r1 = r := List.inj_on_of_nodup_map hd h1 hr h2
  rw [h3, this]

theorem decoded_records_some (codec : instruction_codec) (m : Memory) (count mem : Nat)
    (h : body_counts_fit codec m count mem = true) :
    ∀ r ∈ decoded_records codec m count mem, ∃ node, r.2 = some node := by
  induction count generalizing mem with
  | zero => intro r hr; simp [decoded_records] at hr
  | succ count ih =>
    simp only [body_counts_fit, Bool.and_eq_true, decide_eq_true_eq] at h
    obtain ⟨h1, h2⟩ := h
    obtain ⟨node, hn, _⟩ := Node.load_from_memory_some codec m (mem + 8) h1
    intro r hr
    simp only [decoded_records, List.mem_cons] at hr
    rcases hr with e | e
    · subst e
      refine ⟨node, ?_⟩
      dsimp only
      exact hn
    · exact ih (mem + 8 + record_size codec m (mem + 8)) h2 r e

/-- C40: `control_flow_graph::load_from_memory`, called on a graph that holds nodes
already, with a buffer whose node count and body counts are below `2^32`, returns the
graph in which `start_address_first_node` is the value decoded from the first 8
bytes, every key that occurs in the buffer holds a node decoded from a record of that
key, built by `Node::load_from_memory` on a new node and so without anything of the
node that was there, and every key that does not occur in the buffer holds what it
held before. When the keys of the buffer are distinct, each record is found under
its key. The cursor members are unchanged. -/
theorem C40_load_from_memory_replaces (codec : instruction_codec) (g : control_flow_graph)
    (m : Memory) (mem : Nat)
    (hcount : le_value (m.read (mem + 8) 8) < 2 ^ 32)
    (hfit : body_counts_fit codec m (le_value (m.read (mem + 8) 8)) (mem + 16) = true) :
    ∃ g1, control_flow_graph.load_from_memory codec g m mem = some g1 ∧
      g1.start_address_first_node = le_value (m.read mem 8) ∧
      g1.current_node_start_addr = g.current_node_start_addr ∧
      g1.current_pointer = g.current_pointer ∧
      (∀ j, j ∈ (decoded_records codec m (le_value (m.read (mem + 8) 8)) (mem + 16)).map
          Prod.fst →
        ∃ r ∈ decoded_records codec m (le_value (m.read (mem + 8) 8)) (mem + 16),
          r.1 = j ∧ map_find g1.nodes j = some r.2 ∧ ∃ node, r.2 = some node) ∧
      (∀ j, j ∉ (decoded_records codec m (le_value (m.read (mem + 8) 8)) (mem + 16)).map
          Prod.fst →
        map_find g1.nodes j = map_find g.nodes j) ∧
      (((decoded_records codec m (le_value (m.read (mem + 8) 8)) (mem + 16)).map
          Prod.fst).Nodup →
        ∀ r ∈ decoded_records codec m (le_value (m.read (mem + 8) 8)) (mem + 16),
          map_find g1.nodes r.1 = some r.2) := by
  have hload : control_flow_graph.load_from_memory codec g m mem =
      some { nodes := store_records g.nodes
               (decoded_records codec m (le_value (m.read (mem + 8) 8)) (mem + 16)),
             start_address_first_node := le_value (m.read mem 8),
             current_node_start_addr := g.current_node_start_addr,
             current_pointer := g.current_pointer } := by
    unfold control_flow_graph.load_from_memory
    simp only [hcount, if_true]
    rw [load_nodes_some codec m _ (mem + 16)
      { g with start_address_first_node := le_value (m.read mem 8) } hfit]
  have hsome := decoded_records_some codec m _ _ hfit
  generalize decoded_records codec m (le_value (m.read (mem + 8) 8)) (mem + 16) = records
    at hload hsome ⊢
  refine ⟨_, hload, rfl, rfl, rfl, ?_, ?_, ?_⟩
  · intro j hj
    obtain ⟨r, h1, h2, h3⟩ := store_records_find_key records g.nodes j hj
    exact ⟨r, h1, h2, h3, hsome r h1⟩
  · intro j hj
    exact store_records_find_other records g.nodes j
      (fun r hr e => hj (List.mem_map.2 ⟨r, hr, e⟩))
  · intro hd r hr
    exact store_records_find_nodup records g.nodes hd r hr

/-- C40, instantiated on the graph that holds a closed block at the key 0 and a
placeholder at `0x10`, and on the buffer that announces one node, whose key and
fields are zero: the block at 0 is replaced by the decoded node, its body and its
visit count gone, the placeholder at `0x10` is untouched, and the first entry is
`0x1234`. -/
theorem C40_load_from_memory_replaces_witness :
    le_value (truncated_buffer.read (0 + 8) 8) < 2 ^ 32 ∧
    body_counts_fit wire_codec truncated_buffer (le_value (truncated_buffer.read (0 + 8) 8))
      (0 + 16) = true ∧
    map_find zero_entry_graph.nodes 0 = some (some zero_entry_node) ∧
    control_flow_graph.load_from_memory wire_codec zero_entry_graph truncated_buffer 0 =
      some zero_entry_graph_loaded ∧
    map_find zero_entry_graph_loaded.nodes 0 = some (some zero_node) ∧
    map_find zero_entry_graph_loaded.nodes 0x10 = map_find zero_entry_graph.nodes 0x10 ∧
    ∃ g1, control_flow_graph.load_from_memory wire_codec zero_entry_graph truncated_buffer 0 =
        some g1 ∧
      g1.start_address_first_node = le_value (truncated_buffer.read 0 8) := by
  refine ⟨by decide, by decide, by decide, by decide, by decide, by decide, ?_⟩
  obtain ⟨g1, h1, h2, _⟩ := C40_load_from_memory_replaces wire_codec zero_entry_graph
    truncated_buffer 0 (by decide) (by decide)
  exact ⟨g1, h1, h2⟩
